import Mathlib

/-!
# Linear-probe hash table (`src/container/hash/linear_probe_hash_table.cpp`)

A shallow embedding of `LinearProbeHashTable<int, int, IntComparator>` and of the
page classes it drives, followed by theorems about `GetValue`, `Insert`,
`Remove` and `Resize`.

Modelling conventions.

* The table is driven by one thread. `GetValue`, `Insert`, `Remove` and
  `Resize` are the data path of the four functions, without their latch calls:
  what a call computes when no latch call has to wait. `GetValueLatched`,
  `InsertLatched`, `RemoveLatched` and `ResizeLatched` are the same functions
  with the calls on `table_latch_` and on the page latches in place and the
  state of the latches threaded through. There being no other thread to release
  a latch, a latch call that has to wait never returns: the outcome
  `Stop.blocked`. The latch of a page is taken to stay with its page id.
* The buffer pool never fails: `FetchPage` always yields the page, `NewPage`
  always yields a fresh zeroed page, and a page pointer obtained from the pool
  stays readable after `UnpinPage` (the pool is large enough that no frame is
  recycled while `Resize` holds its `oldBlocks` pointers).
* `size_t` and `unsigned` quantities are natural numbers, and the header is
  taken to be able to list any number of block ids. The product
  `initial_size * 2` of line 212, whose factor the caller of `Resize` chooses,
  is taken modulo 2^64 in `ResizeLatchedWith`; in `ResizeWith` it is the
  natural number, the same as long as `initial_size` is below 2^63.
* `BLOCK_ARRAY_SIZE`, a constant of a header that is not part of the sources,
  is a parameter; it is a positive constant in the program.
* The remainder `% NumBlocks()` by zero, which is undefined in C++, is the fault
  `Fault.modByZero`.  The recursion `Insert -> Resize -> Insert` is unfolded by
  a fuel argument; running out of it is the fault `Fault.outOfFuel`.
* Pin counts are not part of the table state; `InsertPins` and `ResizePins`
  are `Insert` and `Resize` once more, the latch calls left out as there, with
  the pin count of every page threaded through.
-/

namespace bustub

/-! ## Block page -/

/-- Modelled from the spec: one slot of a block page (the class
`HashTableBlockPage` is declared in a header that is not part of the sources):
a key, a value, the occupied bit and the valid bit. -/
structure Slot where
  key : Int
  value : Int
  occupied : Bool
  valid : Bool
deriving DecidableEq, Repr

/-- Modelled from the spec: a block page is an array of `BLOCK_ARRAY_SIZE`
slots; only the indices below `BLOCK_ARRAY_SIZE` are ever read or written. -/
abbrev HashTableBlockPage := Nat → Slot

/-- Modelled from the spec: a page as `NewPage` hands it out, zero-filled: every slot
unoccupied and not valid, key and value zero. -/
def zeroPage : HashTableBlockPage := fun _ => ⟨0, 0, false, false⟩

/-- Modelled from the spec: `HashTableBlockPage::IsOccupied`, the occupied bit of a slot. -/
def IsOccupied (blockPage : HashTableBlockPage) (i : Nat) : Bool := (blockPage i).occupied

/-- Modelled from the spec: `HashTableBlockPage::IsValid`, the valid bit of a slot. -/
def IsValid (blockPage : HashTableBlockPage) (i : Nat) : Bool := (blockPage i).valid

/-- Modelled from the spec: `HashTableBlockPage::KeyAt`, the key stored in a slot. -/
def KeyAt (blockPage : HashTableBlockPage) (i : Nat) : Int := (blockPage i).key

/-- Modelled from the spec: `HashTableBlockPage::ValueAt`, the value stored in a slot. -/
def ValueAt (blockPage : HashTableBlockPage) (i : Nat) : Int := (blockPage i).value

/-- Modelled from the spec: `HashTableBlockPage::Insert`, which writes a pair into a slot
and sets its occupied and valid bits (the table calls it on unoccupied slots only). -/
def BlockInsert (blockPage : HashTableBlockPage) (i : Nat) (key value : Int) :
    HashTableBlockPage :=
  Function.update blockPage i ⟨key, value, true, true⟩

/-- Modelled from the spec: `HashTableBlockPage::Remove`, which clears the valid bit of a
slot and leaves its key, value and occupied bit. -/
def BlockRemove (blockPage : HashTableBlockPage) (i : Nat) : HashTableBlockPage :=
  Function.update blockPage i { blockPage i with valid := false }

/-- Modelled from the spec: `HashTableBlockPage::IsFull`, true when all
`BLOCK_ARRAY_SIZE` slots are occupied. -/
def IsFull (BLOCK_ARRAY_SIZE : Nat) (blockPage : HashTableBlockPage) : Bool :=
  (List.range BLOCK_ARRAY_SIZE).all fun i => IsOccupied blockPage i

/-- Modelled from the spec: `IntComparator` (declared in a missing header), the
three-way comparison of two keys. -/
def comparator_ (lhs rhs : Int) : Int :=
  if lhs < rhs then -1 else if rhs < lhs then 1 else 0

/-- Modelled from the spec: `HashTableBlockPage::isKeyValueExist`, true when some valid
slot holds a key comparing equal to `key` together with the value `value`. -/
def isKeyValueExist (BLOCK_ARRAY_SIZE : Nat) (blockPage : HashTableBlockPage)
    (key value : Int) : Bool :=
  (List.range BLOCK_ARRAY_SIZE).any fun i =>
    IsValid blockPage i && comparator_ (KeyAt blockPage i) key == 0 &&
      ValueAt blockPage i == value

/-! ## Header page -/

/-- Modelled from the spec: the header page (class `HashTableHeaderPage`, declared in a
missing header): its page id, the capacity and the ordered list of block page
ids. The append cursor of the class is the length of the list. -/
structure HashTableHeaderPage where
  page_id : Nat
  size : Nat
  block_page_ids : List Nat
deriving DecidableEq, Repr

/-- Modelled from the spec: `HashTableHeaderPage::NumBlocks`, the block count. -/
def NumBlocks (headerPage : HashTableHeaderPage) : Nat := headerPage.block_page_ids.length

/-- Modelled from the spec: `HashTableHeaderPage::GetBlockPageId`, the page id at a block
index. -/
def GetBlockPageId (headerPage : HashTableHeaderPage) (index : Nat) : Nat :=
  headerPage.block_page_ids.getD index 0

/-- Modelled from the spec: `HashTableHeaderPage::AddBlockPageId`, which appends a page
id at the cursor. -/
def AddBlockPageId (headerPage : HashTableHeaderPage) (page_id : Nat) : HashTableHeaderPage :=
  { headerPage with block_page_ids := headerPage.block_page_ids ++ [page_id] }

/-- Modelled from the spec: `HashTableHeaderPage::ResetNextIndex`, which resets the
append cursor, so that the header lists no block. -/
def ResetNextIndex (headerPage : HashTableHeaderPage) : HashTableHeaderPage :=
  { headerPage with block_page_ids := [] }

/-- Modelled from the spec: `HashTableHeaderPage::SetSize`. -/
def SetSize (headerPage : HashTableHeaderPage) (size : Nat) : HashTableHeaderPage :=
  { headerPage with size := size }

/-! ## Buffer pool -/

/-- Modelled from the spec: the buffer pool (class `BufferPoolManager`, external): the
content of every block page, the next page id to hand out, and the ids
passed to `DeletePage`. -/
structure BufferPoolManager where
  pages : Nat → HashTableBlockPage
  next_page_id : Nat
  deleted : List Nat

/-- Modelled from the spec: `BufferPoolManager::NewPage`: a fresh page id and a zeroed
page under it. -/
def NewPage (bpm : BufferPoolManager) : Nat × BufferPoolManager :=
  (bpm.next_page_id,
    { bpm with pages := Function.update bpm.pages bpm.next_page_id zeroPage,
               next_page_id := bpm.next_page_id + 1 })

/-- Modelled from the spec: `BufferPoolManager::FetchPage` on a pool that never fails. -/
def FetchPage (bpm : BufferPoolManager) (page_id : Nat) : HashTableBlockPage :=
  bpm.pages page_id

/-- Modelled from the spec: `BufferPoolManager::DeletePage`, which frees a page. -/
def DeletePage (bpm : BufferPoolManager) (page_id : Nat) : BufferPoolManager :=
  { bpm with deleted := page_id :: bpm.deleted }

/-- A write through a block page pointer: the page under `page_id` becomes
`blockPage`. -/
def writePage (bpm : BufferPoolManager) (page_id : Nat) (blockPage : HashTableBlockPage) :
    BufferPoolManager :=
  { bpm with pages := Function.update bpm.pages page_id blockPage }

/-- An empty pool whose first page id is 0. -/
def emptyPool : BufferPoolManager := ⟨fun _ => zeroPage, 0, []⟩

/-! ## Hash table -/

/-- The state behind a `LinearProbeHashTable`: its header page and the buffer
pool holding its block pages. -/
structure LinearProbeHashTable where
  headerPage : HashTableHeaderPage
  buffer_pool_manager_ : BufferPoolManager

/-- The undefined behaviours and the fuel bound of the model. -/
inductive Fault where
  | modByZero
  | outOfFuel
deriving DecidableEq, Repr

/-- The loop `for (i = 0; i < blockNum; i++) { NewPage; AddBlockPageId; UnpinPage }`
of the constructor (lines 47-54) and of `Resize` (lines 232-236). -/
def allocBlocks : Nat → HashTableHeaderPage → BufferPoolManager →
    HashTableHeaderPage × BufferPoolManager
  | 0, headerPage, bpm => (headerPage, bpm)
  | blockNum + 1, headerPage, bpm =>
    allocBlocks blockNum (AddBlockPageId headerPage (NewPage bpm).1) (NewPage bpm).2

/-- The constructor (lines 32-57), run on the pool `bpm`: a header page of size
`num_buckets` listing `num_buckets / BLOCK_ARRAY_SIZE` new block pages. -/
def construct (BLOCK_ARRAY_SIZE : Nat) (bpm : BufferPoolManager) (num_buckets : Nat) :
    LinearProbeHashTable :=
  let headerPage : HashTableHeaderPage := ⟨(NewPage bpm).1, num_buckets, []⟩
  let blockNum := num_buckets / BLOCK_ARRAY_SIZE
  let r := allocBlocks blockNum headerPage (NewPage bpm).2
  ⟨r.1, r.2⟩

/-- The slot loop of `GetValue` (lines 76-85) over the slot indices still to
visit; the state is `(res, foundEmptySlot, result)`. A matching valid slot
appends its value and leaves the loop. -/
def GetValue.forSlots (key : Int) (blockPage : HashTableBlockPage) :
    List Nat → Bool → Bool → List Int → Bool × Bool × List Int
  | [], res, foundEmptySlot, result => (res, foundEmptySlot, result)
  | i :: rest, res, foundEmptySlot, result =>
    if IsValid blockPage i && comparator_ (KeyAt blockPage i) key == 0 then
      (true, foundEmptySlot, result ++ [ValueAt blockPage i])
    else if !IsOccupied blockPage i then
      GetValue.forSlots key blockPage rest res true result
    else
      GetValue.forSlots key blockPage rest res foundEmptySlot result

/-- The block loop of `GetValue` (lines 75-92). The first argument bounds the
number of iterations; `NumBlocks` of them always suffice because
`visitedBlocks` grows by one each time. -/
def GetValue.whileBlocks (BLOCK_ARRAY_SIZE : Nat) (key : Int)
    (headerPage : HashTableHeaderPage) (bpm : BufferPoolManager) :
    Nat → Nat → Nat → Bool → Bool → List Int → Bool × List Int
  | 0, _, _, _, res, result => (res, result)
  | steps + 1, visitedBlocks, targetBlockIndex, foundEmptySlot, res, result =>
    if !foundEmptySlot && decide (visitedBlocks < NumBlocks headerPage) then
      let blockPage := FetchPage bpm (GetBlockPageId headerPage targetBlockIndex)
      let r := GetValue.forSlots key blockPage (List.range BLOCK_ARRAY_SIZE) res
        foundEmptySlot result
      GetValue.whileBlocks BLOCK_ARRAY_SIZE key headerPage bpm steps (visitedBlocks + 1)
        ((targetBlockIndex + 1) % NumBlocks headerPage) r.2.1 r.1 r.2.2
    else (res, result)

/-- `LinearProbeHashTable::GetValue` (lines 58-98): the returned flag and the
vector `result` after the call. The `RLock` of line 61 is left out here, see
`GetValueLatched`. -/
def GetValue (hash_fn_ : Int → Nat) (BLOCK_ARRAY_SIZE : Nat) (key : Int) (result : List Int)
    (t : LinearProbeHashTable) : Except Fault (Bool × List Int) :=
  if NumBlocks t.headerPage = 0 then .error .modByZero
  else
    let targetBlockIndex := hash_fn_ key % NumBlocks t.headerPage
    .ok (GetValue.whileBlocks BLOCK_ARRAY_SIZE key t.headerPage t.buffer_pool_manager_
      (NumBlocks t.headerPage) 1 targetBlockIndex false false result)

/-- The block loop of `Insert` (lines 119-131): skip full blocks, looking in
each for the pair. Returns `(found, visitedBlocks, targetBlockIndex)`. -/
def Insert.whileBlocks (BLOCK_ARRAY_SIZE : Nat) (key value : Int)
    (headerPage : HashTableHeaderPage) (bpm : BufferPoolManager) :
    Nat → Nat → Nat → Bool × Nat × Nat
  | 0, visitedBlocks, targetBlockIndex => (false, visitedBlocks, targetBlockIndex)
  | steps + 1, visitedBlocks, targetBlockIndex =>
    let blockPage := FetchPage bpm (GetBlockPageId headerPage targetBlockIndex)
    if IsFull BLOCK_ARRAY_SIZE blockPage && decide (visitedBlocks ≤ NumBlocks headerPage) then
      if isKeyValueExist BLOCK_ARRAY_SIZE blockPage key value then
        (true, visitedBlocks, targetBlockIndex)
      else
        Insert.whileBlocks BLOCK_ARRAY_SIZE key value headerPage bpm steps (visitedBlocks + 1)
          ((targetBlockIndex + 1) % NumBlocks headerPage)
    else (false, visitedBlocks, targetBlockIndex)

/-- The slot loop of `Insert` (lines 139-145): write the pair into the first
unoccupied slot. Returns the block page and `res`. -/
def Insert.forSlots (key value : Int) :
    List Nat → HashTableBlockPage → HashTableBlockPage × Bool
  | [], blockPage => (blockPage, false)
  | i :: rest, blockPage =>
    if !IsOccupied blockPage i then (BlockInsert blockPage i key value, true)
    else Insert.forSlots key value rest blockPage

/-- The rehash loop of `Resize` over one old block (lines 240-242): `Insert`
of the key and value of every slot, whatever its bits; the results are
dropped. -/
def Resize.forPairs
    (insert : Int → Int → LinearProbeHashTable → Except Fault (Bool × LinearProbeHashTable))
    (block : HashTableBlockPage) :
    List Nat → LinearProbeHashTable → Except Fault LinearProbeHashTable
  | [], t => .ok t
  | pairIndex :: rest, t =>
    match insert (KeyAt block pairIndex) (ValueAt block pairIndex) t with
    | .error e => .error e
    | .ok r => Resize.forPairs insert block rest r.2

/-- The rehash loop of `Resize` over the old blocks (lines 238-244): rehash a
block, then delete its page. -/
def Resize.forBlocks (BLOCK_ARRAY_SIZE : Nat)
    (insert : Int → Int → LinearProbeHashTable → Except Fault (Bool × LinearProbeHashTable)) :
    List (HashTableBlockPage × Nat) → LinearProbeHashTable →
      Except Fault LinearProbeHashTable
  | [], t => .ok t
  | (block, oldPageId) :: rest, t =>
    match Resize.forPairs insert block (List.range BLOCK_ARRAY_SIZE) t with
    | .error e => .error e
    | .ok t1 =>
      Resize.forBlocks BLOCK_ARRAY_SIZE insert rest
        ⟨t1.headerPage, DeletePage t1.buffer_pool_manager_ oldPageId⟩

/-- `LinearProbeHashTable::Resize` (lines 208-249), with the `Insert` it calls
as a parameter. The calls on `table_latch_` (lines 210 and 247) are left out
here and `newSize` is a natural number, see `ResizeLatchedWith`. -/
def ResizeWith (BLOCK_ARRAY_SIZE : Nat)
    (insert : Int → Int → LinearProbeHashTable → Except Fault (Bool × LinearProbeHashTable))
    (initial_size : Nat) (t : LinearProbeHashTable) : Except Fault LinearProbeHashTable :=
  let newSize := initial_size * 2
  if t.headerPage.size ≥ newSize then .ok t
  else
    let oldPageIds := t.headerPage.block_page_ids
    let oldBlocks := oldPageIds.map (FetchPage t.buffer_pool_manager_)
    let headerPage := ResetNextIndex (SetSize t.headerPage newSize)
    let blockNum := newSize / BLOCK_ARRAY_SIZE
    let r := allocBlocks blockNum headerPage t.buffer_pool_manager_
    Resize.forBlocks BLOCK_ARRAY_SIZE insert (oldBlocks.zip oldPageIds) ⟨r.1, r.2⟩

/-- `LinearProbeHashTable::Insert` (lines 100-153): the returned flag and the
table after the call. The first argument bounds the depth of the recursion
through `Resize`. The latch calls (lines 104, 138 and 146) are left out here,
see `InsertLatched`. -/
def Insert (hash_fn_ : Int → Nat) (BLOCK_ARRAY_SIZE : Nat) :
    Nat → Int → Int → LinearProbeHashTable → Except Fault (Bool × LinearProbeHashTable)
  | 0 => fun _ _ _ => .error .outOfFuel
  | fuel + 1 => fun key value t =>
    if NumBlocks t.headerPage = 0 then .error .modByZero
    else
      let headerPage := t.headerPage
      let p := Insert.whileBlocks BLOCK_ARRAY_SIZE key value headerPage t.buffer_pool_manager_
        (NumBlocks headerPage + 1) 1 (hash_fn_ key % NumBlocks headerPage)
      let found := p.1
      let visitedBlocks := p.2.1
      let blockPageId := GetBlockPageId headerPage p.2.2
      if !found && decide (visitedBlocks > NumBlocks headerPage) then
        match ResizeWith BLOCK_ARRAY_SIZE (Insert hash_fn_ BLOCK_ARRAY_SIZE fuel)
            headerPage.size t with
        | .error e => .error e
        | .ok t1 => Insert hash_fn_ BLOCK_ARRAY_SIZE fuel key value t1
      else if !found then
        let w := Insert.forSlots key value (List.range BLOCK_ARRAY_SIZE)
          (FetchPage t.buffer_pool_manager_ blockPageId)
        .ok (w.2, ⟨headerPage, writePage t.buffer_pool_manager_ blockPageId w.1⟩)
      else .ok (false, t)

/-- `LinearProbeHashTable::Resize` (lines 208-249). -/
def Resize (hash_fn_ : Int → Nat) (BLOCK_ARRAY_SIZE : Nat) (fuel : Nat) (initial_size : Nat)
    (t : LinearProbeHashTable) : Except Fault LinearProbeHashTable :=
  ResizeWith BLOCK_ARRAY_SIZE (Insert hash_fn_ BLOCK_ARRAY_SIZE fuel) initial_size t

/-- The slot loop of `Remove` (lines 176-190); the state is the block page,
`res` and `foundEmptySlot`. A valid slot with the key and the value is cleared
and the loop is left. The latch calls (lines 177 and 188) are left out here,
see `Remove.forSlotsLatched`. -/
def Remove.forSlots (key value : Int) :
    List Nat → HashTableBlockPage → Bool → Bool → HashTableBlockPage × Bool × Bool
  | [], blockPage, res, foundEmptySlot => (blockPage, res, foundEmptySlot)
  | i :: rest, blockPage, res, foundEmptySlot =>
    if IsValid blockPage i && comparator_ (KeyAt blockPage i) key == 0 &&
        ValueAt blockPage i == value then
      (BlockRemove blockPage i, true, foundEmptySlot)
    else if !IsOccupied blockPage i then
      Remove.forSlots key value rest blockPage res true
    else
      Remove.forSlots key value rest blockPage res foundEmptySlot

/-- The block loop of `Remove` (lines 175-197). -/
def Remove.whileBlocks (BLOCK_ARRAY_SIZE : Nat) (key value : Int)
    (headerPage : HashTableHeaderPage) :
    Nat → Nat → Nat → Bool → Bool → BufferPoolManager → Bool × BufferPoolManager
  | 0, _, _, _, res, bpm => (res, bpm)
  | steps + 1, visitedBlocks, targetBlockIndex, foundEmptySlot, res, bpm =>
    if !foundEmptySlot && decide (visitedBlocks < NumBlocks headerPage) then
      let blockPageId := GetBlockPageId headerPage targetBlockIndex
      let r := Remove.forSlots key value (List.range BLOCK_ARRAY_SIZE)
        (FetchPage bpm blockPageId) res foundEmptySlot
      Remove.whileBlocks BLOCK_ARRAY_SIZE key value headerPage steps (visitedBlocks + 1)
        ((targetBlockIndex + 1) % NumBlocks headerPage) r.2.2 r.2.1
        (writePage bpm blockPageId r.1)
    else (res, bpm)

/-- `LinearProbeHashTable::Remove` (lines 155-203): the returned flag and the
table after the call. The latch calls (line 159 and the slot loop) are left
out here, see `RemoveLatched`. -/
def Remove (hash_fn_ : Int → Nat) (BLOCK_ARRAY_SIZE : Nat) (key value : Int)
    (t : LinearProbeHashTable) : Except Fault (Bool × LinearProbeHashTable) :=
  if NumBlocks t.headerPage = 0 then .error .modByZero
  else
    let r := Remove.whileBlocks BLOCK_ARRAY_SIZE key value t.headerPage
      (NumBlocks t.headerPage) 1 (hash_fn_ key % NumBlocks t.headerPage) false false
      t.buffer_pool_manager_
    .ok (r.1, ⟨t.headerPage, r.2⟩)

/-- `LinearProbeHashTable::GetSize` (lines 251-261): the header's size, passed
through the local `int size` and converted back to `size_t`. -/
def GetSize (t : LinearProbeHashTable) : Nat :=
  let low : Nat := t.headerPage.size % 2 ^ 32
  let size : Int := if low < 2 ^ 31 then (low : Int) else (low : Int) - 2 ^ 32
  (size % 2 ^ 64).toNat

/-! ## Runs and observations -/

/-- A call made by a client of the table. -/
inductive Op where
  | insert (key value : Int)
  | remove (key value : Int)
deriving DecidableEq, Repr

/-- Run a sequence of `Insert` and `Remove` calls, one after the other, each
`Insert` with the recursion bound `fuel`. -/
def runOps (hash_fn_ : Int → Nat) (BLOCK_ARRAY_SIZE : Nat) (fuel : Nat) :
    List Op → LinearProbeHashTable → Except Fault LinearProbeHashTable
  | [], t => .ok t
  | Op.insert key value :: rest, t =>
    match Insert hash_fn_ BLOCK_ARRAY_SIZE fuel key value t with
    | .error e => .error e
    | .ok r => runOps hash_fn_ BLOCK_ARRAY_SIZE fuel rest r.2
  | Op.remove key value :: rest, t =>
    match Remove hash_fn_ BLOCK_ARRAY_SIZE key value t with
    | .error e => .error e
    | .ok r => runOps hash_fn_ BLOCK_ARRAY_SIZE fuel rest r.2

/-- Whether a run ended without a fault. -/
def succeeded {α : Type} : Except Fault α → Bool
  | .ok _ => true
  | .error _ => false

/-- The table a run ended in (`t` itself when the run faulted). -/
def tableAfter (r : Except Fault LinearProbeHashTable) (t : LinearProbeHashTable) :
    LinearProbeHashTable :=
  match r with
  | .ok t1 => t1
  | .error _ => t

/-- The flag returned by `Insert` or `Remove`. -/
def returned (r : Except Fault (Bool × LinearProbeHashTable)) : Except Fault Bool :=
  match r with
  | .ok x => .ok x.1
  | .error e => .error e

/-- The `(key, value)` pairs held in valid slots of the blocks the header
lists, in block and slot order. -/
def liveEntries (BLOCK_ARRAY_SIZE : Nat) (t : LinearProbeHashTable) : List (Int × Int) :=
  t.headerPage.block_page_ids.flatMap fun page_id =>
    (List.range BLOCK_ARRAY_SIZE).filterMap fun i =>
      if IsValid (FetchPage t.buffer_pool_manager_ page_id) i then
        some (KeyAt (FetchPage t.buffer_pool_manager_ page_id) i,
          ValueAt (FetchPage t.buffer_pool_manager_ page_id) i)
      else none

/-- A hash function sending every key to 0. -/
def hashZero : Int → Nat := fun _ => 0

/-- A hash function sending a non-negative key to itself. -/
def hashId : Int → Nat := fun key => key.toNat

deriving instance DecidableEq for Except


/-! ## Invariants of reachable tables -/

/-- Every slot of the page that is occupied or valid holds a pair satisfying
`S`. -/
def PageFrom (S : Int → Int → Prop) (BLOCK_ARRAY_SIZE : Nat)
    (blockPage : HashTableBlockPage) : Prop :=
  ∀ i, i < BLOCK_ARRAY_SIZE →
    (IsOccupied blockPage i = true ∨ IsValid blockPage i = true) →
      S (KeyAt blockPage i) (ValueAt blockPage i)

/-- Every block the header lists satisfies `PageFrom S`. -/
def SlotsFrom (S : Int → Int → Prop) (BLOCK_ARRAY_SIZE : Nat)
    (t : LinearProbeHashTable) : Prop :=
  ∀ page_id ∈ t.headerPage.block_page_ids,
    PageFrom S BLOCK_ARRAY_SIZE (FetchPage t.buffer_pool_manager_ page_id)

/-- The header's size is at least one block and the header lists a block. -/
def WellSized (BLOCK_ARRAY_SIZE : Nat) (t : LinearProbeHashTable) : Prop :=
  BLOCK_ARRAY_SIZE ≤ t.headerPage.size ∧ 0 < NumBlocks t.headerPage

/-- The invariant carried along a run: slots hold pairs from `S` only, and the
table is well sized. -/
def Inv (S : Int → Int → Prop) (BLOCK_ARRAY_SIZE : Nat) (t : LinearProbeHashTable) : Prop :=
  SlotsFrom S BLOCK_ARRAY_SIZE t ∧ WellSized BLOCK_ARRAY_SIZE t


/-- For each block the header lists, in order, whether it is full. -/
def fullFlags (BLOCK_ARRAY_SIZE : Nat) (t : LinearProbeHashTable) : List Bool :=
  t.headerPage.block_page_ids.map fun page_id =>
    IsFull BLOCK_ARRAY_SIZE (FetchPage t.buffer_pool_manager_ page_id)

/-- A run that fills one block of four slots and overflows it, followed by a
`Remove`. -/
def overflowOps : List Op :=
  [Op.insert 1 100, Op.insert 2 200, Op.insert 3 300, Op.insert 4 400, Op.insert 5 500,
    Op.remove 1 100]

/-! ## Direct calls of `Resize` -/

/-- A call made by a client of the table, the public `Resize` included. -/
inductive Call where
  | insert (key value : Int)
  | remove (key value : Int)
  | resize (initial_size : Nat)
deriving DecidableEq, Repr

/-- A run that fills one block of four slots. -/
def fourInserts : List Op :=
  [Op.insert 1 11, Op.insert 2 12, Op.insert 3 13, Op.insert 4 14]

/-- Modelled from the spec: the pin count the buffer pool keeps for every page
id. -/
abbrev PinCounts := Nat → Nat

/-- Modelled from the spec: the pin that `FetchPage` and `NewPage` add to a page. -/
def pinPage (pins : PinCounts) (page_id : Nat) : PinCounts :=
  Function.update pins page_id (pins page_id + 1)

/-- Modelled from the spec: the pin that `UnpinPage` removes from a page (none when the
page is not pinned). -/
def unpinPage (pins : PinCounts) (page_id : Nat) : PinCounts :=
  Function.update pins page_id (pins page_id - 1)

/-- The pin counts along the block loop of `Insert` (lines 119-131): a block
that is skipped is unpinned (line 125) and the next one fetched (line 127). -/
def Insert.whileBlocksPins (BLOCK_ARRAY_SIZE : Nat) (key value : Int)
    (headerPage : HashTableHeaderPage) (bpm : BufferPoolManager) :
    Nat → Nat → Nat → PinCounts → PinCounts
  | 0, _, _, pins => pins
  | steps + 1, visitedBlocks, targetBlockIndex, pins =>
    let blockPage := FetchPage bpm (GetBlockPageId headerPage targetBlockIndex)
    if IsFull BLOCK_ARRAY_SIZE blockPage && decide (visitedBlocks ≤ NumBlocks headerPage) then
      if isKeyValueExist BLOCK_ARRAY_SIZE blockPage key value then pins
      else
        Insert.whileBlocksPins BLOCK_ARRAY_SIZE key value headerPage bpm steps
          (visitedBlocks + 1) ((targetBlockIndex + 1) % NumBlocks headerPage)
          (pinPage (unpinPage pins (GetBlockPageId headerPage targetBlockIndex))
            (GetBlockPageId headerPage ((targetBlockIndex + 1) % NumBlocks headerPage)))
    else pins

/-- The pin counts along the allocation loop of `Resize` (lines 232-236):
`NewPage` pins the new page and `UnpinPage` releases it. -/
def allocBlocksPins : Nat → BufferPoolManager → PinCounts → PinCounts
  | 0, _, pins => pins
  | blockNum + 1, bpm, pins =>
    allocBlocksPins blockNum (NewPage bpm).2
      (unpinPage (pinPage pins (NewPage bpm).1) (NewPage bpm).1)

/-- The rehash loop of `Resize` over one old block (lines 240-242), with pin
counts. -/
def Resize.forPairsPins
    (insert : Int → Int → LinearProbeHashTable → PinCounts →
      Except Fault (Bool × LinearProbeHashTable × PinCounts))
    (block : HashTableBlockPage) :
    List Nat → LinearProbeHashTable → PinCounts →
      Except Fault (LinearProbeHashTable × PinCounts)
  | [], t, pins => .ok (t, pins)
  | pairIndex :: rest, t, pins =>
    match insert (KeyAt block pairIndex) (ValueAt block pairIndex) t pins with
    | .error e => .error e
    | .ok r => Resize.forPairsPins insert block rest r.2.1 r.2.2

/-- The rehash loop of `Resize` over the old blocks (lines 238-244), with pin
counts. -/
def Resize.forBlocksPins (BLOCK_ARRAY_SIZE : Nat)
    (insert : Int → Int → LinearProbeHashTable → PinCounts →
      Except Fault (Bool × LinearProbeHashTable × PinCounts)) :
    List (HashTableBlockPage × Nat) → LinearProbeHashTable → PinCounts →
      Except Fault (LinearProbeHashTable × PinCounts)
  | [], t, pins => .ok (t, pins)
  | (block, oldPageId) :: rest, t, pins =>
    match Resize.forPairsPins insert block (List.range BLOCK_ARRAY_SIZE) t pins with
    | .error e => .error e
    | .ok r =>
      Resize.forBlocksPins BLOCK_ARRAY_SIZE insert rest
        ⟨r.1.headerPage, DeletePage r.1.buffer_pool_manager_ oldPageId⟩ r.2

/-- `LinearProbeHashTable::Resize` (lines 208-249) with pin counts, the
`Insert` it calls being a parameter: the header is fetched at line 213 and
unpinned at line 246 only; the return at line 216 leaves it pinned. -/
def ResizePinsWith (BLOCK_ARRAY_SIZE : Nat)
    (insert : Int → Int → LinearProbeHashTable → PinCounts →
      Except Fault (Bool × LinearProbeHashTable × PinCounts))
    (initial_size : Nat) (t : LinearProbeHashTable) (pins : PinCounts) :
    Except Fault (LinearProbeHashTable × PinCounts) :=
  let newSize := initial_size * 2
  let pins1 := pinPage pins t.headerPage.page_id
  if t.headerPage.size ≥ newSize then .ok (t, pins1)
  else
    let oldPageIds := t.headerPage.block_page_ids
    let oldBlocks := oldPageIds.map (FetchPage t.buffer_pool_manager_)
    let pins2 := oldPageIds.foldl (fun p page_id => unpinPage (pinPage p page_id) page_id) pins1
    let headerPage := ResetNextIndex (SetSize t.headerPage newSize)
    let blockNum := newSize / BLOCK_ARRAY_SIZE
    let r := allocBlocks blockNum headerPage t.buffer_pool_manager_
    let pins3 := allocBlocksPins blockNum t.buffer_pool_manager_ pins2
    match Resize.forBlocksPins BLOCK_ARRAY_SIZE insert (oldBlocks.zip oldPageIds)
        ⟨r.1, r.2⟩ pins3 with
    | .error e => .error e
    | .ok r1 => .ok (r1.1, unpinPage r1.2 t.headerPage.page_id)

/-- `LinearProbeHashTable::Insert` (lines 100-153) with pin counts: the header
is fetched at line 105 and the home block at line 112; both are unpinned at
lines 149-150, which the return at line 136 does not reach. -/
def InsertPins (hash_fn_ : Int → Nat) (BLOCK_ARRAY_SIZE : Nat) :
    Nat → Int → Int → LinearProbeHashTable → PinCounts →
      Except Fault (Bool × LinearProbeHashTable × PinCounts)
  | 0 => fun _ _ _ _ => .error .outOfFuel
  | fuel + 1 => fun key value t pins =>
    if NumBlocks t.headerPage = 0 then .error .modByZero
    else
      let headerPage := t.headerPage
      let pins1 := pinPage pins headerPage.page_id
      let home := hash_fn_ key % NumBlocks headerPage
      let pins2 := pinPage pins1 (GetBlockPageId headerPage home)
      let p := Insert.whileBlocks BLOCK_ARRAY_SIZE key value headerPage t.buffer_pool_manager_
        (NumBlocks headerPage + 1) 1 home
      let pins3 := Insert.whileBlocksPins BLOCK_ARRAY_SIZE key value headerPage
        t.buffer_pool_manager_ (NumBlocks headerPage + 1) 1 home pins2
      let found := p.1
      let visitedBlocks := p.2.1
      let blockPageId := GetBlockPageId headerPage p.2.2
      if !found && decide (visitedBlocks > NumBlocks headerPage) then
        match ResizePinsWith BLOCK_ARRAY_SIZE (InsertPins hash_fn_ BLOCK_ARRAY_SIZE fuel)
            headerPage.size t pins3 with
        | .error e => .error e
        | .ok r => InsertPins hash_fn_ BLOCK_ARRAY_SIZE fuel key value r.1 r.2
      else if !found then
        let w := Insert.forSlots key value (List.range BLOCK_ARRAY_SIZE)
          (FetchPage t.buffer_pool_manager_ blockPageId)
        .ok (w.2, ⟨headerPage, writePage t.buffer_pool_manager_ blockPageId w.1⟩,
          unpinPage (unpinPage pins3 blockPageId) headerPage.page_id)
      else .ok (false, t, unpinPage (unpinPage pins3 blockPageId) headerPage.page_id)

/-- `LinearProbeHashTable::Resize` (lines 208-249) with pin counts. -/
def ResizePins (hash_fn_ : Int → Nat) (BLOCK_ARRAY_SIZE : Nat) (fuel : Nat)
    (initial_size : Nat) (t : LinearProbeHashTable) (pins : PinCounts) :
    Except Fault (LinearProbeHashTable × PinCounts) :=
  ResizePinsWith BLOCK_ARRAY_SIZE (InsertPins hash_fn_ BLOCK_ARRAY_SIZE fuel) initial_size t pins

/-- No page pinned. -/
def noPins : PinCounts := fun _ => 0

/-! ## Counting occupied slots -/

/-- The number of occupied slots of a block page. -/
def occupiedIn (BLOCK_ARRAY_SIZE : Nat) (blockPage : HashTableBlockPage) : Nat :=
  (List.range BLOCK_ARRAY_SIZE).countP fun i => IsOccupied blockPage i

/-- The number of occupied slots of the blocks the header lists. -/
def occupiedSlots (BLOCK_ARRAY_SIZE : Nat) (t : LinearProbeHashTable) : Nat :=
  (t.headerPage.block_page_ids.map fun page_id =>
    occupiedIn BLOCK_ARRAY_SIZE (FetchPage t.buffer_pool_manager_ page_id)).sum

/-- Every block is full and none holds the valid pair `(key, value)`: the
condition under which `Insert` resizes. -/
def RingExhausted (BLOCK_ARRAY_SIZE : Nat) (key value : Int) (t : LinearProbeHashTable) :
    Prop :=
  ∀ page_id ∈ t.headerPage.block_page_ids,
    IsFull BLOCK_ARRAY_SIZE (FetchPage t.buffer_pool_manager_ page_id) = true ∧
    isKeyValueExist BLOCK_ARRAY_SIZE (FetchPage t.buffer_pool_manager_ page_id) key value =
      false

/-! ## The probe invariant -/

/-- The page of the block at a ring index (taken modulo the block count). -/
def ringPage (t : LinearProbeHashTable) (index : Nat) : HashTableBlockPage :=
  FetchPage t.buffer_pool_manager_
    (GetBlockPageId t.headerPage (index % NumBlocks t.headerPage))

/-- The invariant of linear probing over blocks: the header lists at least one
block, its size covers the blocks, the block page ids are distinct, and when a
block holds a valid `(key, value)`, every block before it on the ring walk from
the home block of `key` is full and holds no valid `(key, value)`. -/
def ProbeInv (hash_fn_ : Int → Nat) (BLOCK_ARRAY_SIZE : Nat) (t : LinearProbeHashTable) :
    Prop :=
  0 < NumBlocks t.headerPage ∧
  NumBlocks t.headerPage * BLOCK_ARRAY_SIZE ≤ t.headerPage.size ∧
  t.headerPage.block_page_ids.Nodup ∧
  ∀ key value y, y < NumBlocks t.headerPage →
    isKeyValueExist BLOCK_ARRAY_SIZE
      (ringPage t (hash_fn_ key % NumBlocks t.headerPage + y)) key value = true →
    ∀ x, x < y →
      IsFull BLOCK_ARRAY_SIZE
        (ringPage t (hash_fn_ key % NumBlocks t.headerPage + x)) = true ∧
      isKeyValueExist BLOCK_ARRAY_SIZE
        (ringPage t (hash_fn_ key % NumBlocks t.headerPage + x)) key value = false

/-- The page `after` differs from the page `before` at most by valid bits that
were set and are now clear. -/
def ClearedFrom (before after : HashTableBlockPage) : Prop :=
  ∀ i, (after i).key = (before i).key ∧ (after i).value = (before i).value ∧
    (after i).occupied = (before i).occupied ∧
    ((after i).valid = true → (before i).valid = true)

/-- A run that stores the pair (0, 10) twice and another pair once. -/
def duplicateOps : List Op := [Op.insert 0 10, Op.insert 0 10, Op.insert 1 11]

/-! ## Latches

`GetValue`, `Insert`, `Remove` and `Resize` above are the data path of the four
functions: what they compute when no latch call waits. The definitions below
are the same functions with the latch calls of lines 61, 104, 138, 146, 159,
177, 188, 210 and 247 in place and the state of the latches threaded through.
The table is driven by one thread, so a latch call that has to wait for a latch
waits for ever: the call does not return, which is the outcome `Stop.blocked`. -/

/-- Modelled from the spec: the table-wide read/write lock `table_latch_`
(class `ReaderWriterLatch`, declared in a header that is not part of the
sources): the number of holds in read mode and whether it is held in write
mode. -/
structure ReaderWriterLatch where
  readers : Nat
  writer : Bool
deriving DecidableEq, Repr

/-- Modelled from the spec: `ReaderWriterLatch::RLock`. Read mode is shared by
any number of holders and excluded by a holder in write mode; `none` when the
call has to wait. -/
def RLock (table_latch_ : ReaderWriterLatch) : Option ReaderWriterLatch :=
  if table_latch_.writer then none
  else some ⟨table_latch_.readers + 1, table_latch_.writer⟩

/-- Modelled from the spec: `ReaderWriterLatch::WLock`. Write mode excludes
every other holder, in read or in write mode; `none` when the call has to
wait. -/
def WLock (table_latch_ : ReaderWriterLatch) : Option ReaderWriterLatch :=
  if table_latch_.writer || decide (0 < table_latch_.readers) then none
  else some ⟨table_latch_.readers, true⟩

/-- Modelled from the spec: `ReaderWriterLatch::WUnlock`, which gives up write
mode. -/
def WUnlock (table_latch_ : ReaderWriterLatch) : ReaderWriterLatch :=
  ⟨table_latch_.readers, false⟩

/-- Modelled from the spec: `Page::WLatch`, the exclusive latch of a block
page. `latched` lists the ids of the pages whose latch is held; `none` when
the call has to wait. -/
def WLatch (latched : List Nat) (page_id : Nat) : Option (List Nat) :=
  if page_id ∈ latched then none else some (page_id :: latched)

/-- Modelled from the spec: `Page::WUnLatch`, which releases the latch of a
block page. -/
def WUnLatch (latched : List Nat) (page_id : Nat) : List Nat :=
  latched.erase page_id

/-- The latches of a table: `table_latch_` and the ids of the block pages whose
latch is held. -/
structure Latches where
  table_latch_ : ReaderWriterLatch
  latched : List Nat
deriving DecidableEq, Repr

/-- The latches of a table that was just constructed: nothing is held. -/
def noLatches : Latches := ⟨⟨0, false⟩, []⟩

/-- The ways in which a call does not return: a fault of the data path, or a
latch call that waits for ever. -/
inductive Stop where
  | fault (e : Fault)
  | blocked
deriving DecidableEq, Repr

/-- `LinearProbeHashTable::GetValue` (lines 58-98) with its latch call: `RLock`
at line 61, which nothing releases. Returns the flag, the vector `result` and
the latches after the call. -/
def GetValueLatched (hash_fn_ : Int → Nat) (BLOCK_ARRAY_SIZE : Nat) (key : Int)
    (result : List Int) (t : LinearProbeHashTable) (l : Latches) :
    Except Stop (Bool × List Int × Latches) :=
  match RLock l.table_latch_ with
  | none => .error .blocked
  | some table_latch_ =>
    if NumBlocks t.headerPage = 0 then .error (.fault .modByZero)
    else
      let targetBlockIndex := hash_fn_ key % NumBlocks t.headerPage
      let r := GetValue.whileBlocks BLOCK_ARRAY_SIZE key t.headerPage t.buffer_pool_manager_
        (NumBlocks t.headerPage) 1 targetBlockIndex false false result
      .ok (r.1, r.2, ⟨table_latch_, l.latched⟩)

/-- The slot loop of `Remove` (lines 176-190) with its latch calls: `WLatch` on
the page at the top of every iteration (line 177) and `WUnLatch` at its bottom
(line 188), which the `break` of line 183 does not reach. The state is the
block page, `res`, `foundEmptySlot` and the latched pages. -/
def Remove.forSlotsLatched (key value : Int) (page_id : Nat) :
    List Nat → HashTableBlockPage → Bool → Bool → List Nat →
      Except Stop (HashTableBlockPage × Bool × Bool × List Nat)
  | [], blockPage, res, foundEmptySlot, latched => .ok (blockPage, res, foundEmptySlot, latched)
  | i :: rest, blockPage, res, foundEmptySlot, latched =>
    match WLatch latched page_id with
    | none => .error .blocked
    | some latched1 =>
      if IsValid blockPage i && comparator_ (KeyAt blockPage i) key == 0 &&
          ValueAt blockPage i == value then
        .ok (BlockRemove blockPage i, true, foundEmptySlot, latched1)
      else if !IsOccupied blockPage i then
        Remove.forSlotsLatched key value page_id rest blockPage res true
          (WUnLatch latched1 page_id)
      else
        Remove.forSlotsLatched key value page_id rest blockPage res foundEmptySlot
          (WUnLatch latched1 page_id)

/-- The block loop of `Remove` (lines 175-197) with the latch calls of its slot
loop. -/
def Remove.whileBlocksLatched (BLOCK_ARRAY_SIZE : Nat) (key value : Int)
    (headerPage : HashTableHeaderPage) :
    Nat → Nat → Nat → Bool → Bool → BufferPoolManager → List Nat →
      Except Stop (Bool × BufferPoolManager × List Nat)
  | 0, _, _, _, res, bpm, latched => .ok (res, bpm, latched)
  | steps + 1, visitedBlocks, targetBlockIndex, foundEmptySlot, res, bpm, latched =>
    if !foundEmptySlot && decide (visitedBlocks < NumBlocks headerPage) then
      let blockPageId := GetBlockPageId headerPage targetBlockIndex
      match Remove.forSlotsLatched key value blockPageId (List.range BLOCK_ARRAY_SIZE)
          (FetchPage bpm blockPageId) res foundEmptySlot latched with
      | .error e => .error e
      | .ok r =>
        Remove.whileBlocksLatched BLOCK_ARRAY_SIZE key value headerPage steps
          (visitedBlocks + 1) ((targetBlockIndex + 1) % NumBlocks headerPage) r.2.2.1 r.2.1
          (writePage bpm blockPageId r.1) r.2.2.2
    else .ok (res, bpm, latched)

/-- `LinearProbeHashTable::Remove` (lines 155-203) with its latch calls: `RLock`
at line 159, which nothing releases, and the page latches of the slot loop.
Returns the flag, the table and the latches after the call. -/
def RemoveLatched (hash_fn_ : Int → Nat) (BLOCK_ARRAY_SIZE : Nat) (key value : Int)
    (t : LinearProbeHashTable) (l : Latches) :
    Except Stop (Bool × LinearProbeHashTable × Latches) :=
  match RLock l.table_latch_ with
  | none => .error .blocked
  | some table_latch_ =>
    if NumBlocks t.headerPage = 0 then .error (.fault .modByZero)
    else
      match Remove.whileBlocksLatched BLOCK_ARRAY_SIZE key value t.headerPage
          (NumBlocks t.headerPage) 1 (hash_fn_ key % NumBlocks t.headerPage) false false
          t.buffer_pool_manager_ l.latched with
      | .error e => .error e
      | .ok r => .ok (r.1, ⟨t.headerPage, r.2.1⟩, ⟨table_latch_, r.2.2⟩)

/-- The rehash loop of `Resize` over one old block (lines 240-242), with the
latches threaded through the `Insert` calls. -/
def Resize.forPairsLatched
    (insert : Int → Int → LinearProbeHashTable → Latches →
      Except Stop (Bool × LinearProbeHashTable × Latches))
    (block : HashTableBlockPage) :
    List Nat → LinearProbeHashTable → Latches → Except Stop (LinearProbeHashTable × Latches)
  | [], t, l => .ok (t, l)
  | pairIndex :: rest, t, l =>
    match insert (KeyAt block pairIndex) (ValueAt block pairIndex) t l with
    | .error e => .error e
    | .ok r => Resize.forPairsLatched insert block rest r.2.1 r.2.2

/-- The rehash loop of `Resize` over the old blocks (lines 238-244), with the
latches threaded through. -/
def Resize.forBlocksLatched (BLOCK_ARRAY_SIZE : Nat)
    (insert : Int → Int → LinearProbeHashTable → Latches →
      Except Stop (Bool × LinearProbeHashTable × Latches)) :
    List (HashTableBlockPage × Nat) → LinearProbeHashTable → Latches →
      Except Stop (LinearProbeHashTable × Latches)
  | [], t, l => .ok (t, l)
  | (block, oldPageId) :: rest, t, l =>
    match Resize.forPairsLatched insert block (List.range BLOCK_ARRAY_SIZE) t l with
    | .error e => .error e
    | .ok r =>
      Resize.forBlocksLatched BLOCK_ARRAY_SIZE insert rest
        ⟨r.1.headerPage, DeletePage r.1.buffer_pool_manager_ oldPageId⟩ r.2

/-- `LinearProbeHashTable::Resize` (lines 208-249) with its latch calls, the
`Insert` it calls being a parameter: `WLock` at line 210 and `WUnlock` at line
247, which the return of line 216 does not reach. `newSize` is a `size_t`: the
product of line 212 is taken modulo 2^64. -/
def ResizeLatchedWith (BLOCK_ARRAY_SIZE : Nat)
    (insert : Int → Int → LinearProbeHashTable → Latches →
      Except Stop (Bool × LinearProbeHashTable × Latches))
    (initial_size : Nat) (t : LinearProbeHashTable) (l : Latches) :
    Except Stop (LinearProbeHashTable × Latches) :=
  match WLock l.table_latch_ with
  | none => .error .blocked
  | some table_latch_ =>
    let newSize := initial_size * 2 % 2 ^ 64
    if t.headerPage.size ≥ newSize then .ok (t, ⟨table_latch_, l.latched⟩)
    else
      let oldPageIds := t.headerPage.block_page_ids
      let oldBlocks := oldPageIds.map (FetchPage t.buffer_pool_manager_)
      let headerPage := ResetNextIndex (SetSize t.headerPage newSize)
      let blockNum := newSize / BLOCK_ARRAY_SIZE
      let r := allocBlocks blockNum headerPage t.buffer_pool_manager_
      match Resize.forBlocksLatched BLOCK_ARRAY_SIZE insert (oldBlocks.zip oldPageIds)
          ⟨r.1, r.2⟩ ⟨table_latch_, l.latched⟩ with
      | .error e => .error e
      | .ok r1 => .ok (r1.1, ⟨WUnlock r1.2.table_latch_, r1.2.latched⟩)

/-- `LinearProbeHashTable::Insert` (lines 100-153) with its latch calls: `RLock`
at line 104, which nothing releases, and `WLatch` and `WUnLatch` on the block
page around the slot loop (lines 138 and 146). Returns the flag, the table and
the latches after the call. The first argument bounds the depth of the
recursion through `Resize`. -/
def InsertLatched (hash_fn_ : Int → Nat) (BLOCK_ARRAY_SIZE : Nat) :
    Nat → Int → Int → LinearProbeHashTable → Latches →
      Except Stop (Bool × LinearProbeHashTable × Latches)
  | 0 => fun _ _ _ _ => .error (.fault .outOfFuel)
  | fuel + 1 => fun key value t l =>
    match RLock l.table_latch_ with
    | none => .error .blocked
    | some table_latch_ =>
      if NumBlocks t.headerPage = 0 then .error (.fault .modByZero)
      else
        let headerPage := t.headerPage
        let p := Insert.whileBlocks BLOCK_ARRAY_SIZE key value headerPage
          t.buffer_pool_manager_ (NumBlocks headerPage + 1) 1
          (hash_fn_ key % NumBlocks headerPage)
        let found := p.1
        let visitedBlocks := p.2.1
        let blockPageId := GetBlockPageId headerPage p.2.2
        if !found && decide (visitedBlocks > NumBlocks headerPage) then
          match ResizeLatchedWith BLOCK_ARRAY_SIZE (InsertLatched hash_fn_ BLOCK_ARRAY_SIZE fuel)
              headerPage.size t ⟨table_latch_, l.latched⟩ with
          | .error e => .error e
          | .ok r => InsertLatched hash_fn_ BLOCK_ARRAY_SIZE fuel key value r.1 r.2
        else if !found then
          match WLatch l.latched blockPageId with
          | none => .error .blocked
          | some latched1 =>
            let w := Insert.forSlots key value (List.range BLOCK_ARRAY_SIZE)
              (FetchPage t.buffer_pool_manager_ blockPageId)
            .ok (w.2, ⟨headerPage, writePage t.buffer_pool_manager_ blockPageId w.1⟩,
              ⟨table_latch_, WUnLatch latched1 blockPageId⟩)
        else .ok (false, t, ⟨table_latch_, l.latched⟩)

/-- `LinearProbeHashTable::Resize` (lines 208-249) with its latch calls. -/
def ResizeLatched (hash_fn_ : Int → Nat) (BLOCK_ARRAY_SIZE : Nat) (fuel : Nat)
    (initial_size : Nat) (t : LinearProbeHashTable) (l : Latches) :
    Except Stop (LinearProbeHashTable × Latches) :=
  ResizeLatchedWith BLOCK_ARRAY_SIZE (InsertLatched hash_fn_ BLOCK_ARRAY_SIZE fuel)
    initial_size t l

/-- Run a sequence of `Insert` and `Remove` calls with their latch calls, one
after the other; the run ends at the first call that does not return. -/
def runOpsLatched (hash_fn_ : Int → Nat) (BLOCK_ARRAY_SIZE : Nat) (fuel : Nat) :
    List Op → LinearProbeHashTable → Latches → Except Stop (LinearProbeHashTable × Latches)
  | [], t, l => .ok (t, l)
  | Op.insert key value :: rest, t, l =>
    match InsertLatched hash_fn_ BLOCK_ARRAY_SIZE fuel key value t l with
    | .error e => .error e
    | .ok r => runOpsLatched hash_fn_ BLOCK_ARRAY_SIZE fuel rest r.2.1 r.2.2
  | Op.remove key value :: rest, t, l =>
    match RemoveLatched hash_fn_ BLOCK_ARRAY_SIZE key value t l with
    | .error e => .error e
    | .ok r => runOpsLatched hash_fn_ BLOCK_ARRAY_SIZE fuel rest r.2.1 r.2.2

/-- The outcome of every call of a sequence of `Insert` and `Remove` calls run
with their latch calls: the flag a call returned, or how it stopped; no call
follows one that did not return. -/
def traceOps (hash_fn_ : Int → Nat) (BLOCK_ARRAY_SIZE : Nat) (fuel : Nat) :
    List Op → LinearProbeHashTable → Latches → List (Except Stop Bool)
  | [], _, _ => []
  | Op.insert key value :: rest, t, l =>
    match InsertLatched hash_fn_ BLOCK_ARRAY_SIZE fuel key value t l with
    | .error e => [.error e]
    | .ok r => .ok r.1 :: traceOps hash_fn_ BLOCK_ARRAY_SIZE fuel rest r.2.1 r.2.2
  | Op.remove key value :: rest, t, l =>
    match RemoveLatched hash_fn_ BLOCK_ARRAY_SIZE key value t l with
    | .error e => [.error e]
    | .ok r => .ok r.1 :: traceOps hash_fn_ BLOCK_ARRAY_SIZE fuel rest r.2.1 r.2.2

/-- Run a sequence of `Insert`, `Remove` and `Resize` calls with their latch
calls, one after the other; the run ends at the first call that does not
return. -/
def runCallsLatched (hash_fn_ : Int → Nat) (BLOCK_ARRAY_SIZE : Nat) (fuel : Nat) :
    List Call → LinearProbeHashTable → Latches →
      Except Stop (LinearProbeHashTable × Latches)
  | [], t, l => .ok (t, l)
  | Call.insert key value :: rest, t, l =>
    match InsertLatched hash_fn_ BLOCK_ARRAY_SIZE fuel key value t l with
    | .error e => .error e
    | .ok r => runCallsLatched hash_fn_ BLOCK_ARRAY_SIZE fuel rest r.2.1 r.2.2
  | Call.remove key value :: rest, t, l =>
    match RemoveLatched hash_fn_ BLOCK_ARRAY_SIZE key value t l with
    | .error e => .error e
    | .ok r => runCallsLatched hash_fn_ BLOCK_ARRAY_SIZE fuel rest r.2.1 r.2.2
  | Call.resize initial_size :: rest, t, l =>
    match ResizeLatched hash_fn_ BLOCK_ARRAY_SIZE fuel initial_size t l with
    | .error e => .error e
    | .ok r => runCallsLatched hash_fn_ BLOCK_ARRAY_SIZE fuel rest r.1 r.2

/-- The table and the latches a run ended in (`t` and `l` themselves when the
run stopped). -/
def stateAfter (r : Except Stop (LinearProbeHashTable × Latches))
    (t : LinearProbeHashTable) (l : Latches) : LinearProbeHashTable × Latches :=
  match r with
  | .ok s => s
  | .error _ => (t, l)

/-- Whether a run of latched calls came to its end. -/
def completed {α : Type} : Except Stop α → Bool
  | .ok _ => true
  | .error _ => false

/-- The table and the latches after the four inserts of `fourInserts` into a
table of one block of four slots. -/
def fullBlock : LinearProbeHashTable × Latches :=
  stateAfter (runOpsLatched hashId 4 1 fourInserts (construct 4 emptyPool 4) noLatches)
    (construct 4 emptyPool 4) noLatches

/-- A run on a table constructed without a block: a direct `Resize` call that
gives it two blocks, then Inserts and a Remove. -/
def growCalls : List Call :=
  [Call.resize 4, Call.insert 1 100, Call.insert 2 200, Call.remove 1 100]

/-- The table and the latches after the calls of `growCalls` on a table
constructed with `num_buckets = 0` and block capacity 4. -/
def grownTable : LinearProbeHashTable × Latches :=
  stateAfter (runCallsLatched hashId 4 1 growCalls (construct 4 emptyPool 0) noLatches)
    (construct 4 emptyPool 0) noLatches

/-- A run of Inserts and a Remove on a table of two blocks that come to their
end. -/
def returningOps : List Op :=
  [Op.insert 1 100, Op.insert 2 200, Op.remove 1 100, Op.insert 4 400]

/-- The table and the latches after the calls of `returningOps` on a table of
two blocks of four slots. -/
def afterReturningOps : LinearProbeHashTable × Latches :=
  stateAfter (runOpsLatched hashId 4 1 returningOps (construct 4 emptyPool 8) noLatches)
    (construct 4 emptyPool 8) noLatches

/-! # Theorems -/


/-! ## Basic facts -/

theorem comparator_eq_zero (lhs rhs : Int) : comparator_ lhs rhs = 0 ↔ lhs = rhs := by
  unfold comparator_
  constructor
  · intro h
    split_ifs at h with h1 h2
    · omega
    · omega
  · intro h
    subst h
    simp

theorem isOccupied_zeroPage (i : Nat) : IsOccupied zeroPage i = false := rfl

theorem isValid_zeroPage (i : Nat) : IsValid zeroPage i = false := rfl

theorem isFull_zeroPage (B : Nat) (hB : 0 < B) : IsFull B zeroPage = false := by
  unfold IsFull
  rw [List.all_eq_false]
  exact ⟨0, List.mem_range.mpr hB, by simp [isOccupied_zeroPage]⟩

theorem getBlockPageId_mem (headerPage : HashTableHeaderPage) (i : Nat)
    (h : i < NumBlocks headerPage) :
    GetBlockPageId headerPage i ∈ headerPage.block_page_ids := by
  unfold GetBlockPageId
  unfold NumBlocks at h
  rw [List.getD_eq_getElem _ _ h]
  exact List.getElem_mem h

theorem writePage_self (bpm : BufferPoolManager) (page_id : Nat) :
    writePage bpm page_id (bpm.pages page_id) = bpm := by
  unfold writePage
  simp

/-! ## Allocation of block pages -/

theorem allocBlocks_size (blockNum : Nat) (headerPage : HashTableHeaderPage)
    (bpm : BufferPoolManager) :
    (allocBlocks blockNum headerPage bpm).1.size = headerPage.size := by
  induction blockNum generalizing headerPage bpm with
  | zero => rfl
  | succ n ih => simp [allocBlocks, ih, AddBlockPageId]

theorem allocBlocks_numBlocks (blockNum : Nat) (headerPage : HashTableHeaderPage)
    (bpm : BufferPoolManager) :
    NumBlocks (allocBlocks blockNum headerPage bpm).1 = NumBlocks headerPage + blockNum := by
  induction blockNum generalizing headerPage bpm with
  | zero => rfl
  | succ n ih =>
    simp only [allocBlocks, ih]
    simp [NumBlocks, AddBlockPageId]
    omega

theorem allocBlocks_zeroPage (blockNum : Nat) (headerPage : HashTableHeaderPage)
    (bpm : BufferPoolManager)
    (h : ∀ page_id ∈ headerPage.block_page_ids, bpm.pages page_id = zeroPage) :
    ∀ page_id ∈ (allocBlocks blockNum headerPage bpm).1.block_page_ids,
      (allocBlocks blockNum headerPage bpm).2.pages page_id = zeroPage := by
  induction blockNum generalizing headerPage bpm with
  | zero => exact h
  | succ n ih =>
    simp only [allocBlocks]
    apply ih
    intro page_id hmem
    simp only [AddBlockPageId, NewPage, List.mem_append, List.mem_singleton] at hmem ⊢
    by_cases hid : page_id = bpm.next_page_id
    · subst hid
      simp
    · rw [Function.update_noteq hid]
      rcases hmem with hmem | hmem
      · exact h page_id hmem
      · exact absurd hmem hid

theorem construct_size (B : Nat) (bpm : BufferPoolManager) (num_buckets : Nat) :
    (construct B bpm num_buckets).headerPage.size = num_buckets := by
  simp [construct, allocBlocks_size]

theorem construct_numBlocks (B : Nat) (bpm : BufferPoolManager) (num_buckets : Nat) :
    NumBlocks (construct B bpm num_buckets).headerPage = num_buckets / B := by
  simp only [construct, allocBlocks_numBlocks]
  simp [NumBlocks]

theorem construct_zeroPage (B : Nat) (bpm : BufferPoolManager) (num_buckets : Nat) :
    ∀ page_id ∈ (construct B bpm num_buckets).headerPage.block_page_ids,
      (construct B bpm num_buckets).buffer_pool_manager_.pages page_id = zeroPage := by
  simp only [construct]
  apply allocBlocks_zeroPage
  simp

/-! ## Tables with one block -/

theorem GetValue_one_block (hash_fn_ : Int → Nat) (B : Nat) (key : Int) (result : List Int)
    (t : LinearProbeHashTable) (h : NumBlocks t.headerPage = 1) :
    GetValue hash_fn_ B key result t = .ok (false, result) := by
  simp [GetValue, h, GetValue.whileBlocks]

theorem Remove_one_block (hash_fn_ : Int → Nat) (B : Nat) (key value : Int)
    (t : LinearProbeHashTable) (h : NumBlocks t.headerPage = 1) :
    Remove hash_fn_ B key value t = .ok (false, t) := by
  simp [Remove, h, Remove.whileBlocks]

/-! ## `Insert` into a block that is not full -/

theorem Insert_forSlots_flag (key value : Int) (slots : List Nat)
    (blockPage : HashTableBlockPage)
    (h : (slots.all fun i => IsOccupied blockPage i) = false) :
    (Insert.forSlots key value slots blockPage).2 = true := by
  induction slots with
  | nil => simp at h
  | cons i rest ih =>
    unfold Insert.forSlots
    by_cases hi : IsOccupied blockPage i = true
    · simp only [hi, Bool.not_true, Bool.false_eq_true, if_false]
      apply ih
      simpa [hi] using h
    · simp [hi]

theorem Insert_of_not_full (hash_fn_ : Int → Nat) (B fuel : Nat) (key value : Int)
    (t : LinearProbeHashTable) (hn : NumBlocks t.headerPage ≠ 0)
    (hfull : IsFull B (FetchPage t.buffer_pool_manager_
      (GetBlockPageId t.headerPage (hash_fn_ key % NumBlocks t.headerPage))) = false) :
    Insert hash_fn_ B (fuel + 1) key value t =
      .ok (true, ⟨t.headerPage, writePage t.buffer_pool_manager_
        (GetBlockPageId t.headerPage (hash_fn_ key % NumBlocks t.headerPage))
        (Insert.forSlots key value (List.range B) (FetchPage t.buffer_pool_manager_
          (GetBlockPageId t.headerPage (hash_fn_ key % NumBlocks t.headerPage)))).1⟩) := by
  have hflag := Insert_forSlots_flag key value (List.range B) _ hfull
  have hpos : ¬ NumBlocks t.headerPage < 1 := by omega
  simp [Insert, hn, Insert.whileBlocks, hfull, hflag, hpos]


/-! ## The invariant is kept by `Insert` -/

theorem pageFrom_zeroPage (S : Int → Int → Prop) (B : Nat) : PageFrom S B zeroPage := by
  intro i _ h
  simp [isOccupied_zeroPage, isValid_zeroPage] at h

theorem Insert_forSlots_pageFrom (S : Int → Int → Prop) (B : Nat) (key value : Int)
    (slots : List Nat) (blockPage : HashTableBlockPage) (hS : S key value)
    (h : PageFrom S B blockPage) :
    PageFrom S B (Insert.forSlots key value slots blockPage).1 := by
  induction slots with
  | nil => exact h
  | cons i rest ih =>
    unfold Insert.forSlots
    split_ifs with hi
    · intro j hj hocc
      by_cases hji : j = i
      · subst hji
        simpa [KeyAt, ValueAt, BlockInsert] using hS
      · have := h j hj
        simp only [KeyAt, ValueAt, BlockInsert, IsOccupied, IsValid,
          Function.update_noteq hji] at hocc this ⊢
        exact this hocc
    · exact ih

theorem isFull_iff (B : Nat) (blockPage : HashTableBlockPage) :
    IsFull B blockPage = true ↔ ∀ i, i < B → IsOccupied blockPage i = true := by
  simp [IsFull, List.all_eq_true]

theorem Insert_whileBlocks_full (B : Nat) (key value : Int) (headerPage : HashTableHeaderPage)
    (bpm : BufferPoolManager) (steps visitedBlocks targetBlockIndex : Nat)
    (visited tgt : Nat) (htgt : targetBlockIndex < NumBlocks headerPage)
    (h : Insert.whileBlocks B key value headerPage bpm steps visitedBlocks targetBlockIndex =
      (false, visited, tgt))
    (hv : NumBlocks headerPage < visited) :
    ∀ j, visitedBlocks + j ≤ NumBlocks headerPage →
      IsFull B (FetchPage bpm (GetBlockPageId headerPage
        ((targetBlockIndex + j) % NumBlocks headerPage))) = true := by
  induction steps generalizing visitedBlocks targetBlockIndex with
  | zero =>
    intro j hj
    simp only [Insert.whileBlocks, Prod.mk.injEq] at h
    omega
  | succ n ih =>
    intro j hj
    unfold Insert.whileBlocks at h
    simp only at h
    split_ifs at h with hc hex
    · simp at h
    · simp only [Bool.and_eq_true, decide_eq_true_eq] at hc
      have hpos : 0 < NumBlocks headerPage := by omega
      cases j with
      | zero =>
        simpa [Nat.mod_eq_of_lt htgt] using hc.1
      | succ j1 =>
        have := ih (visitedBlocks + 1) ((targetBlockIndex + 1) % NumBlocks headerPage)
          (Nat.mod_lt _ hpos) h j1 (by omega)
        rw [Nat.mod_add_mod] at this
        have e : targetBlockIndex + 1 + j1 = targetBlockIndex + (j1 + 1) := by omega
        rw [e] at this
        exact this
    · simp only [Prod.mk.injEq] at h
      omega

theorem ring_cover (n h m : Nat) (hh : h < n) (hm : m < n) :
    ∃ j, 1 + j ≤ n ∧ (h + j) % n = m := by
  refine ⟨(m + n - h) % n, ?_, ?_⟩
  · have := Nat.mod_lt (m + n - h) (by omega : 0 < n)
    omega
  · rw [Nat.add_mod_mod]
    have e : h + (m + n - h) = m + n := by omega
    rw [e, Nat.add_mod_right, Nat.mod_eq_of_lt hm]

theorem Insert_whileBlocks_all_full (B : Nat) (key value : Int)
    (headerPage : HashTableHeaderPage) (bpm : BufferPoolManager) (steps home : Nat)
    (visited tgt : Nat) (hhome : home < NumBlocks headerPage)
    (h : Insert.whileBlocks B key value headerPage bpm steps 1 home = (false, visited, tgt))
    (hv : NumBlocks headerPage < visited) :
    ∀ page_id ∈ headerPage.block_page_ids, IsFull B (FetchPage bpm page_id) = true := by
  intro page_id hmem
  obtain ⟨m, hm, hget⟩ := List.getElem_of_mem hmem
  obtain ⟨j, hj, hjm⟩ := ring_cover (NumBlocks headerPage) home m hhome hm
  have := Insert_whileBlocks_full B key value headerPage bpm steps 1 home visited tgt hhome h hv
    j hj
  rw [hjm] at this
  have e : GetBlockPageId headerPage m = page_id := by
    unfold GetBlockPageId
    rw [List.getD_eq_getElem _ _ hm]
    exact hget
  rw [e] at this
  exact this

theorem Resize_forPairs_inv (P : LinearProbeHashTable → Prop) (S : Int → Int → Prop)
    (insert : Int → Int → LinearProbeHashTable → Except Fault (Bool × LinearProbeHashTable))
    (hins : ∀ key value t r, S key value → P t → insert key value t = .ok r → P r.2)
    (block : HashTableBlockPage) (slots : List Nat)
    (hS : ∀ i ∈ slots, S (KeyAt block i) (ValueAt block i))
    (t t1 : LinearProbeHashTable) (hP : P t)
    (h : Resize.forPairs insert block slots t = .ok t1) : P t1 := by
  induction slots generalizing t with
  | nil =>
    simp only [Resize.forPairs, Except.ok.injEq] at h
    exact h ▸ hP
  | cons i rest ih =>
    unfold Resize.forPairs at h
    split at h
    · simp at h
    · next r hr =>
      exact ih (fun i hi => hS i (List.mem_cons_of_mem _ hi)) r.2
        (hins _ _ t r (hS i (List.mem_cons_self _ _)) hP hr) h

theorem Resize_forBlocks_inv (B : Nat) (P : LinearProbeHashTable → Prop)
    (S : Int → Int → Prop)
    (insert : Int → Int → LinearProbeHashTable → Except Fault (Bool × LinearProbeHashTable))
    (hins : ∀ key value t r, S key value → P t → insert key value t = .ok r → P r.2)
    (hdel : ∀ t page_id, P t → P ⟨t.headerPage, DeletePage t.buffer_pool_manager_ page_id⟩)
    (blocks : List (HashTableBlockPage × Nat))
    (hS : ∀ b ∈ blocks, ∀ i, i < B → S (KeyAt b.1 i) (ValueAt b.1 i))
    (t t1 : LinearProbeHashTable) (hP : P t)
    (h : Resize.forBlocks B insert blocks t = .ok t1) : P t1 := by
  induction blocks generalizing t with
  | nil =>
    simp only [Resize.forBlocks, Except.ok.injEq] at h
    exact h ▸ hP
  | cons b rest ih =>
    obtain ⟨block, oldPageId⟩ := b
    unfold Resize.forBlocks at h
    split at h
    · simp at h
    · next t2 ht2 =>
      have hP2 : P t2 :=
        Resize_forPairs_inv P S insert hins block (List.range B)
          (fun i hi => hS (block, oldPageId) (List.mem_cons_self _ _) i (List.mem_range.mp hi))
          t t2 hP ht2
      exact ih (fun b hb => hS b (List.mem_cons_of_mem _ hb)) _ (hdel t2 oldPageId hP2) h

theorem inv_deletePage (S : Int → Int → Prop) (B : Nat) (t : LinearProbeHashTable)
    (page_id : Nat) (h : Inv S B t) :
    Inv S B ⟨t.headerPage, DeletePage t.buffer_pool_manager_ page_id⟩ := h

theorem ResizeWith_inv (S : Int → Int → Prop) (B : Nat) (hB : 0 < B)
    (insert : Int → Int → LinearProbeHashTable → Except Fault (Bool × LinearProbeHashTable))
    (hins : ∀ key value t r, S key value → Inv S B t → insert key value t = .ok r →
      Inv S B r.2)
    (t t1 : LinearProbeHashTable) (hinv : Inv S B t)
    (hfull : ∀ page_id ∈ t.headerPage.block_page_ids,
      IsFull B (FetchPage t.buffer_pool_manager_ page_id) = true)
    (h : ResizeWith B insert t.headerPage.size t = .ok t1) : Inv S B t1 := by
  unfold ResizeWith at h
  simp only at h
  split_ifs at h with hsz
  · simp only [Except.ok.injEq] at h
    exact h ▸ hinv
  · refine Resize_forBlocks_inv B (Inv S B) S insert hins (inv_deletePage S B) _ ?_ _ t1 ?_ h
    · rintro ⟨block, oldPageId⟩ hb i hi
      have hb1 := (List.of_mem_zip hb).1
      obtain ⟨page_id, hmem, hpage⟩ := List.mem_map.mp hb1
      simp only at hpage ⊢
      subst hpage
      exact hinv.1 page_id hmem i hi (Or.inl ((isFull_iff B _).mp (hfull page_id hmem) i hi))
    · constructor
      · intro page_id hmem
        have := allocBlocks_zeroPage (t.headerPage.size * 2 / B)
          (ResetNextIndex (SetSize t.headerPage (t.headerPage.size * 2)))
          t.buffer_pool_manager_ (by simp [ResetNextIndex]) page_id hmem
        simp only [FetchPage]
        rw [this]
        exact pageFrom_zeroPage S B
      · constructor
        · simp only [allocBlocks_size, ResetNextIndex, SetSize]
          have := hinv.2.1
          omega
        · simp only [allocBlocks_numBlocks]
          have := hinv.2.1
          have : 0 < t.headerPage.size * 2 / B := Nat.div_pos (by omega) hB
          omega

theorem Insert_inv (S : Int → Int → Prop) (hash_fn_ : Int → Nat) (B : Nat) (hB : 0 < B)
    (fuel : Nat) (key value : Int) (t : LinearProbeHashTable)
    (r : Bool × LinearProbeHashTable) (hS : S key value) (hinv : Inv S B t)
    (h : Insert hash_fn_ B fuel key value t = .ok r) : Inv S B r.2 := by
  induction fuel generalizing key value t r with
  | zero => simp [Insert] at h
  | succ n ih =>
    unfold Insert at h
    simp only at h
    split_ifs at h with hn hresize hfound
    · split at h
      · simp at h
      · next t1 ht1 =>
        simp only [Bool.and_eq_true, Bool.not_eq_true', decide_eq_true_eq] at hresize
        have hpos : 0 < NumBlocks t.headerPage := Nat.pos_of_ne_zero hn
        have hfull := Insert_whileBlocks_all_full B key value t.headerPage
          t.buffer_pool_manager_ (NumBlocks t.headerPage + 1)
          (hash_fn_ key % NumBlocks t.headerPage) _ _ (Nat.mod_lt _ hpos)
          (Prod.ext hresize.1.symm.symm rfl) hresize.2
        have hinv1 := ResizeWith_inv S B hB _
          (fun k v t0 r0 hS0 hi0 h0 => ih k v t0 r0 hS0 hi0 h0) t t1 hinv hfull ht1
        exact ih key value t1 r hS hinv1 h
    · simp only [Except.ok.injEq] at h
      subst h
      refine ⟨?_, hinv.2⟩
      intro page_id hmem
      simp only [FetchPage, writePage]
      by_cases hid : page_id = GetBlockPageId t.headerPage
          (Insert.whileBlocks B key value t.headerPage t.buffer_pool_manager_
            (NumBlocks t.headerPage + 1) 1 (hash_fn_ key % NumBlocks t.headerPage)).2.2
      · rw [hid, Function.update_same]
        apply Insert_forSlots_pageFrom S B key value _ _ hS
        have := hinv.1 page_id hmem
        rw [hid] at this
        exact this
      · rw [Function.update_noteq hid]
        exact hinv.1 page_id hmem
    · simp only [Except.ok.injEq] at h
      subst h
      exact hinv


/-! ## The invariant is kept by `Remove` and by a run -/

theorem Remove_forSlots_pageFrom (S : Int → Int → Prop) (B : Nat) (key value : Int)
    (slots : List Nat) (blockPage : HashTableBlockPage) (res foundEmptySlot : Bool)
    (h : PageFrom S B blockPage) :
    PageFrom S B (Remove.forSlots key value slots blockPage res foundEmptySlot).1 := by
  induction slots generalizing foundEmptySlot with
  | nil => exact h
  | cons i rest ih =>
    unfold Remove.forSlots
    split_ifs with hm he
    · intro j hj hocc
      by_cases hji : j = i
      · subst hji
        have := h j hj
        simp only [KeyAt, ValueAt, BlockRemove, IsOccupied, IsValid, Function.update_same]
          at hocc this ⊢
        apply this
        left
        simpa using hocc
      · have := h j hj
        simp only [KeyAt, ValueAt, BlockRemove, IsOccupied, IsValid,
          Function.update_noteq hji] at hocc this ⊢
        exact this hocc
    · exact ih true
    · exact ih foundEmptySlot

theorem Remove_whileBlocks_pageFrom (S : Int → Int → Prop) (B : Nat) (key value : Int)
    (headerPage : HashTableHeaderPage) (steps visitedBlocks targetBlockIndex : Nat)
    (foundEmptySlot res : Bool) (bpm : BufferPoolManager) (page_id : Nat)
    (h : PageFrom S B (bpm.pages page_id)) :
    PageFrom S B ((Remove.whileBlocks B key value headerPage steps visitedBlocks
      targetBlockIndex foundEmptySlot res bpm).2.pages page_id) := by
  induction steps generalizing visitedBlocks targetBlockIndex foundEmptySlot res bpm with
  | zero => exact h
  | succ n ih =>
    unfold Remove.whileBlocks
    split_ifs with hc
    · apply ih
      simp only [writePage, FetchPage]
      by_cases hid : page_id = GetBlockPageId headerPage targetBlockIndex
      · rw [hid, Function.update_same]
        apply Remove_forSlots_pageFrom
        rw [← hid]
        exact h
      · rw [Function.update_noteq hid]
        exact h
    · exact h

theorem Remove_inv (S : Int → Int → Prop) (hash_fn_ : Int → Nat) (B : Nat)
    (key value : Int) (t : LinearProbeHashTable) (r : Bool × LinearProbeHashTable)
    (hinv : Inv S B t) (h : Remove hash_fn_ B key value t = .ok r) : Inv S B r.2 := by
  unfold Remove at h
  split_ifs at h with hn
  simp only [Except.ok.injEq] at h
  subst h
  refine ⟨?_, hinv.2⟩
  intro page_id hmem
  exact Remove_whileBlocks_pageFrom S B key value _ _ _ _ _ _ _ page_id (hinv.1 page_id hmem)

theorem runOps_inv (S : Int → Int → Prop) (hash_fn_ : Int → Nat) (B : Nat) (hB : 0 < B)
    (fuel : Nat) (ops : List Op) (hS : ∀ key value, Op.insert key value ∈ ops → S key value)
    (t t1 : LinearProbeHashTable) (hinv : Inv S B t)
    (h : runOps hash_fn_ B fuel ops t = .ok t1) : Inv S B t1 := by
  induction ops generalizing t with
  | nil =>
    simp only [runOps, Except.ok.injEq] at h
    exact h ▸ hinv
  | cons op rest ih =>
    have hrest : ∀ key value, Op.insert key value ∈ rest → S key value :=
      fun key value hm => hS key value (List.mem_cons_of_mem _ hm)
    cases op with
    | insert key value =>
      unfold runOps at h
      split at h
      · simp at h
      · next r hr =>
        exact ih hrest r.2
          (Insert_inv S hash_fn_ B hB fuel key value t r
            (hS key value (List.mem_cons_self _ _)) hinv hr) h
    | remove key value =>
      unfold runOps at h
      split at h
      · simp at h
      · next r hr =>
        exact ih hrest r.2 (Remove_inv S hash_fn_ B key value t r hinv hr) h

theorem construct_inv (S : Int → Int → Prop) (B : Nat) (hB : 0 < B) (bpm : BufferPoolManager)
    (num_buckets : Nat) (hn : B ≤ num_buckets) : Inv S B (construct B bpm num_buckets) := by
  refine ⟨?_, ?_, ?_⟩
  · intro page_id hmem
    simp only [FetchPage]
    rw [construct_zeroPage B bpm num_buckets page_id hmem]
    exact pageFrom_zeroPage S B
  · rw [construct_size]
    exact hn
  · rw [construct_numBlocks]
    exact Nat.div_pos hn hB

/-! ## `Remove` and `GetValue` where nothing matches -/

theorem Remove_forSlots_noop (key value : Int) (slots : List Nat)
    (blockPage : HashTableBlockPage) (res foundEmptySlot : Bool)
    (h : ∀ i ∈ slots, ¬ (IsValid blockPage i = true ∧ KeyAt blockPage i = key ∧
      ValueAt blockPage i = value)) :
    (Remove.forSlots key value slots blockPage res foundEmptySlot).1 = blockPage ∧
      (Remove.forSlots key value slots blockPage res foundEmptySlot).2.1 = res := by
  induction slots generalizing foundEmptySlot with
  | nil => exact ⟨rfl, rfl⟩
  | cons i rest ih =>
    have hrest := fun i hi => h i (List.mem_cons_of_mem _ hi)
    unfold Remove.forSlots
    split_ifs with hm he
    · exfalso
      simp only [Bool.and_eq_true, beq_iff_eq, comparator_eq_zero] at hm
      exact h i (List.mem_cons_self _ _) ⟨hm.1.1, hm.1.2, hm.2⟩
    · exact ih true hrest
    · exact ih foundEmptySlot hrest

theorem Remove_whileBlocks_noop (B : Nat) (key value : Int)
    (headerPage : HashTableHeaderPage) (steps visitedBlocks targetBlockIndex : Nat)
    (foundEmptySlot res : Bool) (bpm : BufferPoolManager)
    (hpos : 0 < NumBlocks headerPage) (htgt : targetBlockIndex < NumBlocks headerPage)
    (h : ∀ page_id ∈ headerPage.block_page_ids, ∀ i, i < B →
      ¬ (IsValid (bpm.pages page_id) i = true ∧ KeyAt (bpm.pages page_id) i = key ∧
        ValueAt (bpm.pages page_id) i = value)) :
    Remove.whileBlocks B key value headerPage steps visitedBlocks targetBlockIndex
      foundEmptySlot res bpm = (res, bpm) := by
  induction steps generalizing visitedBlocks targetBlockIndex foundEmptySlot with
  | zero => rfl
  | succ n ih =>
    unfold Remove.whileBlocks
    split_ifs with hc
    · have hno := Remove_forSlots_noop key value (List.range B)
        (FetchPage bpm (GetBlockPageId headerPage targetBlockIndex)) res foundEmptySlot
        (fun i hi => h _ (getBlockPageId_mem headerPage targetBlockIndex htgt) i
          (List.mem_range.mp hi))
      simp only
      rw [hno.1, hno.2]
      simp only [FetchPage, writePage_self]
      exact ih _ _ _ (Nat.mod_lt _ hpos)
    · rfl

theorem Remove_noop (hash_fn_ : Int → Nat) (B : Nat) (key value : Int)
    (t : LinearProbeHashTable) (hpos : 0 < NumBlocks t.headerPage)
    (h : ∀ page_id ∈ t.headerPage.block_page_ids, ∀ i, i < B →
      ¬ (IsValid (t.buffer_pool_manager_.pages page_id) i = true ∧
        KeyAt (t.buffer_pool_manager_.pages page_id) i = key ∧
        ValueAt (t.buffer_pool_manager_.pages page_id) i = value)) :
    Remove hash_fn_ B key value t = .ok (false, t) := by
  unfold Remove
  rw [if_neg (by omega)]
  simp only
  rw [Remove_whileBlocks_noop B key value t.headerPage _ _ _ _ _ _ hpos (Nat.mod_lt _ hpos) h]

theorem GetValue_forSlots_nomatch (key : Int) (slots : List Nat)
    (blockPage : HashTableBlockPage) (res foundEmptySlot : Bool) (result : List Int)
    (h : ∀ i ∈ slots, ¬ (IsValid blockPage i = true ∧ KeyAt blockPage i = key)) :
    (GetValue.forSlots key blockPage slots res foundEmptySlot result).1 = res ∧
      (GetValue.forSlots key blockPage slots res foundEmptySlot result).2.2 = result := by
  induction slots generalizing foundEmptySlot with
  | nil => exact ⟨rfl, rfl⟩
  | cons i rest ih =>
    have hrest := fun i hi => h i (List.mem_cons_of_mem _ hi)
    unfold GetValue.forSlots
    split_ifs with hm he
    · exfalso
      simp only [Bool.and_eq_true, beq_iff_eq, comparator_eq_zero] at hm
      exact h i (List.mem_cons_self _ _) hm
    · exact ih true hrest
    · exact ih foundEmptySlot hrest

theorem GetValue_whileBlocks_nomatch (B : Nat) (key : Int)
    (headerPage : HashTableHeaderPage) (bpm : BufferPoolManager)
    (steps visitedBlocks targetBlockIndex : Nat) (foundEmptySlot res : Bool)
    (result : List Int)
    (hpos : 0 < NumBlocks headerPage) (htgt : targetBlockIndex < NumBlocks headerPage)
    (h : ∀ page_id ∈ headerPage.block_page_ids, ∀ i, i < B →
      ¬ (IsValid (bpm.pages page_id) i = true ∧ KeyAt (bpm.pages page_id) i = key)) :
    GetValue.whileBlocks B key headerPage bpm steps visitedBlocks targetBlockIndex
      foundEmptySlot res result = (res, result) := by
  induction steps generalizing visitedBlocks targetBlockIndex foundEmptySlot with
  | zero => rfl
  | succ n ih =>
    unfold GetValue.whileBlocks
    split_ifs with hc
    · have hno := GetValue_forSlots_nomatch key (List.range B)
        (FetchPage bpm (GetBlockPageId headerPage targetBlockIndex)) res foundEmptySlot result
        (fun i hi => h _ (getBlockPageId_mem headerPage targetBlockIndex htgt) i
          (List.mem_range.mp hi))
      simp only
      rw [hno.1, hno.2]
      exact ih _ _ _ (Nat.mod_lt _ hpos)
    · rfl

theorem GetValue_nomatch (hash_fn_ : Int → Nat) (B : Nat) (key : Int) (result : List Int)
    (t : LinearProbeHashTable) (hpos : 0 < NumBlocks t.headerPage)
    (h : ∀ page_id ∈ t.headerPage.block_page_ids, ∀ i, i < B →
      ¬ (IsValid (t.buffer_pool_manager_.pages page_id) i = true ∧
        KeyAt (t.buffer_pool_manager_.pages page_id) i = key)) :
    GetValue hash_fn_ B key result t = .ok (false, result) := by
  unfold GetValue
  rw [if_neg (by omega)]
  simp only
  rw [GetValue_whileBlocks_nomatch B key t.headerPage _ _ _ _ _ _ _ hpos (Nat.mod_lt _ hpos) h]

theorem ok_tableAfter (r : Except Fault LinearProbeHashTable) (t : LinearProbeHashTable)
    (h : succeeded r = true) : r = .ok (tableAfter r t) := by
  cases r with
  | error e => simp [succeeded] at h
  | ok t1 => rfl


/-! ## The first two inserts into a new table -/

theorem Insert_forSlots_zeroPage (B : Nat) (hB : 0 < B) (key value : Int) :
    Insert.forSlots key value (List.range B) zeroPage =
      (BlockInsert zeroPage 0 key value, true) := by
  obtain ⟨m, rfl⟩ : ∃ m, B = m + 1 := ⟨B - 1, by omega⟩
  rw [List.range_succ_eq_map]
  simp [Insert.forSlots, isOccupied_zeroPage]

theorem Insert_forSlots_second (B : Nat) (hB : 2 ≤ B) (key value key1 value1 : Int) :
    Insert.forSlots key value (List.range B) (BlockInsert zeroPage 0 key1 value1) =
      (BlockInsert (BlockInsert zeroPage 0 key1 value1) 1 key value, true) := by
  obtain ⟨m, rfl⟩ : ∃ m, B = m + 2 := ⟨B - 2, by omega⟩
  rw [List.range_succ_eq_map, List.range_succ_eq_map]
  simp [Insert.forSlots, IsOccupied, BlockInsert, zeroPage]

theorem isFull_second (B : Nat) (hB : 2 ≤ B) (key1 value1 : Int) :
    IsFull B (BlockInsert zeroPage 0 key1 value1) = false := by
  unfold IsFull
  rw [List.all_eq_false]
  exact ⟨1, List.mem_range.mpr (by omega), by simp [IsOccupied, BlockInsert, zeroPage]⟩

theorem Insert_construct (hash_fn_ : Int → Nat) (B : Nat) (hB : 0 < B)
    (bpm : BufferPoolManager) (num_buckets : Nat) (hn : B ≤ num_buckets) (fuel : Nat)
    (key value : Int) :
    Insert hash_fn_ B (fuel + 1) key value (construct B bpm num_buckets) =
      .ok (true, ⟨(construct B bpm num_buckets).headerPage,
        writePage (construct B bpm num_buckets).buffer_pool_manager_
          (GetBlockPageId (construct B bpm num_buckets).headerPage
            (hash_fn_ key % NumBlocks (construct B bpm num_buckets).headerPage))
          (BlockInsert zeroPage 0 key value)⟩) := by
  have hpos : 0 < NumBlocks (construct B bpm num_buckets).headerPage := by
    rw [construct_numBlocks]
    exact Nat.div_pos hn hB
  have hz : FetchPage (construct B bpm num_buckets).buffer_pool_manager_
      (GetBlockPageId (construct B bpm num_buckets).headerPage
        (hash_fn_ key % NumBlocks (construct B bpm num_buckets).headerPage)) = zeroPage :=
    construct_zeroPage B bpm num_buckets _ (getBlockPageId_mem _ _ (Nat.mod_lt _ hpos))
  rw [Insert_of_not_full hash_fn_ B fuel key value _ (by omega)
    (by rw [hz]; exact isFull_zeroPage B hB)]
  rw [hz, Insert_forSlots_zeroPage B hB]

theorem Insert_second (hash_fn_ : Int → Nat) (B : Nat) (hB : 2 ≤ B) (fuel : Nat)
    (key value key1 value1 : Int) (headerPage : HashTableHeaderPage)
    (bpm : BufferPoolManager) (hpos : 0 < NumBlocks headerPage)
    (hhome : hash_fn_ key % NumBlocks headerPage = hash_fn_ key1 % NumBlocks headerPage) :
    Insert hash_fn_ B (fuel + 1) key value
        ⟨headerPage, writePage bpm
          (GetBlockPageId headerPage (hash_fn_ key1 % NumBlocks headerPage))
          (BlockInsert zeroPage 0 key1 value1)⟩ =
      .ok (true, ⟨headerPage, writePage bpm
        (GetBlockPageId headerPage (hash_fn_ key1 % NumBlocks headerPage))
        (BlockInsert (BlockInsert zeroPage 0 key1 value1) 1 key value)⟩) := by
  have hpage : FetchPage (writePage bpm
      (GetBlockPageId headerPage (hash_fn_ key1 % NumBlocks headerPage))
      (BlockInsert zeroPage 0 key1 value1))
      (GetBlockPageId headerPage (hash_fn_ key % NumBlocks headerPage)) =
        BlockInsert zeroPage 0 key1 value1 := by
    rw [hhome]
    simp [FetchPage, writePage]
  rw [Insert_of_not_full hash_fn_ B fuel key value _ (by simpa using (by omega : NumBlocks headerPage ≠ 0))
    (by simp only; rw [hpage]; exact isFull_second B hB key1 value1)]
  simp only
  rw [hpage, Insert_forSlots_second B hB, hhome]
  simp [writePage]


/-! ## `GetValue` after two inserts of one key -/

theorem GetValue_forSlots_two (B : Nat) (hB : 0 < B) (key value1 value2 : Int)
    (res foundEmptySlot : Bool) (result : List Int) :
    GetValue.forSlots key (BlockInsert (BlockInsert zeroPage 0 key value1) 1 key value2)
      (List.range B) res foundEmptySlot result = (true, foundEmptySlot, result ++ [value1]) := by
  obtain ⟨m, rfl⟩ : ∃ m, B = m + 1 := ⟨B - 1, by omega⟩
  rw [List.range_succ_eq_map]
  simp [GetValue.forSlots, IsValid, KeyAt, ValueAt, BlockInsert, comparator_]

theorem GetValue_whileBlocks_two (B : Nat) (hB : 0 < B) (key value1 value2 : Int)
    (headerPage : HashTableHeaderPage) (bpm : BufferPoolManager)
    (steps visitedBlocks targetBlockIndex : Nat) (foundEmptySlot res : Bool)
    (result : List Int)
    (hpos : 0 < NumBlocks headerPage) (htgt : targetBlockIndex < NumBlocks headerPage)
    (hpages : ∀ page_id ∈ headerPage.block_page_ids,
      bpm.pages page_id = BlockInsert (BlockInsert zeroPage 0 key value1) 1 key value2 ∨
        bpm.pages page_id = zeroPage)
    (hres : ∀ x ∈ result, x = value1) :
    ∀ x ∈ (GetValue.whileBlocks B key headerPage bpm steps visitedBlocks targetBlockIndex
      foundEmptySlot res result).2, x = value1 := by
  induction steps generalizing visitedBlocks targetBlockIndex foundEmptySlot res result with
  | zero => exact hres
  | succ n ih =>
    unfold GetValue.whileBlocks
    split_ifs with hc
    · simp only
      rcases hpages _ (getBlockPageId_mem headerPage targetBlockIndex htgt) with hp | hp
      · simp only [FetchPage, hp, GetValue_forSlots_two B hB]
        apply ih _ _ _ _ _ (Nat.mod_lt _ hpos)
        intro x hx
        rcases List.mem_append.mp hx with hx | hx
        · exact hres x hx
        · simpa using hx
      · have hno := GetValue_forSlots_nomatch key (List.range B) zeroPage res foundEmptySlot
          result (fun i _ h => by simp [isValid_zeroPage] at h)
        simp only [FetchPage, hp]
        apply ih _ _ _ _ _ (Nat.mod_lt _ hpos)
        rw [hno.2]
        exact hres
    · exact hres

/-! ## Claims on new tables -/

/-- C1: on a table built with exactly one block, whatever the hash function,
the block capacity and the pair, `Insert(key, value)` returns true and the
`GetValue(key)` that follows returns false and appends nothing: the pair just
inserted is not found. -/
theorem GetValue_misses_pair_in_only_block (hash_fn_ : Int → Nat) (B : Nat) (hB : 0 < B)
    (bpm : BufferPoolManager) (fuel : Nat) (key value : Int) :
    ∃ t, Insert hash_fn_ B (fuel + 1) key value (construct B bpm B) = .ok (true, t) ∧
      ∀ result, GetValue hash_fn_ B key result t = .ok (false, result) := by
  refine ⟨_, Insert_construct hash_fn_ B hB bpm B (le_refl B) fuel key value, ?_⟩
  intro result
  apply GetValue_one_block
  simp only
  rw [construct_numBlocks, Nat.div_self hB]

theorem GetValue_misses_pair_in_only_block_witness :
    0 < 4 ∧ ∃ t, Insert hashId 4 1 1 100 (construct 4 emptyPool 4) = .ok (true, t) ∧
      ∀ result, GetValue hashId 4 1 result t = .ok (false, result) :=
  ⟨by decide, GetValue_misses_pair_in_only_block hashId 4 (by decide) emptyPool 0 1 100⟩

/-- C2: on a new table with at least one block of at least two slots, whatever
the hash function and the key, after `Insert(key, value1)` and
`Insert(key, value2)` with `value1 ≠ value2` both pairs sit in valid slots,
but the result of `GetValue(key)` does not contain `value2`. -/
theorem GetValue_misses_second_value (hash_fn_ : Int → Nat) (B : Nat) (hB : 2 ≤ B)
    (bpm : BufferPoolManager) (num_buckets : Nat) (hn : B ≤ num_buckets) (fuel : Nat)
    (key value1 value2 : Int) (hne : value1 ≠ value2) :
    ∃ t, runOps hash_fn_ B (fuel + 1) [Op.insert key value1, Op.insert key value2]
        (construct B bpm num_buckets) = .ok t ∧
      (key, value1) ∈ liveEntries B t ∧ (key, value2) ∈ liveEntries B t ∧
      ∃ r, GetValue hash_fn_ B key [] t = .ok r ∧ value2 ∉ r.2 := by
  have hpos : 0 < NumBlocks (construct B bpm num_buckets).headerPage := by
    rw [construct_numBlocks]
    exact Nat.div_pos hn (by omega)
  have hhome := getBlockPageId_mem (construct B bpm num_buckets).headerPage
    (hash_fn_ key % NumBlocks (construct B bpm num_buckets).headerPage) (Nat.mod_lt _ hpos)
  refine ⟨⟨(construct B bpm num_buckets).headerPage,
    writePage (construct B bpm num_buckets).buffer_pool_manager_
      (GetBlockPageId (construct B bpm num_buckets).headerPage
        (hash_fn_ key % NumBlocks (construct B bpm num_buckets).headerPage))
      (BlockInsert (BlockInsert zeroPage 0 key value1) 1 key value2)⟩, ?_, ?_, ?_, ?_⟩
  · simp only [runOps]
    rw [Insert_construct hash_fn_ B (by omega) bpm num_buckets hn fuel key value1]
    simp only
    rw [Insert_second hash_fn_ B hB fuel key value2 key value1 _ _ hpos rfl]
  · simp only [liveEntries, List.mem_flatMap, List.mem_filterMap, List.mem_range]
    refine ⟨_, hhome, 0, by omega, ?_⟩
    simp [FetchPage, writePage, IsValid, KeyAt, ValueAt, BlockInsert]
  · simp only [liveEntries, List.mem_flatMap, List.mem_filterMap, List.mem_range]
    refine ⟨_, hhome, 1, by omega, ?_⟩
    simp [FetchPage, writePage, IsValid, KeyAt, ValueAt, BlockInsert]
  · unfold GetValue
    rw [if_neg (by simpa using (by omega :
      NumBlocks (construct B bpm num_buckets).headerPage ≠ 0))]
    refine ⟨_, rfl, ?_⟩
    intro hmem
    have := GetValue_whileBlocks_two B (by omega) key value1 value2
      (construct B bpm num_buckets).headerPage _ _ 1 _ false false [] hpos
      (Nat.mod_lt _ hpos) ?_ (by simp) value2 hmem
    · exact hne this.symm
    · intro page_id hmem
      simp only [writePage]
      by_cases hid : page_id = GetBlockPageId (construct B bpm num_buckets).headerPage
          (hash_fn_ key % NumBlocks (construct B bpm num_buckets).headerPage)
      · left
        rw [hid, Function.update_same]
      · right
        rw [Function.update_noteq hid]
        exact construct_zeroPage B bpm num_buckets page_id hmem

/-- With block capacity 4, two blocks and every key hashed to block 0: the
result of `GetValue(2)` does not contain 200 although (2, 200) is stored. -/
theorem GetValue_misses_second_value_witness :
    2 ≤ 4 ∧ 4 ≤ 8 ∧ (100 : Int) ≠ 200 ∧
    ∃ t, runOps hashZero 4 1 [Op.insert 2 100, Op.insert 2 200] (construct 4 emptyPool 8) =
        .ok t ∧
      (2, 100) ∈ liveEntries 4 t ∧ (2, 200) ∈ liveEntries 4 t ∧
      ∃ r, GetValue hashZero 4 2 [] t = .ok r ∧ 200 ∉ r.2 :=
  ⟨by decide, by decide, by decide,
    GetValue_misses_second_value hashZero 4 (by decide) emptyPool 8 (by decide) 0 2 100 200
      (by decide)⟩

/-- With block capacity 4, two blocks and every key hashed to block 0, after
`Insert(2, 100)` and `Insert(2, 200)` the call `GetValue(2)` returns true with
the result `[100]`. -/
theorem GetValue_after_two_inserts_example :
    ((runOps hashZero 4 1 [Op.insert 2 100, Op.insert 2 200] (construct 4 emptyPool 8)).bind
      fun t => .ok (liveEntries 4 t, GetValue hashZero 4 2 [] t)) =
      .ok ([(2, 100), (2, 200)], .ok (true, [100])) := by
  decide!

/-- C3: on a new table with at least one block of at least two slots, a second
`Insert(key, value)` returns true like the first and writes the pair into
slot 1 of the home block, next to the copy in slot 0. -/
theorem Insert_twice_stores_pair_twice (hash_fn_ : Int → Nat) (B : Nat) (hB : 2 ≤ B)
    (bpm : BufferPoolManager) (num_buckets : Nat) (hn : B ≤ num_buckets) (fuel : Nat)
    (key value : Int) :
    ∃ t1 t2, Insert hash_fn_ B (fuel + 1) key value (construct B bpm num_buckets) =
        .ok (true, t1) ∧
      Insert hash_fn_ B (fuel + 1) key value t1 = .ok (true, t2) ∧
      FetchPage t1.buffer_pool_manager_
        (GetBlockPageId t1.headerPage (hash_fn_ key % NumBlocks t1.headerPage)) 1 =
          ⟨0, 0, false, false⟩ ∧
      FetchPage t2.buffer_pool_manager_
        (GetBlockPageId t2.headerPage (hash_fn_ key % NumBlocks t2.headerPage)) 0 =
          ⟨key, value, true, true⟩ ∧
      FetchPage t2.buffer_pool_manager_
        (GetBlockPageId t2.headerPage (hash_fn_ key % NumBlocks t2.headerPage)) 1 =
          ⟨key, value, true, true⟩ := by
  have hpos : 0 < NumBlocks (construct B bpm num_buckets).headerPage := by
    rw [construct_numBlocks]
    exact Nat.div_pos hn (by omega)
  refine ⟨_, _, Insert_construct hash_fn_ B (by omega) bpm num_buckets hn fuel key value,
    Insert_second hash_fn_ B hB fuel key value key value _ _ hpos rfl, ?_, ?_, ?_⟩
  · simp [FetchPage, writePage, BlockInsert, zeroPage]
  · simp [FetchPage, writePage, BlockInsert]
  · simp [FetchPage, writePage, BlockInsert]

theorem Insert_twice_stores_pair_twice_witness :
    2 ≤ 4 ∧ 4 ≤ 4 ∧
    ∃ t1 t2, Insert hashId 4 1 1 100 (construct 4 emptyPool 4) = .ok (true, t1) ∧
      Insert hashId 4 1 1 100 t1 = .ok (true, t2) ∧
      FetchPage t1.buffer_pool_manager_
        (GetBlockPageId t1.headerPage (hashId 1 % NumBlocks t1.headerPage)) 1 =
          ⟨0, 0, false, false⟩ ∧
      FetchPage t2.buffer_pool_manager_
        (GetBlockPageId t2.headerPage (hashId 1 % NumBlocks t2.headerPage)) 0 =
          ⟨1, 100, true, true⟩ ∧
      FetchPage t2.buffer_pool_manager_
        (GetBlockPageId t2.headerPage (hashId 1 % NumBlocks t2.headerPage)) 1 =
          ⟨1, 100, true, true⟩ :=
  ⟨by decide, by decide,
    Insert_twice_stores_pair_twice hashId 4 (by decide) emptyPool 4 (by decide) 0 1 100⟩

/-- C4: on a table built with exactly one block, whatever the hash function,
the block capacity and the pair, `Insert(key, value)` returns true and the
`Remove(key, value)` that follows returns false and changes nothing. -/
theorem Remove_misses_pair_in_only_block (hash_fn_ : Int → Nat) (B : Nat) (hB : 0 < B)
    (bpm : BufferPoolManager) (fuel : Nat) (key value : Int) :
    ∃ t, Insert hash_fn_ B (fuel + 1) key value (construct B bpm B) = .ok (true, t) ∧
      Remove hash_fn_ B key value t = .ok (false, t) := by
  refine ⟨_, Insert_construct hash_fn_ B hB bpm B (le_refl B) fuel key value, ?_⟩
  apply Remove_one_block
  simp only
  rw [construct_numBlocks, Nat.div_self hB]

theorem Remove_misses_pair_in_only_block_witness :
    0 < 4 ∧ ∃ t, Insert hashId 4 1 1 100 (construct 4 emptyPool 4) = .ok (true, t) ∧
      Remove hashId 4 1 100 t = .ok (false, t) :=
  ⟨by decide, Remove_misses_pair_in_only_block hashId 4 (by decide) emptyPool 0 1 100⟩

/-- C8: on a new table with exactly one block of at least two slots, whatever
the hash function, after `Insert(1, 100)`, `Remove(1, 100)`, `Insert(1, 200)`
the lookup `GetValue(1)` returns false and appends nothing. -/
theorem GetValue_misses_reinserted_key (hash_fn_ : Int → Nat) (B : Nat) (hB : 2 ≤ B)
    (bpm : BufferPoolManager) (fuel : Nat) :
    ∃ t, runOps hash_fn_ B (fuel + 1) [Op.insert 1 100, Op.remove 1 100, Op.insert 1 200]
        (construct B bpm B) = .ok t ∧
      ∀ result, GetValue hash_fn_ B 1 result t = .ok (false, result) := by
  have hone : NumBlocks (construct B bpm B).headerPage = 1 := by
    rw [construct_numBlocks, Nat.div_self (by omega)]
  refine ⟨⟨(construct B bpm B).headerPage,
    writePage (construct B bpm B).buffer_pool_manager_
      (GetBlockPageId (construct B bpm B).headerPage
        (hash_fn_ 1 % NumBlocks (construct B bpm B).headerPage))
      (BlockInsert (BlockInsert zeroPage 0 1 100) 1 1 200)⟩, ?_, ?_⟩
  · have hrem : ∀ bpm1, Remove hash_fn_ B 1 100 ⟨(construct B bpm B).headerPage, bpm1⟩ =
        .ok (false, ⟨(construct B bpm B).headerPage, bpm1⟩) :=
      fun bpm1 => Remove_one_block hash_fn_ B 1 100 ⟨_, bpm1⟩ hone
    simp only [runOps]
    rw [Insert_construct hash_fn_ B (by omega) bpm B (le_refl B) fuel 1 100]
    simp only
    rw [hrem]
    simp only
    rw [Insert_second hash_fn_ B hB fuel 1 200 1 100 _ _ (by omega) rfl]
  · intro result
    exact GetValue_one_block hash_fn_ B 1 result _ hone

theorem GetValue_misses_reinserted_key_witness :
    2 ≤ 4 ∧ ∃ t, runOps hashId 4 1 [Op.insert 1 100, Op.remove 1 100, Op.insert 1 200]
        (construct 4 emptyPool 4) = .ok t ∧
      ∀ result, GetValue hashId 4 1 result t = .ok (false, result) :=
  ⟨by decide, GetValue_misses_reinserted_key hashId 4 (by decide) emptyPool 0⟩

/-! ## The header along a run -/

theorem allocBlocks_header (blockNum : Nat) (headerPage : HashTableHeaderPage)
    (bpm : BufferPoolManager) :
    (allocBlocks blockNum headerPage bpm).1 =
      ⟨headerPage.page_id, headerPage.size,
        headerPage.block_page_ids ++ List.range' bpm.next_page_id blockNum⟩ := by
  induction blockNum generalizing headerPage bpm with
  | zero => simp [allocBlocks]
  | succ n ih =>
    simp only [allocBlocks, ih]
    simp [AddBlockPageId, NewPage, List.range'_succ]

theorem allocBlocks_next_page_id (blockNum : Nat) (headerPage : HashTableHeaderPage)
    (bpm : BufferPoolManager) :
    (allocBlocks blockNum headerPage bpm).2.next_page_id = bpm.next_page_id + blockNum := by
  induction blockNum generalizing headerPage bpm with
  | zero => rfl
  | succ n ih =>
    simp only [allocBlocks, ih]
    simp [NewPage]
    omega

theorem ResizeWith_header (B : Nat) (Q : HashTableHeaderPage → Prop)
    (insert : Int → Int → LinearProbeHashTable → Except Fault (Bool × LinearProbeHashTable))
    (hins : ∀ key value t r, Q t.headerPage → insert key value t = .ok r → Q r.2.headerPage)
    (initial_size : Nat) (t t1 : LinearProbeHashTable) (hQ : Q t.headerPage)
    (hnew : ∀ bpm, Q (allocBlocks (initial_size * 2 / B)
      (ResetNextIndex (SetSize t.headerPage (initial_size * 2))) bpm).1)
    (h : ResizeWith B insert initial_size t = .ok t1) : Q t1.headerPage := by
  unfold ResizeWith at h
  simp only at h
  split_ifs at h with hsz
  · simp only [Except.ok.injEq] at h
    exact h ▸ hQ
  · exact Resize_forBlocks_inv B (fun t => Q t.headerPage) (fun _ _ => True) insert
      (fun key value t r _ hq hr => hins key value t r hq hr) (fun _ _ hq => hq) _
      (fun _ _ _ _ => trivial) _ t1 (hnew _) h

theorem Insert_header (hash_fn_ : Int → Nat) (B : Nat) (Q : HashTableHeaderPage → Prop)
    (hnew : ∀ headerPage bpm, Q headerPage → Q (allocBlocks (headerPage.size * 2 / B)
      (ResetNextIndex (SetSize headerPage (headerPage.size * 2))) bpm).1)
    (fuel : Nat) (key value : Int) (t : LinearProbeHashTable)
    (r : Bool × LinearProbeHashTable) (hQ : Q t.headerPage)
    (h : Insert hash_fn_ B fuel key value t = .ok r) : Q r.2.headerPage := by
  induction fuel generalizing key value t r with
  | zero => simp [Insert] at h
  | succ n ih =>
    unfold Insert at h
    simp only at h
    split_ifs at h with hn hresize hfound
    · split at h
      · simp at h
      · next t1 ht1 =>
        have hQ1 := ResizeWith_header B Q _
          (fun k v t0 r0 hq h0 => ih k v t0 r0 hq h0) _ t t1 hQ
          (fun bpm => hnew t.headerPage bpm hQ) ht1
        exact ih key value t1 r hQ1 h
    · simp only [Except.ok.injEq] at h
      subst h
      exact hQ
    · simp only [Except.ok.injEq] at h
      subst h
      exact hQ

theorem Remove_header (hash_fn_ : Int → Nat) (B : Nat) (key value : Int)
    (t : LinearProbeHashTable) (r : Bool × LinearProbeHashTable)
    (h : Remove hash_fn_ B key value t = .ok r) : r.2.headerPage = t.headerPage := by
  unfold Remove at h
  split_ifs at h with hn
  simp only [Except.ok.injEq] at h
  subst h
  rfl

theorem GetSize_eq (t : LinearProbeHashTable) (h : t.headerPage.size < 2 ^ 31) :
    GetSize t = t.headerPage.size := by
  unfold GetSize
  have h1 : t.headerPage.size % 2 ^ 32 = t.headerPage.size := Nat.mod_eq_of_lt (by omega)
  simp only [h1, h, if_true]
  have h2 : (t.headerPage.size : Int) % 2 ^ 64 = (t.headerPage.size : Int) := by
    apply Int.emod_eq_of_lt
    · omega
    · have : (2 : Int) ^ 31 < 2 ^ 64 := by norm_num
      have : (t.headerPage.size : Int) < 2 ^ 31 := by exact_mod_cast h
      omega
  rw [h2]
  simp

/-! ## Faults along a run -/

theorem wellSized_resized (B : Nat) (hB : 0 < B) (t : LinearProbeHashTable)
    (bpm : BufferPoolManager) (h : WellSized B t) :
    WellSized B ⟨(allocBlocks (t.headerPage.size * 2 / B)
        (ResetNextIndex (SetSize t.headerPage (t.headerPage.size * 2))) bpm).1,
      (allocBlocks (t.headerPage.size * 2 / B)
        (ResetNextIndex (SetSize t.headerPage (t.headerPage.size * 2))) bpm).2⟩ := by
  constructor
  · simp only [allocBlocks_size, ResetNextIndex, SetSize]
    have := h.1
    omega
  · simp only [allocBlocks_numBlocks]
    have := h.1
    have : 0 < t.headerPage.size * 2 / B := Nat.div_pos (by omega) hB
    omega

theorem Insert_wellSized (hash_fn_ : Int → Nat) (B : Nat) (hB : 0 < B) (fuel : Nat)
    (key value : Int) (t : LinearProbeHashTable) (r : Bool × LinearProbeHashTable)
    (hw : WellSized B t) (h : Insert hash_fn_ B fuel key value t = .ok r) :
    WellSized B r.2 := by
  have hQ := Insert_header hash_fn_ B (fun hdr => B ≤ hdr.size ∧ 0 < NumBlocks hdr)
    (fun hdr bpm hq => wellSized_resized B hB ⟨hdr, bpm⟩ bpm hq) fuel key value t r hw h
  exact hQ

theorem Resize_forPairs_fault (P : LinearProbeHashTable → Prop) (F : Fault → Prop)
    (insert : Int → Int → LinearProbeHashTable → Except Fault (Bool × LinearProbeHashTable))
    (hins : ∀ key value t r, P t → insert key value t = .ok r → P r.2)
    (hF : ∀ key value t e, P t → insert key value t = .error e → F e)
    (block : HashTableBlockPage) (slots : List Nat) (t : LinearProbeHashTable) (e : Fault)
    (hP : P t) (h : Resize.forPairs insert block slots t = .error e) : F e := by
  induction slots generalizing t with
  | nil => simp [Resize.forPairs] at h
  | cons i rest ih =>
    unfold Resize.forPairs at h
    split at h
    · next e1 he1 =>
      simp only [Except.error.injEq] at h
      exact h ▸ hF _ _ t e1 hP he1
    · next r hr => exact ih r.2 (hins _ _ t r hP hr) h

theorem Resize_forBlocks_fault (B : Nat) (P : LinearProbeHashTable → Prop) (F : Fault → Prop)
    (insert : Int → Int → LinearProbeHashTable → Except Fault (Bool × LinearProbeHashTable))
    (hins : ∀ key value t r, P t → insert key value t = .ok r → P r.2)
    (hF : ∀ key value t e, P t → insert key value t = .error e → F e)
    (hdel : ∀ t page_id, P t → P ⟨t.headerPage, DeletePage t.buffer_pool_manager_ page_id⟩)
    (blocks : List (HashTableBlockPage × Nat)) (t : LinearProbeHashTable) (e : Fault)
    (hP : P t) (h : Resize.forBlocks B insert blocks t = .error e) : F e := by
  induction blocks generalizing t with
  | nil => simp [Resize.forBlocks] at h
  | cons b rest ih =>
    obtain ⟨block, oldPageId⟩ := b
    unfold Resize.forBlocks at h
    split at h
    · next e1 he1 =>
      simp only [Except.error.injEq] at h
      exact h ▸ Resize_forPairs_fault P F insert hins hF block _ t e1 hP he1
    · next t2 ht2 =>
      have hP2 : P t2 := Resize_forPairs_inv P (fun _ _ => True) insert
        (fun key value t r _ hp hr => hins key value t r hp hr) block (List.range B)
        (fun _ _ => trivial) t t2 hP ht2
      exact ih _ (hdel t2 oldPageId hP2) h

theorem Insert_fault (hash_fn_ : Int → Nat) (B : Nat) (hB : 0 < B) (fuel : Nat)
    (key value : Int) (t : LinearProbeHashTable) (e : Fault) (hw : WellSized B t)
    (h : Insert hash_fn_ B fuel key value t = .error e) : e = .outOfFuel := by
  induction fuel generalizing key value t e with
  | zero =>
    simp only [Insert, Except.error.injEq] at h
    exact h.symm
  | succ n ih =>
    unfold Insert at h
    simp only at h
    have hn : NumBlocks t.headerPage ≠ 0 := by have := hw.2; omega
    rw [if_neg hn] at h
    split_ifs at h with hresize hfound
    split at h
    · next e1 he1 =>
      simp only [Except.error.injEq] at h
      subst h
      unfold ResizeWith at he1
      simp only at he1
      split_ifs at he1 with hsz
      exact Resize_forBlocks_fault B (WellSized B) (fun e => e = .outOfFuel) _
        (fun k v t0 r0 hp hr => Insert_wellSized hash_fn_ B hB n k v t0 r0 hp hr)
        (fun k v t0 e0 hp he => ih k v t0 e0 hp he) (fun _ _ hp => hp) _ _ e1
        (wellSized_resized B hB t _ hw) he1
    · next t1 ht1 =>
      have hw1 : WellSized B t1 := by
        have := ResizeWith_header B (fun hdr => B ≤ hdr.size ∧ 0 < NumBlocks hdr) _
          (fun k v t0 r0 hq h0 => Insert_wellSized hash_fn_ B hB n k v t0 r0 hq h0)
          _ t t1 hw (fun bpm => wellSized_resized B hB t bpm hw) ht1
        exact this
      exact ih key value t1 e hw1 h

theorem Remove_ok (hash_fn_ : Int → Nat) (B : Nat) (key value : Int)
    (t : LinearProbeHashTable) (hpos : 0 < NumBlocks t.headerPage) :
    ∃ r, Remove hash_fn_ B key value t = .ok r := by
  unfold Remove
  rw [if_neg (by omega)]
  exact ⟨_, rfl⟩

theorem GetValue_ok (hash_fn_ : Int → Nat) (B : Nat) (key : Int) (result : List Int)
    (t : LinearProbeHashTable) (hpos : 0 < NumBlocks t.headerPage) :
    ∃ r, GetValue hash_fn_ B key result t = .ok r := by
  unfold GetValue
  rw [if_neg (by omega)]
  exact ⟨_, rfl⟩

theorem Remove_wellSized (hash_fn_ : Int → Nat) (B : Nat) (key value : Int)
    (t : LinearProbeHashTable) (r : Bool × LinearProbeHashTable) (hw : WellSized B t)
    (h : Remove hash_fn_ B key value t = .ok r) : WellSized B r.2 := by
  unfold WellSized
  rw [Remove_header hash_fn_ B key value t r h]
  exact hw

theorem runOps_wellSized (hash_fn_ : Int → Nat) (B : Nat) (hB : 0 < B) (fuel : Nat)
    (ops : List Op) (t t1 : LinearProbeHashTable) (hw : WellSized B t)
    (h : runOps hash_fn_ B fuel ops t = .ok t1) : WellSized B t1 :=
  (runOps_inv (fun _ _ => True) hash_fn_ B hB fuel ops (fun _ _ _ => trivial) t t1
    ⟨fun _ _ _ _ _ => trivial, hw⟩ h).2

theorem runOps_fault (hash_fn_ : Int → Nat) (B : Nat) (hB : 0 < B) (fuel : Nat)
    (ops : List Op) (t : LinearProbeHashTable) (e : Fault) (hw : WellSized B t)
    (h : runOps hash_fn_ B fuel ops t = .error e) : e = .outOfFuel := by
  induction ops generalizing t with
  | nil => simp [runOps] at h
  | cons op rest ih =>
    cases op with
    | insert key value =>
      unfold runOps at h
      split at h
      · next e1 he1 =>
        simp only [Except.error.injEq] at h
        exact h ▸ Insert_fault hash_fn_ B hB fuel key value t e1 hw he1
      · next r hr => exact ih r.2 (Insert_wellSized hash_fn_ B hB fuel key value t r hw hr) h
    | remove key value =>
      unfold runOps at h
      split at h
      · next e1 he1 =>
        obtain ⟨r, hr⟩ := Remove_ok hash_fn_ B key value t hw.2
        rw [hr] at he1
        simp at he1
      · next r hr => exact ih r.2 (Remove_wellSized hash_fn_ B key value t r hw hr) h

theorem construct_wellSized (B : Nat) (hB : 0 < B) (bpm : BufferPoolManager)
    (num_buckets : Nat) (hn : B ≤ num_buckets) : WellSized B (construct B bpm num_buckets) :=
  (construct_inv (fun _ _ => True) B hB bpm num_buckets hn).2

/-! ## Claims on the header -/

/-- C11, as stated, fails: with block capacity 4 a table constructed with
`num_buckets = 5` reports the capacity 5 and lists one block, and 5 is not
1 * 4. -/
theorem capacity_differs_from_blocks_times_block_size :
    GetSize (construct 4 emptyPool 5) ≠ NumBlocks (construct 4 emptyPool 5).headerPage * 4 := by
  decide

/-- C13: when the header's capacity is already at least twice
`initial_size`, `Resize(initial_size)` returns the table as it was: the
header's capacity and block id list, every slot of every page, the next page
id to allocate and the list of deleted pages are all unchanged. -/
theorem Resize_recheck_is_noop (hash_fn_ : Int → Nat) (B fuel initial_size : Nat)
    (t : LinearProbeHashTable) (h : initial_size * 2 ≤ t.headerPage.size) :
    Resize hash_fn_ B fuel initial_size t = .ok t := by
  simp [Resize, ResizeWith, h]

theorem Resize_recheck_is_noop_witness :
    4 * 2 ≤ (construct 4 emptyPool 8).headerPage.size ∧
      Resize hashId 4 1 4 (construct 4 emptyPool 8) = .ok (construct 4 emptyPool 8) :=
  ⟨by decide, Resize_recheck_is_noop hashId 4 1 4 (construct 4 emptyPool 8) (by decide)⟩

/-- C19: for a table constructed with `num_buckets ≥ BLOCK_ARRAY_SIZE`, the
header lists at least one block after construction; no run of Insert and
Remove calls (with the Resizes and nested Inserts they trigger) ever takes a
remainder by a zero block count; and in every table such a run ends in the
block count is at least 1, the home index of every key is below it, and
`GetValue`, `Remove` and `Insert` do not take a remainder by zero. -/
theorem NumBlocks_never_zero (hash_fn_ : Int → Nat) (B : Nat) (hB : 0 < B)
    (bpm : BufferPoolManager) (num_buckets : Nat) (hn : B ≤ num_buckets) (fuel : Nat)
    (ops : List Op) :
    0 < NumBlocks (construct B bpm num_buckets).headerPage ∧
      runOps hash_fn_ B fuel ops (construct B bpm num_buckets) ≠ .error .modByZero ∧
      ∀ t, runOps hash_fn_ B fuel ops (construct B bpm num_buckets) = .ok t →
        0 < NumBlocks t.headerPage ∧
        (∀ key, hash_fn_ key % NumBlocks t.headerPage < NumBlocks t.headerPage) ∧
        (∀ key result, ∃ r, GetValue hash_fn_ B key result t = .ok r) ∧
        (∀ key value, ∃ r, Remove hash_fn_ B key value t = .ok r) ∧
        (∀ fuel1 key value, Insert hash_fn_ B fuel1 key value t ≠ .error .modByZero) := by
  have hw := construct_wellSized B hB bpm num_buckets hn
  refine ⟨hw.2, ?_, ?_⟩
  · intro herr
    have := runOps_fault hash_fn_ B hB fuel ops _ _ hw herr
    simp at this
  · intro t hrun
    have hwt := runOps_wellSized hash_fn_ B hB fuel ops _ t hw hrun
    refine ⟨hwt.2, fun key => Nat.mod_lt _ hwt.2,
      fun key result => GetValue_ok hash_fn_ B key result t hwt.2,
      fun key value => Remove_ok hash_fn_ B key value t hwt.2, ?_⟩
    intro fuel1 key value herr
    have := Insert_fault hash_fn_ B hB fuel1 key value t _ hwt herr
    simp at this

theorem NumBlocks_never_zero_witness :
    0 < 4 ∧ 4 ≤ 4 ∧
    0 < NumBlocks (construct 4 emptyPool 4).headerPage ∧
      runOps hashId 4 2 overflowOps (construct 4 emptyPool 4) ≠ .error .modByZero ∧
      ∀ t, runOps hashId 4 2 overflowOps (construct 4 emptyPool 4) = .ok t →
        0 < NumBlocks t.headerPage ∧
        (∀ key, hashId key % NumBlocks t.headerPage < NumBlocks t.headerPage) ∧
        (∀ key result, ∃ r, GetValue hashId 4 key result t = .ok r) ∧
        (∀ key value, ∃ r, Remove hashId 4 key value t = .ok r) ∧
        (∀ fuel1 key value, Insert hashId 4 fuel1 key value t ≠ .error .modByZero) :=
  ⟨by decide, by decide,
    NumBlocks_never_zero hashId 4 (by decide) emptyPool 4 (by decide) 2 overflowOps⟩

/-! ## Where `Insert` places a pair -/

theorem Insert_whileBlocks_walk (B : Nat) (key value : Int) (headerPage : HashTableHeaderPage)
    (bpm : BufferPoolManager) (j : Nat) :
    ∀ steps visitedBlocks targetBlockIndex, j < steps →
      targetBlockIndex < NumBlocks headerPage → visitedBlocks + j ≤ NumBlocks headerPage →
      (∀ j1, j1 < j →
        IsFull B (FetchPage bpm (GetBlockPageId headerPage
          ((targetBlockIndex + j1) % NumBlocks headerPage))) = true ∧
        isKeyValueExist B (FetchPage bpm (GetBlockPageId headerPage
          ((targetBlockIndex + j1) % NumBlocks headerPage))) key value = false) →
      IsFull B (FetchPage bpm (GetBlockPageId headerPage
        ((targetBlockIndex + j) % NumBlocks headerPage))) = false →
      Insert.whileBlocks B key value headerPage bpm steps visitedBlocks targetBlockIndex =
        (false, visitedBlocks + j, (targetBlockIndex + j) % NumBlocks headerPage) := by
  induction j with
  | zero =>
    intro steps visitedBlocks targetBlockIndex hsteps htgt _ _ hfree
    obtain ⟨s, rfl⟩ : ∃ s, steps = s + 1 := ⟨steps - 1, by omega⟩
    simp only [Nat.add_zero, Nat.mod_eq_of_lt htgt] at hfree ⊢
    unfold Insert.whileBlocks
    simp [hfree]
  | succ j ih =>
    intro steps visitedBlocks targetBlockIndex hsteps htgt hvis hwalk hfree
    obtain ⟨s, rfl⟩ : ∃ s, steps = s + 1 := ⟨steps - 1, by omega⟩
    have hpos : 0 < NumBlocks headerPage := by omega
    have h0 := hwalk 0 (by omega)
    simp only [Nat.add_zero, Nat.mod_eq_of_lt htgt] at h0
    unfold Insert.whileBlocks
    have hle : visitedBlocks ≤ NumBlocks headerPage := by omega
    simp only [h0.1, h0.2, hle, decide_True, Bool.and_self, if_true, Bool.false_eq_true,
      if_false]
    have e : ∀ x, ((targetBlockIndex + 1) % NumBlocks headerPage + x) % NumBlocks headerPage =
        (targetBlockIndex + (x + 1)) % NumBlocks headerPage := by
      intro x
      rw [Nat.mod_add_mod]
      congr 1
      omega
    rw [ih s (visitedBlocks + 1) ((targetBlockIndex + 1) % NumBlocks headerPage) (by omega)
      (Nat.mod_lt _ hpos) (by omega)
      (fun j1 hj1 => by rw [e]; exact hwalk (j1 + 1) (by omega))
      (by rw [e]; exact hfree)]
    rw [e]
    congr 2
    omega

theorem Insert_forSlots_first_free (key value : Int) (blockPage : HashTableBlockPage)
    (len : Nat) :
    ∀ s i, s ≤ i → i < s + len →
      (∀ i1, s ≤ i1 → i1 < i → IsOccupied blockPage i1 = true) →
      IsOccupied blockPage i = false →
      Insert.forSlots key value (List.range' s len) blockPage =
        (BlockInsert blockPage i key value, true) := by
  induction len with
  | zero =>
    intro s i h1 h2 _ _
    omega
  | succ n ih =>
    intro s i h1 h2 hocc hfree
    rw [List.range'_succ]
    unfold Insert.forSlots
    by_cases hs : s = i
    · subst hs
      simp [hfree]
    · have hso := hocc s (le_refl s) (by omega)
      simp only [hso, Bool.not_true, Bool.false_eq_true, if_false]
      exact ih (s + 1) i (by omega) (by omega) (fun i1 h3 h4 => hocc i1 (by omega) h4) hfree

theorem first_free_slot (B : Nat) (blockPage : HashTableBlockPage)
    (h : IsFull B blockPage = false) :
    ∃ i, i < B ∧ IsOccupied blockPage i = false ∧
      ∀ i1, i1 < i → IsOccupied blockPage i1 = true := by
  have hex : ∃ i, i < B ∧ IsOccupied blockPage i = false := by
    unfold IsFull at h
    rw [List.all_eq_false] at h
    obtain ⟨i, hi, hocc⟩ := h
    exact ⟨i, List.mem_range.mp hi, by simpa using hocc⟩
  refine ⟨Nat.find hex, (Nat.find_spec hex).1, (Nat.find_spec hex).2, ?_⟩
  intro i1 hi1
  have := Nat.find_min hex hi1
  have hlt : i1 < B := lt_trans hi1 (Nat.find_spec hex).1
  simp only [not_and, Bool.not_eq_false] at this
  exact this hlt

/-! ## The blocks examined by `GetValue` and `Remove` -/

theorem ring_step (n tgt x : Nat) :
    ((tgt + 1) % n + x) % n = (tgt + (x + 1)) % n := by
  rw [Nat.mod_add_mod]
  congr 1
  omega

theorem mod_ne_of_lt_window (n a b : Nat) (hab : a < b) (hb : b < a + n) :
    a % n ≠ b % n := by
  intro h
  have hmod : a ≡ b [MOD n] := h
  have hdvd : n ∣ b - a := (Nat.modEq_iff_dvd' (le_of_lt hab)).mp hmod
  have : b - a = 0 := Nat.eq_zero_of_dvd_of_lt hdvd (by omega)
  omega

theorem getBlockPageId_ne (headerPage : HashTableHeaderPage)
    (hnd : headerPage.block_page_ids.Nodup) (a b : Nat) (ha : a < NumBlocks headerPage)
    (hb : b < NumBlocks headerPage) (hab : a ≠ b) :
    GetBlockPageId headerPage a ≠ GetBlockPageId headerPage b := by
  unfold GetBlockPageId
  unfold NumBlocks at ha hb
  rw [List.getD_eq_getElem _ _ ha, List.getD_eq_getElem _ _ hb]
  intro h
  exact hab ((List.Nodup.getElem_inj_iff hnd).mp h)

/-- C12: with block capacity 4 and a table of one block (header page 0, block
page 1) filled by four Inserts, and no page pinned: an `Insert(4, 400)` into
the three-pair table returns with no page pinned, but the `Insert(5, 500)` that
resizes the full table returns with one pin left on the header page and one on
the old block page 1; and on a table of capacity 8, `Resize(4)`, which finds
the capacity already grown, returns with one pin left on the header page. -/
theorem Insert_and_Resize_leave_pages_pinned :
    ((runOps hashId 4 1 [Op.insert 1 100, Op.insert 2 200, Op.insert 3 300]
        (construct 4 emptyPool 4)).bind fun t =>
      (InsertPins hashId 4 2 4 400 t noPins).bind fun r =>
        .ok (r.1, [0, 1].map r.2.2)) = .ok (true, [0, 0]) ∧
    ((runOps hashId 4 1 [Op.insert 1 100, Op.insert 2 200, Op.insert 3 300, Op.insert 4 400]
        (construct 4 emptyPool 4)).bind fun t =>
      (InsertPins hashId 4 2 5 500 t noPins).bind fun r =>
        .ok (r.1, r.2.1.headerPage.block_page_ids, [0, 1, 2, 3].map r.2.2)) =
      .ok (true, [2, 3], [1, 1, 0, 0]) ∧
    ((ResizePins hashId 4 1 4 (construct 4 emptyPool 8) noPins).bind fun r =>
      .ok (r.1.headerPage.page_id, r.1.headerPage.size, [0, 1, 2].map r.2)) =
      .ok (0, 8, [1, 0, 0]) := by
  decide!

theorem occupiedIn_succ (B : Nat) (blockPage : HashTableBlockPage) :
    occupiedIn (B + 1) blockPage =
      occupiedIn B blockPage + (if IsOccupied blockPage B = true then 1 else 0) := by
  unfold occupiedIn
  rw [List.range_succ, List.countP_append]
  simp [List.countP_cons]

theorem occupiedIn_le (B : Nat) (blockPage : HashTableBlockPage) :
    occupiedIn B blockPage ≤ B := by
  unfold occupiedIn
  have := List.countP_le_length (fun i => IsOccupied blockPage i) (l := List.range B)
  simpa using this

theorem occupiedIn_full (B : Nat) (blockPage : HashTableBlockPage)
    (h : IsFull B blockPage = true) : occupiedIn B blockPage = B := by
  unfold occupiedIn
  have : List.countP (fun i => IsOccupied blockPage i) (List.range B) =
      (List.range B).length := by
    rw [List.countP_eq_length]
    intro i hi
    exact (isFull_iff B blockPage).mp h i (List.mem_range.mp hi)
  simpa using this

theorem occupiedIn_blockInsert (B : Nat) (blockPage : HashTableBlockPage) (i : Nat)
    (key value : Int) :
    occupiedIn B (BlockInsert blockPage i key value) ≤
      occupiedIn B blockPage + (if i < B then 1 else 0) := by
  induction B with
  | zero => simp [occupiedIn]
  | succ n ih =>
    rw [occupiedIn_succ, occupiedIn_succ]
    by_cases hin : i = n
    · subst hin
      simp only [lt_irrefl, if_false, Nat.add_zero] at ih
      simp only [Nat.lt_succ_self, if_true]
      split_ifs <;> omega
    · have hocc : IsOccupied (BlockInsert blockPage i key value) n = IsOccupied blockPage n := by
        simp only [IsOccupied, BlockInsert]
        rw [Function.update_noteq (Ne.symm hin)]
      rw [hocc]
      split_ifs at ih ⊢ <;> omega

theorem Insert_forSlots_page (key value : Int) (slots : List Nat)
    (blockPage : HashTableBlockPage) :
    (Insert.forSlots key value slots blockPage).1 = blockPage ∨
      ∃ i, (Insert.forSlots key value slots blockPage).1 = BlockInsert blockPage i key value := by
  induction slots with
  | nil => exact Or.inl rfl
  | cons i rest ih =>
    unfold Insert.forSlots
    split_ifs with hi
    · exact Or.inr ⟨i, rfl⟩
    · exact ih

theorem occupiedIn_forSlots (B : Nat) (key value : Int) (slots : List Nat)
    (blockPage : HashTableBlockPage) :
    occupiedIn B (Insert.forSlots key value slots blockPage).1 ≤ occupiedIn B blockPage + 1 := by
  rcases Insert_forSlots_page key value slots blockPage with h | ⟨i, h⟩
  · rw [h]
    omega
  · rw [h]
    have := occupiedIn_blockInsert B blockPage i key value
    split_ifs at this <;> omega

theorem sum_map_update_le (g g1 : Nat → Nat) (page_id : Nat) (ids : List Nat)
    (hnd : ids.Nodup) (hother : ∀ x, x ≠ page_id → g1 x = g x)
    (hone : g1 page_id ≤ g page_id + 1) :
    (ids.map g1).sum ≤ (ids.map g).sum + 1 := by
  induction ids with
  | nil => simp
  | cons a rest ih =>
    rw [List.nodup_cons] at hnd
    simp only [List.map_cons, List.sum_cons]
    by_cases ha : a = page_id
    · subst ha
      have hsame : rest.map g1 = rest.map g := by
        apply List.map_congr_left
        intro x hx
        apply hother
        intro hxa
        exact hnd.1 (hxa ▸ hx)
      rw [hsame]
      omega
    · rw [hother a ha]
      have := ih hnd.2
      omega

theorem occupiedSlots_all_full (B : Nat) (t : LinearProbeHashTable)
    (h : ∀ page_id ∈ t.headerPage.block_page_ids,
      IsFull B (FetchPage t.buffer_pool_manager_ page_id) = true) :
    occupiedSlots B t = NumBlocks t.headerPage * B := by
  unfold occupiedSlots NumBlocks
  generalize t.headerPage.block_page_ids = ids at h
  induction ids with
  | nil => simp
  | cons a rest ih =>
    simp only [List.map_cons, List.sum_cons, List.length_cons]
    rw [occupiedIn_full B _ (h a (List.mem_cons_self _ _)),
      ih (fun x hx => h x (List.mem_cons_of_mem _ hx))]
    ring

theorem exists_not_full (B : Nat) (t : LinearProbeHashTable)
    (h : occupiedSlots B t < NumBlocks t.headerPage * B) :
    ∃ page_id ∈ t.headerPage.block_page_ids,
      IsFull B (FetchPage t.buffer_pool_manager_ page_id) = false := by
  by_contra hno
  have hall : ∀ page_id ∈ t.headerPage.block_page_ids,
      IsFull B (FetchPage t.buffer_pool_manager_ page_id) = true := by
    intro page_id hmem
    by_contra hf
    exact hno ⟨page_id, hmem, by simpa using hf⟩
  have := occupiedSlots_all_full B t hall
  omega

theorem occupiedSlots_writePage (B : Nat) (key value : Int) (slots : List Nat)
    (t : LinearProbeHashTable) (page_id : Nat) (hnd : t.headerPage.block_page_ids.Nodup) :
    occupiedSlots B ⟨t.headerPage, writePage t.buffer_pool_manager_ page_id
      (Insert.forSlots key value slots (FetchPage t.buffer_pool_manager_ page_id)).1⟩ ≤
      occupiedSlots B t + 1 := by
  unfold occupiedSlots
  apply sum_map_update_le _ _ page_id _ hnd
  · intro x hx
    simp only [FetchPage, writePage]
    rw [Function.update_noteq hx]
  · simp only [FetchPage, writePage, Function.update_same]
    exact occupiedIn_forSlots B key value slots _

/-! ## An `Insert` that does not resize -/

theorem Insert_not_all_full (hash_fn_ : Int → Nat) (B fuel : Nat) (key value : Int)
    (t : LinearProbeHashTable) (hpos : 0 < NumBlocks t.headerPage)
    (hnd : t.headerPage.block_page_ids.Nodup)
    (hfree : ∃ page_id ∈ t.headerPage.block_page_ids,
      IsFull B (FetchPage t.buffer_pool_manager_ page_id) = false) :
    ∃ r, Insert hash_fn_ B (fuel + 1) key value t = .ok r ∧
      r.2.headerPage = t.headerPage ∧ occupiedSlots B r.2 ≤ occupiedSlots B t + 1 := by
  have hn : NumBlocks t.headerPage ≠ 0 := by omega
  unfold Insert
  simp only [hn, if_false]
  split_ifs with hresize hfound
  · exfalso
    simp only [Bool.and_eq_true, Bool.not_eq_true', decide_eq_true_eq] at hresize
    obtain ⟨page_id, hmem, hnf⟩ := hfree
    have := Insert_whileBlocks_all_full B key value t.headerPage t.buffer_pool_manager_
      (NumBlocks t.headerPage + 1) (hash_fn_ key % NumBlocks t.headerPage) _ _
      (Nat.mod_lt _ hpos) (Prod.ext hresize.1.symm.symm rfl) hresize.2 page_id hmem
    rw [hnf] at this
    exact Bool.false_ne_true this
  · exact ⟨_, rfl, rfl, occupiedSlots_writePage B key value _ t _ hnd⟩
  · exact ⟨_, rfl, rfl, Nat.le_succ _⟩

/-! ## The rehash never resizes -/

theorem occupiedSlots_deletePage (B : Nat) (t : LinearProbeHashTable) (page_id : Nat) :
    occupiedSlots B ⟨t.headerPage, DeletePage t.buffer_pool_manager_ page_id⟩ =
      occupiedSlots B t := rfl

theorem Resize_forPairs_count (hash_fn_ : Int → Nat) (B fuel : Nat)
    (H : HashTableHeaderPage) (hpos : 0 < NumBlocks H) (hnd : H.block_page_ids.Nodup)
    (block : HashTableBlockPage) (slots : List Nat) :
    ∀ (t : LinearProbeHashTable) (c : Nat), t.headerPage = H → occupiedSlots B t ≤ c →
      c + slots.length ≤ NumBlocks H * B →
      ∃ t1, Resize.forPairs (Insert hash_fn_ B (fuel + 1)) block slots t = .ok t1 ∧
        t1.headerPage = H ∧ occupiedSlots B t1 ≤ c + slots.length := by
  induction slots with
  | nil =>
    intro t c hH hc _
    exact ⟨t, rfl, hH, by simpa using hc⟩
  | cons i rest ih =>
    intro t c hH hc hroom
    simp only [List.length_cons] at hroom
    have hfree := exists_not_full B t (by rw [hH]; omega)
    obtain ⟨r, hr, hrH, hrc⟩ := Insert_not_all_full hash_fn_ B fuel (KeyAt block i)
      (ValueAt block i) t (by rw [hH]; exact hpos) (by rw [hH]; exact hnd) hfree
    obtain ⟨t1, ht1, ht1H, ht1c⟩ := ih r.2 (c + 1) (by rw [hrH, hH]) (by omega) (by omega)
    refine ⟨t1, ?_, ht1H, ?_⟩
    · unfold Resize.forPairs
      rw [hr]
      exact ht1
    · simp only [List.length_cons]
      omega

theorem Resize_forBlocks_count (hash_fn_ : Int → Nat) (B fuel : Nat)
    (H : HashTableHeaderPage) (hpos : 0 < NumBlocks H) (hnd : H.block_page_ids.Nodup)
    (blocks : List (HashTableBlockPage × Nat)) :
    ∀ (t : LinearProbeHashTable) (c : Nat), t.headerPage = H → occupiedSlots B t ≤ c →
      c + blocks.length * B ≤ NumBlocks H * B →
      ∃ t1, Resize.forBlocks B (Insert hash_fn_ B (fuel + 1)) blocks t = .ok t1 ∧
        t1.headerPage = H ∧ occupiedSlots B t1 ≤ c + blocks.length * B := by
  induction blocks with
  | nil =>
    intro t c hH hc _
    exact ⟨t, rfl, hH, by simpa using hc⟩
  | cons b rest ih =>
    obtain ⟨block, oldPageId⟩ := b
    intro t c hH hc hroom
    simp only [List.length_cons, Nat.succ_mul] at hroom
    obtain ⟨t2, ht2, ht2H, ht2c⟩ := Resize_forPairs_count hash_fn_ B fuel H hpos hnd block
      (List.range B) t c hH hc (by simp only [List.length_range]; omega)
    simp only [List.length_range] at ht2c
    obtain ⟨t1, ht1, ht1H, ht1c⟩ := ih
      ⟨t2.headerPage, DeletePage t2.buffer_pool_manager_ oldPageId⟩ (c + B) ht2H
      (by rw [occupiedSlots_deletePage]; exact ht2c) (by omega)
    refine ⟨t1, ?_, ht1H, ?_⟩
    · unfold Resize.forBlocks
      rw [ht2]
      exact ht1
    · simp only [List.length_cons, Nat.succ_mul]
      omega

theorem occupiedIn_zeroPage (B : Nat) : occupiedIn B zeroPage = 0 := by
  unfold occupiedIn
  rw [List.countP_eq_zero]
  intro i _
  simp [isOccupied_zeroPage]

theorem occupiedSlots_zero (B : Nat) (t : LinearProbeHashTable)
    (h : ∀ page_id ∈ t.headerPage.block_page_ids,
      t.buffer_pool_manager_.pages page_id = zeroPage) : occupiedSlots B t = 0 := by
  unfold occupiedSlots
  apply List.sum_eq_zero
  intro x hx
  obtain ⟨page_id, hmem, rfl⟩ := List.mem_map.mp hx
  simp only [FetchPage]
  rw [h page_id hmem]
  exact occupiedIn_zeroPage B

theorem ResizeWith_grows (hash_fn_ : Int → Nat) (B : Nat) (hB : 0 < B) (fuel : Nat)
    (t : LinearProbeHashTable) (hpos : 0 < NumBlocks t.headerPage)
    (hsz : NumBlocks t.headerPage * B ≤ t.headerPage.size) :
    ∃ t1, ResizeWith B (Insert hash_fn_ B (fuel + 1)) t.headerPage.size t = .ok t1 ∧
      t1.headerPage = ⟨t.headerPage.page_id, t.headerPage.size * 2,
        List.range' t.buffer_pool_manager_.next_page_id (t.headerPage.size * 2 / B)⟩ ∧
      occupiedSlots B t1 < t.headerPage.size * 2 / B * B := by
  have hB1 : B ≤ t.headerPage.size := by
    calc B = 1 * B := (Nat.one_mul B).symm
      _ ≤ NumBlocks t.headerPage * B := Nat.mul_le_mul_right B hpos
      _ ≤ t.headerPage.size := hsz
  have hnew : 2 * NumBlocks t.headerPage ≤ t.headerPage.size * 2 / B := by
    rw [Nat.le_div_iff_mul_le hB]
    calc 2 * NumBlocks t.headerPage * B = 2 * (NumBlocks t.headerPage * B) := by ring
      _ ≤ 2 * t.headerPage.size := Nat.mul_le_mul_left 2 hsz
      _ = t.headerPage.size * 2 := by ring
  have hhdr : (allocBlocks (t.headerPage.size * 2 / B)
      (ResetNextIndex (SetSize t.headerPage (t.headerPage.size * 2)))
      t.buffer_pool_manager_).1 = ⟨t.headerPage.page_id, t.headerPage.size * 2,
        List.range' t.buffer_pool_manager_.next_page_id (t.headerPage.size * 2 / B)⟩ := by
    rw [allocBlocks_header]
    simp [ResetNextIndex, SetSize]
  have hnum : NumBlocks (⟨t.headerPage.page_id, t.headerPage.size * 2,
      List.range' t.buffer_pool_manager_.next_page_id (t.headerPage.size * 2 / B)⟩ :
        HashTableHeaderPage) = t.headerPage.size * 2 / B := by
    simp [NumBlocks]
  have hlen : ((t.headerPage.block_page_ids.map (FetchPage t.buffer_pool_manager_)).zip
      t.headerPage.block_page_ids).length = NumBlocks t.headerPage := by
    simp [NumBlocks]
  obtain ⟨t1, ht1, ht1H, ht1c⟩ := Resize_forBlocks_count hash_fn_ B fuel
    ⟨t.headerPage.page_id, t.headerPage.size * 2,
      List.range' t.buffer_pool_manager_.next_page_id (t.headerPage.size * 2 / B)⟩
    (by rw [hnum]; omega) (List.nodup_range' _ _)
    ((t.headerPage.block_page_ids.map (FetchPage t.buffer_pool_manager_)).zip
      t.headerPage.block_page_ids)
    ⟨(allocBlocks (t.headerPage.size * 2 / B)
        (ResetNextIndex (SetSize t.headerPage (t.headerPage.size * 2)))
        t.buffer_pool_manager_).1,
      (allocBlocks (t.headerPage.size * 2 / B)
        (ResetNextIndex (SetSize t.headerPage (t.headerPage.size * 2)))
        t.buffer_pool_manager_).2⟩ 0 hhdr
    (by
      rw [occupiedSlots_zero B _ (allocBlocks_zeroPage _ _ _ (by simp [ResetNextIndex]))])
    (by
      rw [hlen, hnum, Nat.zero_add]
      exact Nat.mul_le_mul_right B (by omega))
  refine ⟨t1, ?_, ht1H, ?_⟩
  · unfold ResizeWith
    have hnot : ¬ t.headerPage.size ≥ t.headerPage.size * 2 := by omega
    simp only [hnot, if_false]
    exact ht1
  · rw [hlen, Nat.zero_add] at ht1c
    calc occupiedSlots B t1 ≤ NumBlocks t.headerPage * B := ht1c
      _ < t.headerPage.size * 2 / B * B := Nat.mul_lt_mul_of_pos_right (by omega) hB

/-! ## When `Insert` resizes -/

theorem Insert_whileBlocks_wrap (B : Nat) (key value : Int) (headerPage : HashTableHeaderPage)
    (bpm : BufferPoolManager)
    (hall : ∀ page_id ∈ headerPage.block_page_ids,
      IsFull B (FetchPage bpm page_id) = true ∧
      isKeyValueExist B (FetchPage bpm page_id) key value = false) (j : Nat) :
    ∀ steps visitedBlocks targetBlockIndex, j < steps →
      targetBlockIndex < NumBlocks headerPage →
      visitedBlocks + j = NumBlocks headerPage + 1 →
      Insert.whileBlocks B key value headerPage bpm steps visitedBlocks targetBlockIndex =
        (false, NumBlocks headerPage + 1, (targetBlockIndex + j) % NumBlocks headerPage) := by
  induction j with
  | zero =>
    intro steps visitedBlocks targetBlockIndex hsteps htgt hvis
    obtain ⟨s, rfl⟩ : ∃ s, steps = s + 1 := ⟨steps - 1, by omega⟩
    have hnot : ¬ visitedBlocks ≤ NumBlocks headerPage := by omega
    unfold Insert.whileBlocks
    simp only [hnot, decide_False, Bool.and_false, Bool.false_eq_true, if_false, Nat.add_zero,
      Nat.mod_eq_of_lt htgt]
    have hv : visitedBlocks = NumBlocks headerPage + 1 := by omega
    rw [hv]
  | succ j ih =>
    intro steps visitedBlocks targetBlockIndex hsteps htgt hvis
    obtain ⟨s, rfl⟩ : ∃ s, steps = s + 1 := ⟨steps - 1, by omega⟩
    have hpos : 0 < NumBlocks headerPage := by omega
    have h0 := hall _ (getBlockPageId_mem headerPage targetBlockIndex htgt)
    have hle : visitedBlocks ≤ NumBlocks headerPage := by omega
    unfold Insert.whileBlocks
    simp only [h0.1, h0.2, hle, decide_True, Bool.and_self, if_true, Bool.false_eq_true,
      if_false]
    rw [ih s (visitedBlocks + 1) ((targetBlockIndex + 1) % NumBlocks headerPage) (by omega)
      (Nat.mod_lt _ hpos) (by omega), ring_step]

theorem Insert_whileBlocks_noexist (B : Nat) (key value : Int)
    (headerPage : HashTableHeaderPage) (bpm : BufferPoolManager)
    (steps visitedBlocks targetBlockIndex : Nat) (visited tgt : Nat)
    (htgt : targetBlockIndex < NumBlocks headerPage)
    (h : Insert.whileBlocks B key value headerPage bpm steps visitedBlocks targetBlockIndex =
      (false, visited, tgt))
    (hv : NumBlocks headerPage < visited) :
    ∀ j, visitedBlocks + j ≤ NumBlocks headerPage →
      isKeyValueExist B (FetchPage bpm (GetBlockPageId headerPage
        ((targetBlockIndex + j) % NumBlocks headerPage))) key value = false := by
  induction steps generalizing visitedBlocks targetBlockIndex with
  | zero =>
    intro j hj
    simp only [Insert.whileBlocks, Prod.mk.injEq] at h
    omega
  | succ n ih =>
    intro j hj
    unfold Insert.whileBlocks at h
    simp only at h
    split_ifs at h with hc hex
    · simp at h
    · simp only [Bool.and_eq_true, decide_eq_true_eq] at hc
      have hpos : 0 < NumBlocks headerPage := by omega
      cases j with
      | zero =>
        simpa [Nat.mod_eq_of_lt htgt] using hex
      | succ j1 =>
        have := ih (visitedBlocks + 1) ((targetBlockIndex + 1) % NumBlocks headerPage)
          (Nat.mod_lt _ hpos) h j1 (by omega)
        rw [ring_step] at this
        exact this
    · simp only [Prod.mk.injEq] at h
      omega

theorem Insert_whileBlocks_exhausted (B : Nat) (key value : Int)
    (t : LinearProbeHashTable) (steps home : Nat)
    (visited tgt : Nat) (hhome : home < NumBlocks t.headerPage)
    (h : Insert.whileBlocks B key value t.headerPage t.buffer_pool_manager_ steps 1 home =
      (false, visited, tgt))
    (hv : NumBlocks t.headerPage < visited) : RingExhausted B key value t := by
  intro page_id hmem
  refine ⟨Insert_whileBlocks_all_full B key value t.headerPage t.buffer_pool_manager_ steps
    home visited tgt hhome h hv page_id hmem, ?_⟩
  obtain ⟨m, hm, hget⟩ := List.getElem_of_mem hmem
  obtain ⟨j, hj, hjm⟩ := ring_cover (NumBlocks t.headerPage) home m hhome hm
  have := Insert_whileBlocks_noexist B key value t.headerPage t.buffer_pool_manager_ steps 1
    home visited tgt hhome h hv j hj
  rw [hjm] at this
  have e : GetBlockPageId t.headerPage m = page_id := by
    unfold GetBlockPageId
    rw [List.getD_eq_getElem _ _ hm]
    exact hget
  rw [e] at this
  exact this

theorem Insert_not_exhausted (hash_fn_ : Int → Nat) (B fuel : Nat) (key value : Int)
    (t : LinearProbeHashTable) (hpos : 0 < NumBlocks t.headerPage)
    (hnot : ¬ RingExhausted B key value t) :
    ∃ r, Insert hash_fn_ B (fuel + 1) key value t = .ok r ∧
      r.2.headerPage = t.headerPage ∧
      r.2.buffer_pool_manager_.next_page_id = t.buffer_pool_manager_.next_page_id := by
  have hn : NumBlocks t.headerPage ≠ 0 := by omega
  unfold Insert
  simp only [hn, if_false]
  split_ifs with hresize hfound
  · exfalso
    simp only [Bool.and_eq_true, Bool.not_eq_true', decide_eq_true_eq] at hresize
    exact hnot (Insert_whileBlocks_exhausted B key value t (NumBlocks t.headerPage + 1)
      (hash_fn_ key % NumBlocks t.headerPage) _ _ (Nat.mod_lt _ hpos)
      (Prod.ext hresize.1.symm.symm rfl) hresize.2)
  · exact ⟨_, rfl, rfl, rfl⟩
  · exact ⟨_, rfl, rfl, rfl⟩

theorem Insert_exhausted (hash_fn_ : Int → Nat) (B : Nat) (hB : 0 < B) (fuel : Nat)
    (key value : Int) (t : LinearProbeHashTable) (hpos : 0 < NumBlocks t.headerPage)
    (hsz : NumBlocks t.headerPage * B ≤ t.headerPage.size)
    (hex : RingExhausted B key value t) :
    ∃ r, Insert hash_fn_ B (fuel + 2) key value t = .ok r ∧
      r.2.headerPage = ⟨t.headerPage.page_id, t.headerPage.size * 2,
        List.range' t.buffer_pool_manager_.next_page_id (t.headerPage.size * 2 / B)⟩ := by
  have hn : NumBlocks t.headerPage ≠ 0 := by omega
  have hw := Insert_whileBlocks_wrap B key value t.headerPage t.buffer_pool_manager_ hex
    (NumBlocks t.headerPage) (NumBlocks t.headerPage + 1) 1
    (hash_fn_ key % NumBlocks t.headerPage) (by omega) (Nat.mod_lt _ hpos) (by omega)
  obtain ⟨t1, ht1, ht1H, ht1c⟩ := ResizeWith_grows hash_fn_ B hB fuel t hpos hsz
  have hnum : NumBlocks t1.headerPage = t.headerPage.size * 2 / B := by
    rw [ht1H]
    simp [NumBlocks]
  have hpos1 : 0 < NumBlocks t1.headerPage := by
    rw [hnum]
    by_contra h0
    have : t.headerPage.size * 2 / B = 0 := by omega
    rw [this] at ht1c
    omega
  obtain ⟨r, hr, hrH, _⟩ := Insert_not_all_full hash_fn_ B fuel key value t1 hpos1
    (by rw [ht1H]; exact List.nodup_range' _ _)
    (exists_not_full B t1 (by rw [hnum]; exact ht1c))
  refine ⟨r, ?_, by rw [hrH, ht1H]⟩
  rw [Insert]
  simp only [hn, if_false, hw, Bool.not_false, Bool.true_and, gt_iff_lt, Nat.lt_succ_self,
    decide_True, if_true, ht1]
  exact hr

theorem Insert_one_does_not_resize (hash_fn_ : Int → Nat) (B : Nat) (key value : Int)
    (t : LinearProbeHashTable) (r : Bool × LinearProbeHashTable)
    (h : Insert hash_fn_ B 1 key value t = .ok r) :
    r.2.headerPage = t.headerPage ∧
      r.2.buffer_pool_manager_.next_page_id = t.buffer_pool_manager_.next_page_id ∧
      r.2.buffer_pool_manager_.deleted = t.buffer_pool_manager_.deleted := by
  unfold Insert at h
  simp only at h
  split_ifs at h with hn hresize hfound
  · split at h
    · simp at h
    · simp [Insert] at h
  · simp only [Except.ok.injEq] at h
    subst h
    exact ⟨rfl, rfl, rfl⟩
  · simp only [Except.ok.injEq] at h
    subst h
    exact ⟨rfl, rfl, rfl⟩

/-! ## Runs never run out of fuel -/

theorem sized_resized (B : Nat) (hB : 0 < B) (headerPage : HashTableHeaderPage)
    (bpm : BufferPoolManager)
    (h : 0 < NumBlocks headerPage ∧ NumBlocks headerPage * B ≤ headerPage.size) :
    0 < NumBlocks (allocBlocks (headerPage.size * 2 / B)
        (ResetNextIndex (SetSize headerPage (headerPage.size * 2))) bpm).1 ∧
      NumBlocks (allocBlocks (headerPage.size * 2 / B)
        (ResetNextIndex (SetSize headerPage (headerPage.size * 2))) bpm).1 * B ≤
      (allocBlocks (headerPage.size * 2 / B)
        (ResetNextIndex (SetSize headerPage (headerPage.size * 2))) bpm).1.size := by
  have hB1 : B ≤ headerPage.size := by
    calc B = 1 * B := (Nat.one_mul B).symm
      _ ≤ NumBlocks headerPage * B := Nat.mul_le_mul_right B h.1
      _ ≤ headerPage.size := h.2
  simp only [allocBlocks_header, NumBlocks, ResetNextIndex, SetSize, List.nil_append,
    List.length_range']
  exact ⟨Nat.div_pos (by omega) hB, Nat.div_mul_le_self _ _⟩

theorem construct_sized (B : Nat) (hB : 0 < B) (bpm : BufferPoolManager) (num_buckets : Nat)
    (hn : B ≤ num_buckets) :
    0 < NumBlocks (construct B bpm num_buckets).headerPage ∧
      NumBlocks (construct B bpm num_buckets).headerPage * B ≤
        (construct B bpm num_buckets).headerPage.size := by
  rw [construct_numBlocks, construct_size]
  exact ⟨Nat.div_pos hn hB, Nat.div_mul_le_self _ _⟩

theorem runOps_sized (hash_fn_ : Int → Nat) (B : Nat) (hB : 0 < B) (fuel : Nat)
    (ops : List Op) (t t1 : LinearProbeHashTable)
    (hs : 0 < NumBlocks t.headerPage ∧ NumBlocks t.headerPage * B ≤ t.headerPage.size)
    (h : runOps hash_fn_ B fuel ops t = .ok t1) :
    0 < NumBlocks t1.headerPage ∧ NumBlocks t1.headerPage * B ≤ t1.headerPage.size := by
  induction ops generalizing t with
  | nil =>
    simp only [runOps, Except.ok.injEq] at h
    exact h ▸ hs
  | cons op rest ih =>
    cases op with
    | insert key value =>
      unfold runOps at h
      split at h
      · simp at h
      · next r hr =>
        exact ih r.2 (Insert_header hash_fn_ B
          (fun hdr => 0 < NumBlocks hdr ∧ NumBlocks hdr * B ≤ hdr.size)
          (fun hdr bpm hq => sized_resized B hB hdr bpm hq) fuel key value t r hs hr) h
    | remove key value =>
      unfold runOps at h
      split at h
      · simp at h
      · next r hr =>
        exact ih r.2 (by rw [Remove_header hash_fn_ B key value t r hr]; exact hs) h

theorem Insert_two_ok (hash_fn_ : Int → Nat) (B : Nat) (hB : 0 < B) (fuel : Nat)
    (key value : Int) (t : LinearProbeHashTable)
    (hs : 0 < NumBlocks t.headerPage ∧ NumBlocks t.headerPage * B ≤ t.headerPage.size) :
    ∃ r, Insert hash_fn_ B (fuel + 2) key value t = .ok r := by
  by_cases hex : RingExhausted B key value t
  · obtain ⟨r, hr, _⟩ := Insert_exhausted hash_fn_ B hB fuel key value t hs.1 hs.2 hex
    exact ⟨r, hr⟩
  · obtain ⟨r, hr, _⟩ := Insert_not_exhausted hash_fn_ B (fuel + 1) key value t hs.1 hex
    exact ⟨r, hr⟩

theorem runOps_two_ok (hash_fn_ : Int → Nat) (B : Nat) (hB : 0 < B) (fuel : Nat)
    (ops : List Op) (t : LinearProbeHashTable)
    (hs : 0 < NumBlocks t.headerPage ∧ NumBlocks t.headerPage * B ≤ t.headerPage.size) :
    ∃ t1, runOps hash_fn_ B (fuel + 2) ops t = .ok t1 := by
  induction ops generalizing t with
  | nil => exact ⟨t, rfl⟩
  | cons op rest ih =>
    cases op with
    | insert key value =>
      obtain ⟨r, hr⟩ := Insert_two_ok hash_fn_ B hB fuel key value t hs
      obtain ⟨t1, ht1⟩ := ih r.2 (Insert_header hash_fn_ B
        (fun hdr => 0 < NumBlocks hdr ∧ NumBlocks hdr * B ≤ hdr.size)
        (fun hdr bpm hq => sized_resized B hB hdr bpm hq) (fuel + 2) key value t r hs hr)
      refine ⟨t1, ?_⟩
      unfold runOps
      rw [hr]
      exact ht1
    | remove key value =>
      obtain ⟨r, hr⟩ := Remove_ok hash_fn_ B key value t hs.1
      obtain ⟨t1, ht1⟩ := ih r.2 (by rw [Remove_header hash_fn_ B key value t r hr]; exact hs)
      refine ⟨t1, ?_⟩
      unfold runOps
      rw [hr]
      exact ht1


/-! ## Pages and ring indices -/

theorem exist_iff (B : Nat) (blockPage : HashTableBlockPage) (key value : Int) :
    isKeyValueExist B blockPage key value = true ↔
      ∃ i, i < B ∧ IsValid blockPage i = true ∧ KeyAt blockPage i = key ∧
        ValueAt blockPage i = value := by
  unfold isKeyValueExist
  rw [List.any_eq_true]
  constructor
  · rintro ⟨i, hi, h⟩
    simp only [Bool.and_eq_true, beq_iff_eq, comparator_eq_zero] at h
    exact ⟨i, List.mem_range.mp hi, h.1.1, h.1.2, h.2⟩
  · rintro ⟨i, hi, h1, h2, h3⟩
    refine ⟨i, List.mem_range.mpr hi, ?_⟩
    simp only [Bool.and_eq_true, beq_iff_eq, comparator_eq_zero]
    exact ⟨⟨h1, h2⟩, h3⟩

theorem exist_false_iff (B : Nat) (blockPage : HashTableBlockPage) (key value : Int) :
    isKeyValueExist B blockPage key value = false ↔
      ∀ i, i < B → ¬ (IsValid blockPage i = true ∧ KeyAt blockPage i = key ∧
        ValueAt blockPage i = value) := by
  rw [← Bool.not_eq_true, exist_iff]
  constructor
  · intro h i hi hm
    exact h ⟨i, hi, hm⟩
  · rintro h ⟨i, hi, hm⟩
    exact h i hi hm

theorem isFull_blockInsert (B : Nat) (blockPage : HashTableBlockPage) (i : Nat)
    (key value : Int) (h : IsFull B blockPage = true) :
    IsFull B (BlockInsert blockPage i key value) = true := by
  rw [isFull_iff] at h ⊢
  intro j hj
  by_cases hji : j = i
  · subst hji
    simp [IsOccupied, BlockInsert]
  · simp only [IsOccupied, BlockInsert, Function.update_noteq hji]
    exact h j hj

theorem exist_blockInsert_other (B : Nat) (blockPage : HashTableBlockPage) (i : Nat)
    (key0 value0 key value : Int) (hne : ¬ (key = key0 ∧ value = value0))
    (h : isKeyValueExist B (BlockInsert blockPage i key0 value0) key value = true) :
    isKeyValueExist B blockPage key value = true := by
  rw [exist_iff] at h ⊢
  obtain ⟨j, hj, h1, h2, h3⟩ := h
  by_cases hji : j = i
  · subst hji
    simp only [KeyAt, ValueAt, BlockInsert, Function.update_same] at h2 h3
    exact absurd ⟨h2.symm, h3.symm⟩ hne
  · simp only [IsValid, KeyAt, ValueAt, BlockInsert, Function.update_noteq hji] at h1 h2 h3
    exact ⟨j, hj, h1, h2, h3⟩

theorem clearedFrom_refl (blockPage : HashTableBlockPage) : ClearedFrom blockPage blockPage :=
  fun _ => ⟨rfl, rfl, rfl, fun h => h⟩

theorem clearedFrom_trans (a b c : HashTableBlockPage) (hab : ClearedFrom a b)
    (hbc : ClearedFrom b c) : ClearedFrom a c := by
  intro i
  obtain ⟨h1, h2, h3, h4⟩ := hab i
  obtain ⟨g1, g2, g3, g4⟩ := hbc i
  exact ⟨g1.trans h1, g2.trans h2, g3.trans h3, fun h => h4 (g4 h)⟩

theorem clearedFrom_blockRemove (blockPage : HashTableBlockPage) (i : Nat) :
    ClearedFrom blockPage (BlockRemove blockPage i) := by
  intro j
  by_cases hji : j = i
  · subst hji
    simp [BlockRemove]
  · simp [BlockRemove, Function.update_noteq hji]

theorem isFull_clearedFrom (B : Nat) (a b : HashTableBlockPage) (h : ClearedFrom a b) :
    IsFull B b = IsFull B a := by
  apply Bool.eq_iff_iff.mpr
  rw [isFull_iff, isFull_iff]
  constructor
  · intro h1 i hi
    have := h1 i hi
    simp only [IsOccupied] at this ⊢
    rw [← (h i).2.2.1]
    exact this
  · intro h1 i hi
    have := h1 i hi
    simp only [IsOccupied] at this ⊢
    rw [(h i).2.2.1]
    exact this

theorem exist_clearedFrom (B : Nat) (a b : HashTableBlockPage) (key value : Int)
    (h : ClearedFrom a b) (hex : isKeyValueExist B b key value = true) :
    isKeyValueExist B a key value = true := by
  rw [exist_iff] at hex ⊢
  obtain ⟨i, hi, h1, h2, h3⟩ := hex
  obtain ⟨g1, g2, _, g4⟩ := h i
  simp only [IsValid, KeyAt, ValueAt] at h1 h2 h3 ⊢
  exact ⟨i, hi, g4 h1, by rw [← g1]; exact h2, by rw [← g2]; exact h3⟩

theorem ring_offset_inj (n h x y : Nat) (hx : x < n) (hy : y < n)
    (heq : (h + x) % n = (h + y) % n) : x = y := by
  by_contra hne
  rcases Nat.lt_or_gt_of_ne hne with hlt | hgt
  · exact mod_ne_of_lt_window n (h + x) (h + y) (by omega) (by omega) heq
  · exact mod_ne_of_lt_window n (h + y) (h + x) (by omega) (by omega) heq.symm

theorem ring_pageId_inj (headerPage : HashTableHeaderPage)
    (hnd : headerPage.block_page_ids.Nodup) (h x y : Nat) (hx : x < NumBlocks headerPage)
    (hy : y < NumBlocks headerPage)
    (heq : GetBlockPageId headerPage ((h + x) % NumBlocks headerPage) =
      GetBlockPageId headerPage ((h + y) % NumBlocks headerPage)) : x = y := by
  have hpos : 0 < NumBlocks headerPage := by omega
  by_contra hne
  exact getBlockPageId_ne headerPage hnd _ _ (Nat.mod_lt _ hpos) (Nat.mod_lt _ hpos)
    (fun he => hne (ring_offset_inj _ h x y hx hy he)) heq

theorem Insert_whileBlocks_spec (B : Nat) (key value : Int) (headerPage : HashTableHeaderPage)
    (bpm : BufferPoolManager) (steps : Nat) :
    ∀ visitedBlocks targetBlockIndex, targetBlockIndex < NumBlocks headerPage →
      NumBlocks headerPage < visitedBlocks + steps →
      ∃ j, (Insert.whileBlocks B key value headerPage bpm steps visitedBlocks
            targetBlockIndex).2.1 = visitedBlocks + j ∧
        (Insert.whileBlocks B key value headerPage bpm steps visitedBlocks
            targetBlockIndex).2.2 = (targetBlockIndex + j) % NumBlocks headerPage ∧
        (∀ x, x < j →
          IsFull B (FetchPage bpm (GetBlockPageId headerPage
            ((targetBlockIndex + x) % NumBlocks headerPage))) = true ∧
          isKeyValueExist B (FetchPage bpm (GetBlockPageId headerPage
            ((targetBlockIndex + x) % NumBlocks headerPage))) key value = false) ∧
        ((Insert.whileBlocks B key value headerPage bpm steps visitedBlocks
            targetBlockIndex).1 = false →
          (Insert.whileBlocks B key value headerPage bpm steps visitedBlocks
            targetBlockIndex).2.1 ≤ NumBlocks headerPage →
          IsFull B (FetchPage bpm (GetBlockPageId headerPage
            ((targetBlockIndex + j) % NumBlocks headerPage))) = false) := by
  induction steps with
  | zero =>
    intro visitedBlocks targetBlockIndex htgt hsteps
    refine ⟨0, rfl, ?_, fun x hx => absurd hx (Nat.not_lt_zero x), ?_⟩
    · simp [Insert.whileBlocks, Nat.mod_eq_of_lt htgt]
    · intro _ hle
      simp only [Insert.whileBlocks] at hle
      omega
  | succ n ih =>
    intro visitedBlocks targetBlockIndex htgt hsteps
    have hpos : 0 < NumBlocks headerPage := by omega
    unfold Insert.whileBlocks
    simp only
    split_ifs with hc hex
    · refine ⟨0, rfl, by simp [Nat.mod_eq_of_lt htgt],
        fun x hx => absurd hx (Nat.not_lt_zero x), ?_⟩
      intro h
      simp at h
    · simp only [Bool.and_eq_true, decide_eq_true_eq] at hc
      obtain ⟨j, h1, h2, h3, h4⟩ := ih (visitedBlocks + 1)
        ((targetBlockIndex + 1) % NumBlocks headerPage) (Nat.mod_lt _ hpos) (by omega)
      refine ⟨j + 1, by rw [h1]; omega, by rw [h2, ring_step], ?_, ?_⟩
      · intro x hx
        cases x with
        | zero =>
          simp only [Nat.add_zero, Nat.mod_eq_of_lt htgt]
          exact ⟨hc.1, by simpa using hex⟩
        | succ x1 =>
          have := h3 x1 (by omega)
          rw [ring_step] at this
          exact this
      · intro hf hle
        have := h4 hf hle
        rw [ring_step] at this
        exact this
    · refine ⟨0, rfl, by simp [Nat.mod_eq_of_lt htgt],
        fun x hx => absurd hx (Nat.not_lt_zero x), ?_⟩
      intro _ hle
      simp only [Nat.add_zero, Nat.mod_eq_of_lt htgt]
      simp only [Bool.and_eq_true, decide_eq_true_eq, not_and] at hc
      by_contra hfull
      exact hc (by simpa using hfull) hle

/-! ## The probe invariant is kept -/

theorem ringPage_writePage (t : LinearProbeHashTable) (page_id : Nat)
    (blockPage : HashTableBlockPage) (index : Nat) :
    ringPage ⟨t.headerPage, writePage t.buffer_pool_manager_ page_id blockPage⟩ index =
      if GetBlockPageId t.headerPage (index % NumBlocks t.headerPage) = page_id then blockPage
      else ringPage t index := by
  simp only [ringPage, FetchPage, writePage, Function.update_apply]

theorem ringPage_of_pageId (t : LinearProbeHashTable) (index : Nat) (page_id : Nat)
    (h : GetBlockPageId t.headerPage (index % NumBlocks t.headerPage) = page_id) :
    ringPage t index = t.buffer_pool_manager_.pages page_id := by
  simp only [ringPage, FetchPage, h]

theorem exist_zeroPage (B : Nat) (key value : Int) :
    isKeyValueExist B zeroPage key value = false := by
  rw [exist_false_iff]
  intro i _ h
  simp [isValid_zeroPage] at h

theorem probeInv_insert_step (hash_fn_ : Int → Nat) (B : Nat) (t : LinearProbeHashTable)
    (key0 value0 : Int) (j i : Nat) (hJ : ProbeInv hash_fn_ B t)
    (hj : j < NumBlocks t.headerPage)
    (hwalk : ∀ x, x < j →
      IsFull B (ringPage t (hash_fn_ key0 % NumBlocks t.headerPage + x)) = true ∧
      isKeyValueExist B (ringPage t (hash_fn_ key0 % NumBlocks t.headerPage + x))
        key0 value0 = false)
    (hfree : IsFull B (ringPage t (hash_fn_ key0 % NumBlocks t.headerPage + j)) = false) :
    ProbeInv hash_fn_ B ⟨t.headerPage, writePage t.buffer_pool_manager_
      (GetBlockPageId t.headerPage
        ((hash_fn_ key0 % NumBlocks t.headerPage + j) % NumBlocks t.headerPage))
      (BlockInsert (ringPage t (hash_fn_ key0 % NumBlocks t.headerPage + j)) i
        key0 value0)⟩ := by
  obtain ⟨hpos, hsz, hnd, hW⟩ := hJ
  refine ⟨hpos, hsz, hnd, ?_⟩
  intro key value y hy hex x hx
  simp only [ringPage_writePage] at hex ⊢
  have hpage : ringPage t (hash_fn_ key0 % NumBlocks t.headerPage + j) =
      t.buffer_pool_manager_.pages (GetBlockPageId t.headerPage
        ((hash_fn_ key0 % NumBlocks t.headerPage + j) % NumBlocks t.headerPage)) :=
    ringPage_of_pageId t _ _ rfl
  by_cases hkv : key = key0 ∧ value = value0
  · obtain ⟨hk, hv⟩ := hkv
    subst hk hv
    by_cases hpid : GetBlockPageId t.headerPage
        ((hash_fn_ key % NumBlocks t.headerPage + y) % NumBlocks t.headerPage) =
        GetBlockPageId t.headerPage
          ((hash_fn_ key % NumBlocks t.headerPage + j) % NumBlocks t.headerPage)
    · have hyj : y = j := ring_pageId_inj t.headerPage hnd _ y j hy hj hpid
      subst hyj
      have hne : GetBlockPageId t.headerPage
          ((hash_fn_ key % NumBlocks t.headerPage + x) % NumBlocks t.headerPage) ≠
          GetBlockPageId t.headerPage
            ((hash_fn_ key % NumBlocks t.headerPage + y) % NumBlocks t.headerPage) := by
        intro he
        have := ring_pageId_inj t.headerPage hnd _ x y (by omega) hy he
        omega
      rw [if_neg hne]
      exact hwalk x hx
    · rw [if_neg hpid] at hex
      exfalso
      have hall := hW key value y hy hex
      rcases Nat.lt_trichotomy y j with hlt | heq | hgt
      · have := (hwalk y hlt).2
        rw [hex] at this
        exact Bool.noConfusion this
      · exact hpid (by rw [heq])
      · have := (hall j hgt).1
        rw [hfree] at this
        exact Bool.noConfusion this
  · have hex0 : isKeyValueExist B (ringPage t (hash_fn_ key % NumBlocks t.headerPage + y))
        key value = true := by
      split_ifs at hex with hpid
      · rw [ringPage_of_pageId t _ _ hpid, ← hpage]
        exact exist_blockInsert_other B _ i key0 value0 key value hkv hex
      · exact hex
    obtain ⟨hfull, hno⟩ := hW key value y hy hex0 x hx
    split_ifs with hpid
    · rw [ringPage_of_pageId t _ _ hpid, ← hpage] at hfull hno
      refine ⟨isFull_blockInsert B _ i key0 value0 hfull, ?_⟩
      by_contra hc
      rw [Bool.not_eq_false] at hc
      have := exist_blockInsert_other B _ i key0 value0 key value hkv hc
      rw [hno] at this
      exact Bool.noConfusion this
    · exact ⟨hfull, hno⟩

theorem probeInv_cleared (hash_fn_ : Int → Nat) (B : Nat) (t : LinearProbeHashTable)
    (bpm : BufferPoolManager) (hJ : ProbeInv hash_fn_ B t)
    (hc : ∀ page_id, ClearedFrom (t.buffer_pool_manager_.pages page_id) (bpm.pages page_id)) :
    ProbeInv hash_fn_ B ⟨t.headerPage, bpm⟩ := by
  obtain ⟨hpos, hsz, hnd, hW⟩ := hJ
  refine ⟨hpos, hsz, hnd, ?_⟩
  intro key value y hy hex x hx
  simp only [ringPage, FetchPage] at hex ⊢
  have hex0 := exist_clearedFrom B _ _ key value (hc _) hex
  obtain ⟨hfull, hno⟩ := hW key value y hy hex0 x hx
  simp only [ringPage, FetchPage] at hfull hno
  refine ⟨by rw [isFull_clearedFrom B _ _ (hc _)]; exact hfull, ?_⟩
  by_contra hcon
  rw [Bool.not_eq_false] at hcon
  have := exist_clearedFrom B _ _ key value (hc _) hcon
  rw [hno] at this
  exact Bool.noConfusion this

theorem probeInv_fresh (hash_fn_ : Int → Nat) (B : Nat) (hB : 0 < B)
    (headerPage : HashTableHeaderPage) (bpm : BufferPoolManager)
    (hs : 0 < NumBlocks headerPage ∧ NumBlocks headerPage * B ≤ headerPage.size) :
    ProbeInv hash_fn_ B
      ⟨(allocBlocks (headerPage.size * 2 / B)
          (ResetNextIndex (SetSize headerPage (headerPage.size * 2))) bpm).1,
        (allocBlocks (headerPage.size * 2 / B)
          (ResetNextIndex (SetSize headerPage (headerPage.size * 2))) bpm).2⟩ := by
  have hsz := sized_resized B hB headerPage bpm hs
  refine ⟨hsz.1, hsz.2, ?_, ?_⟩
  · simp only [allocBlocks_header, ResetNextIndex, SetSize, List.nil_append]
    exact List.nodup_range' _ _
  · intro key value y _ hex
    exfalso
    simp only [ringPage, FetchPage] at hex
    rw [allocBlocks_zeroPage _ _ _ (by simp [ResetNextIndex]) _
      (getBlockPageId_mem _ _ (Nat.mod_lt _ hsz.1)), exist_zeroPage] at hex
    exact Bool.noConfusion hex

theorem construct_probeInv (hash_fn_ : Int → Nat) (B : Nat) (hB : 0 < B)
    (bpm : BufferPoolManager) (num_buckets : Nat) (hn : B ≤ num_buckets) :
    ProbeInv hash_fn_ B (construct B bpm num_buckets) := by
  have hs := construct_sized B hB bpm num_buckets hn
  refine ⟨hs.1, hs.2, ?_, ?_⟩
  · simp only [construct, allocBlocks_header, List.nil_append]
    exact List.nodup_range' _ _
  · intro key value y _ hex
    exfalso
    simp only [ringPage, FetchPage] at hex
    rw [construct_zeroPage B bpm num_buckets _
      (getBlockPageId_mem _ _ (Nat.mod_lt _ hs.1)), exist_zeroPage] at hex
    exact Bool.noConfusion hex

theorem Insert_probeInv (hash_fn_ : Int → Nat) (B : Nat) (hB : 0 < B) (fuel : Nat)
    (key value : Int) (t : LinearProbeHashTable) (r : Bool × LinearProbeHashTable)
    (hJ : ProbeInv hash_fn_ B t) (h : Insert hash_fn_ B fuel key value t = .ok r) :
    ProbeInv hash_fn_ B r.2 := by
  induction fuel generalizing key value t r with
  | zero => simp [Insert] at h
  | succ n ih =>
    have hpos := hJ.1
    unfold Insert at h
    simp only at h
    split_ifs at h with hn hresize hfound
    · split at h
      · simp at h
      · next t1 ht1 =>
        have hJ1 : ProbeInv hash_fn_ B t1 := by
          unfold ResizeWith at ht1
          simp only at ht1
          split_ifs at ht1 with hsz
          · simp only [Except.ok.injEq] at ht1
            exact ht1 ▸ hJ
          · exact Resize_forBlocks_inv B (ProbeInv hash_fn_ B) (fun _ _ => True) _
              (fun k v t0 r0 _ hp hr => ih k v t0 r0 hp hr) (fun _ _ hp => hp) _
              (fun _ _ _ _ => trivial) _ t1
              (probeInv_fresh hash_fn_ B hB t.headerPage _ ⟨hJ.1, hJ.2.1⟩) ht1
        exact ih key value t1 r hJ1 h
    · simp only [Except.ok.injEq] at h
      subst h
      simp only
      obtain ⟨j, h1, h2, h3, h4⟩ := Insert_whileBlocks_spec B key value t.headerPage
        t.buffer_pool_manager_ (NumBlocks t.headerPage + 1) 1
        (hash_fn_ key % NumBlocks t.headerPage) (Nat.mod_lt _ hpos) (by omega)
      simp only [Bool.and_eq_true, Bool.not_eq_true', decide_eq_true_eq, not_and,
        not_lt] at hresize
      have hf : (Insert.whileBlocks B key value t.headerPage t.buffer_pool_manager_
          (NumBlocks t.headerPage + 1) 1 (hash_fn_ key % NumBlocks t.headerPage)).1 = false := by
        simpa using hfound
      have hle := hresize hf
      have hfree := h4 hf hle
      rw [h2]
      rcases Insert_forSlots_page key value (List.range B)
        (FetchPage t.buffer_pool_manager_ (GetBlockPageId t.headerPage
          ((hash_fn_ key % NumBlocks t.headerPage + j) % NumBlocks t.headerPage)))
        with hsame | ⟨i, hins⟩
      · rw [hsame]
        simp only [FetchPage, writePage_self]
        exact hJ
      · rw [hins]
        exact probeInv_insert_step hash_fn_ B t key value j i hJ (by omega) h3 hfree
    · simp only [Except.ok.injEq] at h
      subst h
      exact hJ

/-! ## What `Remove` changes -/

theorem Remove_forSlots_cleared (key value : Int) (slots : List Nat)
    (blockPage : HashTableBlockPage) (res foundEmptySlot : Bool) :
    ClearedFrom blockPage (Remove.forSlots key value slots blockPage res foundEmptySlot).1 := by
  induction slots generalizing foundEmptySlot with
  | nil => exact clearedFrom_refl blockPage
  | cons i rest ih =>
    unfold Remove.forSlots
    split_ifs with hm he
    · exact clearedFrom_blockRemove blockPage i
    · exact ih true
    · exact ih foundEmptySlot

theorem Remove_whileBlocks_cleared (B : Nat) (key value : Int)
    (headerPage : HashTableHeaderPage) (steps : Nat) :
    ∀ visitedBlocks targetBlockIndex foundEmptySlot res (bpm : BufferPoolManager) page_id,
      ClearedFrom (bpm.pages page_id)
        ((Remove.whileBlocks B key value headerPage steps visitedBlocks targetBlockIndex
          foundEmptySlot res bpm).2.pages page_id) := by
  induction steps with
  | zero =>
    intro _ _ _ _ bpm page_id
    exact clearedFrom_refl _
  | succ n ih =>
    intro visitedBlocks targetBlockIndex foundEmptySlot res bpm page_id
    unfold Remove.whileBlocks
    split_ifs with hc
    · refine clearedFrom_trans _ _ _ ?_ (ih _ _ _ _ _ page_id)
      simp only [writePage, FetchPage]
      by_cases hid : page_id = GetBlockPageId headerPage targetBlockIndex
      · rw [hid, Function.update_same]
        exact Remove_forSlots_cleared key value _ _ res foundEmptySlot
      · rw [Function.update_noteq hid]
        exact clearedFrom_refl _
    · exact clearedFrom_refl _

theorem Remove_frame (hash_fn_ : Int → Nat) (B : Nat) (key value : Int)
    (t : LinearProbeHashTable) (r : Bool × LinearProbeHashTable)
    (h : Remove hash_fn_ B key value t = .ok r) :
    r.2.headerPage = t.headerPage ∧
      (∀ page_id, ClearedFrom (t.buffer_pool_manager_.pages page_id)
        (r.2.buffer_pool_manager_.pages page_id)) := by
  unfold Remove at h
  split_ifs at h with hn
  simp only [Except.ok.injEq] at h
  subst h
  exact ⟨rfl, fun page_id => Remove_whileBlocks_cleared B key value _ _ _ _ _ _ _ page_id⟩

theorem Remove_probeInv (hash_fn_ : Int → Nat) (B : Nat) (key value : Int)
    (t : LinearProbeHashTable) (r : Bool × LinearProbeHashTable)
    (hJ : ProbeInv hash_fn_ B t) (h : Remove hash_fn_ B key value t = .ok r) :
    ProbeInv hash_fn_ B r.2 := by
  obtain ⟨hhdr, hc⟩ := Remove_frame hash_fn_ B key value t r h
  have := probeInv_cleared hash_fn_ B t r.2.buffer_pool_manager_ hJ hc
  rw [← hhdr] at this
  exact this

theorem runOps_probeInv (hash_fn_ : Int → Nat) (B : Nat) (hB : 0 < B) (fuel : Nat)
    (ops : List Op) (t t1 : LinearProbeHashTable) (hJ : ProbeInv hash_fn_ B t)
    (h : runOps hash_fn_ B fuel ops t = .ok t1) : ProbeInv hash_fn_ B t1 := by
  induction ops generalizing t with
  | nil =>
    simp only [runOps, Except.ok.injEq] at h
    exact h ▸ hJ
  | cons op rest ih =>
    cases op with
    | insert key value =>
      unfold runOps at h
      split at h
      · simp at h
      · next r hr => exact ih r.2 (Insert_probeInv hash_fn_ B hB fuel key value t r hJ hr) h
    | remove key value =>
      unfold runOps at h
      split at h
      · simp at h
      · next r hr => exact ih r.2 (Remove_probeInv hash_fn_ B key value t r hJ hr) h

theorem Remove_forSlots_full_nomatch (key value : Int) (slots : List Nat)
    (blockPage : HashTableBlockPage) (res foundEmptySlot : Bool)
    (h : ∀ i ∈ slots, IsOccupied blockPage i = true ∧
      ¬ (IsValid blockPage i = true ∧ KeyAt blockPage i = key ∧ ValueAt blockPage i = value)) :
    Remove.forSlots key value slots blockPage res foundEmptySlot =
      (blockPage, res, foundEmptySlot) := by
  induction slots with
  | nil => rfl
  | cons i rest ih =>
    have hi := h i (List.mem_cons_self _ _)
    unfold Remove.forSlots
    split_ifs with hm he
    · exfalso
      simp only [Bool.and_eq_true, beq_iff_eq, comparator_eq_zero] at hm
      exact hi.2 ⟨hm.1.1, hm.1.2, hm.2⟩
    · exfalso
      rw [hi.1] at he
      simp at he
    · exact ih (fun i1 h1 => h i1 (List.mem_cons_of_mem _ h1))

theorem Remove_forSlots_match (key value : Int) (slots : List Nat)
    (blockPage : HashTableBlockPage) (res foundEmptySlot : Bool)
    (h : ∃ i ∈ slots, IsValid blockPage i = true ∧ KeyAt blockPage i = key ∧
      ValueAt blockPage i = value) :
    ∃ i ∈ slots, (IsValid blockPage i = true ∧ KeyAt blockPage i = key ∧
        ValueAt blockPage i = value) ∧
      ∃ found, Remove.forSlots key value slots blockPage res foundEmptySlot =
        (BlockRemove blockPage i, true, found) := by
  induction slots generalizing foundEmptySlot with
  | nil =>
    obtain ⟨i, hi, _⟩ := h
    simp at hi
  | cons a rest ih =>
    unfold Remove.forSlots
    split_ifs with hm he
    · simp only [Bool.and_eq_true, beq_iff_eq, comparator_eq_zero] at hm
      exact ⟨a, List.mem_cons_self _ _, ⟨hm.1.1, hm.1.2, hm.2⟩, foundEmptySlot, rfl⟩
    · have hrest : ∃ i ∈ rest, IsValid blockPage i = true ∧ KeyAt blockPage i = key ∧
          ValueAt blockPage i = value := by
        obtain ⟨i, hi, hmatch⟩ := h
        rcases List.mem_cons.mp hi with hia | hir
        · exfalso
          subst hia
          simp only [Bool.and_eq_true, beq_iff_eq, comparator_eq_zero, not_and] at hm
          exact hm ⟨hmatch.1, hmatch.2.1⟩ hmatch.2.2
        · exact ⟨i, hir, hmatch⟩
      obtain ⟨i, hi, hmatch, found, hf⟩ := ih true hrest
      exact ⟨i, List.mem_cons_of_mem _ hi, hmatch, found, hf⟩
    · have hrest : ∃ i ∈ rest, IsValid blockPage i = true ∧ KeyAt blockPage i = key ∧
          ValueAt blockPage i = value := by
        obtain ⟨i, hi, hmatch⟩ := h
        rcases List.mem_cons.mp hi with hia | hir
        · exfalso
          subst hia
          simp only [Bool.and_eq_true, beq_iff_eq, comparator_eq_zero, not_and] at hm
          exact hm ⟨hmatch.1, hmatch.2.1⟩ hmatch.2.2
        · exact ⟨i, hir, hmatch⟩
      obtain ⟨i, hi, hmatch, found, hf⟩ := ih foundEmptySlot hrest
      exact ⟨i, List.mem_cons_of_mem _ hi, hmatch, found, hf⟩

theorem Remove_whileBlocks_window_noop (B : Nat) (key value : Int)
    (headerPage : HashTableHeaderPage) (bpm : BufferPoolManager) (steps : Nat) :
    ∀ visitedBlocks targetBlockIndex foundEmptySlot res,
      targetBlockIndex < NumBlocks headerPage →
      (∀ x, visitedBlocks + x < NumBlocks headerPage →
        isKeyValueExist B (bpm.pages (GetBlockPageId headerPage
          ((targetBlockIndex + x) % NumBlocks headerPage))) key value = false) →
      Remove.whileBlocks B key value headerPage steps visitedBlocks targetBlockIndex
        foundEmptySlot res bpm = (res, bpm) := by
  induction steps with
  | zero => intros; rfl
  | succ n ih =>
    intro visitedBlocks targetBlockIndex foundEmptySlot res htgt hno
    unfold Remove.whileBlocks
    split_ifs with hc
    · simp only [Bool.and_eq_true, Bool.not_eq_true', decide_eq_true_eq] at hc
      have h0 := hno 0 (by omega)
      simp only [Nat.add_zero, Nat.mod_eq_of_lt htgt] at h0
      rw [exist_false_iff] at h0
      have hnoop := Remove_forSlots_noop key value (List.range B)
        (FetchPage bpm (GetBlockPageId headerPage targetBlockIndex)) res foundEmptySlot
        (fun i hi => h0 i (List.mem_range.mp hi))
      simp only
      rw [hnoop.1, hnoop.2]
      simp only [FetchPage, writePage_self]
      apply ih _ _ _ _ (Nat.mod_lt _ (by omega))
      intro x hx
      rw [ring_step]
      exact hno (x + 1) (by omega)
    · rfl

theorem Remove_whileBlocks_hit (B : Nat) (key value : Int)
    (headerPage : HashTableHeaderPage) (hnd : headerPage.block_page_ids.Nodup)
    (bpm : BufferPoolManager) (y : Nat) :
    ∀ steps visitedBlocks targetBlockIndex res, y < steps →
      targetBlockIndex < NumBlocks headerPage → visitedBlocks + y < NumBlocks headerPage →
      (∀ x, x < y →
        IsFull B (bpm.pages (GetBlockPageId headerPage
          ((targetBlockIndex + x) % NumBlocks headerPage))) = true ∧
        isKeyValueExist B (bpm.pages (GetBlockPageId headerPage
          ((targetBlockIndex + x) % NumBlocks headerPage))) key value = false) →
      isKeyValueExist B (bpm.pages (GetBlockPageId headerPage
        ((targetBlockIndex + y) % NumBlocks headerPage))) key value = true →
      (∀ x, y < x → visitedBlocks + x < NumBlocks headerPage →
        isKeyValueExist B (bpm.pages (GetBlockPageId headerPage
          ((targetBlockIndex + x) % NumBlocks headerPage))) key value = false) →
      ∃ i, i < B ∧
        IsValid (bpm.pages (GetBlockPageId headerPage
          ((targetBlockIndex + y) % NumBlocks headerPage))) i = true ∧
        KeyAt (bpm.pages (GetBlockPageId headerPage
          ((targetBlockIndex + y) % NumBlocks headerPage))) i = key ∧
        ValueAt (bpm.pages (GetBlockPageId headerPage
          ((targetBlockIndex + y) % NumBlocks headerPage))) i = value ∧
        Remove.whileBlocks B key value headerPage steps visitedBlocks targetBlockIndex
          false res bpm =
          (true, writePage bpm (GetBlockPageId headerPage
              ((targetBlockIndex + y) % NumBlocks headerPage))
            (BlockRemove (bpm.pages (GetBlockPageId headerPage
              ((targetBlockIndex + y) % NumBlocks headerPage))) i)) := by
  induction y with
  | zero =>
    intro steps visitedBlocks targetBlockIndex res hsteps htgt hvis _ hex hlater
    obtain ⟨s, rfl⟩ : ∃ s, steps = s + 1 := ⟨steps - 1, by omega⟩
    have hpos : 0 < NumBlocks headerPage := by omega
    simp only [Nat.add_zero, Nat.mod_eq_of_lt htgt] at hex ⊢
    obtain ⟨i, hi, hmatch, found, hf⟩ := Remove_forSlots_match key value (List.range B)
      (bpm.pages (GetBlockPageId headerPage targetBlockIndex)) res false
      (by
        obtain ⟨i, hi, hm⟩ := (exist_iff B _ key value).mp hex
        exact ⟨i, List.mem_range.mpr hi, hm⟩)
    refine ⟨i, List.mem_range.mp hi, hmatch.1, hmatch.2.1, hmatch.2.2, ?_⟩
    unfold Remove.whileBlocks
    have hlt : visitedBlocks < NumBlocks headerPage := by omega
    simp only [Bool.not_false, Bool.true_and, hlt, decide_True, if_true, FetchPage, hf]
    apply Remove_whileBlocks_window_noop B key value headerPage _ s _ _ _ _
      (Nat.mod_lt _ hpos)
    intro x hx
    rw [ring_step]
    have hne : GetBlockPageId headerPage ((targetBlockIndex + (x + 1)) % NumBlocks headerPage) ≠
        GetBlockPageId headerPage targetBlockIndex := by
      intro he
      have h0 : GetBlockPageId headerPage targetBlockIndex =
          GetBlockPageId headerPage ((targetBlockIndex + 0) % NumBlocks headerPage) := by
        rw [Nat.add_zero, Nat.mod_eq_of_lt htgt]
      rw [h0] at he
      have := ring_pageId_inj headerPage hnd _ (x + 1) 0 (by omega) hpos he
      omega
    simp only [writePage, Function.update_noteq hne]
    exact hlater (x + 1) (by omega) (by omega)
  | succ y ih =>
    intro steps visitedBlocks targetBlockIndex res hsteps htgt hvis hbefore hex hlater
    obtain ⟨s, rfl⟩ : ∃ s, steps = s + 1 := ⟨steps - 1, by omega⟩
    have hpos : 0 < NumBlocks headerPage := by omega
    have h0 := hbefore 0 (by omega)
    simp only [Nat.add_zero, Nat.mod_eq_of_lt htgt] at h0
    have hsame := Remove_forSlots_full_nomatch key value (List.range B)
      (bpm.pages (GetBlockPageId headerPage targetBlockIndex)) res false
      (fun i hi => ⟨(isFull_iff B _).mp h0.1 i (List.mem_range.mp hi),
        (exist_false_iff B _ key value).mp h0.2 i (List.mem_range.mp hi)⟩)
    obtain ⟨i, hi, h1, h2, h3, h4⟩ := ih s (visitedBlocks + 1)
      ((targetBlockIndex + 1) % NumBlocks headerPage) res (by omega) (Nat.mod_lt _ hpos)
      (by omega)
      (fun x hx => by rw [ring_step]; exact hbefore (x + 1) (by omega))
      (by rw [ring_step]; exact hex)
      (fun x hx hv => by rw [ring_step]; exact hlater (x + 1) (by omega) (by omega))
    rw [ring_step] at h1 h2 h3 h4
    refine ⟨i, hi, h1, h2, h3, ?_⟩
    unfold Remove.whileBlocks
    have hlt : visitedBlocks < NumBlocks headerPage := by omega
    simp only [Bool.not_false, Bool.true_and, hlt, decide_True, if_true, FetchPage, hsame,
      writePage_self]
    exact h4

/-- C17: on a table reached from a constructor call with at least one block,
`Remove(key, value)` leaves the header as it is and changes no slot except
that valid bits may go from set to clear (key, value and occupied bit of every
slot stay). Either it returns false and the table is exactly as before, or it
returns true and the table is the one before with the valid bit of exactly one
slot cleared, a valid slot of a listed block that held a key comparing equal
to `key` and the value `value`. -/
theorem Remove_clears_one_valid_bit (hash_fn_ : Int → Nat) (B : Nat) (hB : 0 < B)
    (bpm : BufferPoolManager) (num_buckets : Nat) (hn : B ≤ num_buckets) (fuel : Nat)
    (ops : List Op) (t : LinearProbeHashTable)
    (hrun : runOps hash_fn_ B fuel ops (construct B bpm num_buckets) = .ok t)
    (key value : Int) :
    (∀ r, Remove hash_fn_ B key value t = .ok r →
      r.2.headerPage = t.headerPage ∧
      ∀ page_id, ClearedFrom (t.buffer_pool_manager_.pages page_id)
        (r.2.buffer_pool_manager_.pages page_id)) ∧
    (Remove hash_fn_ B key value t = .ok (false, t) ∨
      ∃ page_id i, page_id ∈ t.headerPage.block_page_ids ∧ i < B ∧
        IsValid (FetchPage t.buffer_pool_manager_ page_id) i = true ∧
        comparator_ (KeyAt (FetchPage t.buffer_pool_manager_ page_id) i) key = 0 ∧
        ValueAt (FetchPage t.buffer_pool_manager_ page_id) i = value ∧
        Remove hash_fn_ B key value t = .ok (true, ⟨t.headerPage,
          writePage t.buffer_pool_manager_ page_id
            (BlockRemove (FetchPage t.buffer_pool_manager_ page_id) i)⟩)) := by
  refine ⟨fun r hr => Remove_frame hash_fn_ B key value t r hr, ?_⟩
  obtain ⟨hpos, _, hnd, hW⟩ := runOps_probeInv hash_fn_ B hB fuel ops _ t
    (construct_probeInv hash_fn_ B hB bpm num_buckets hn) hrun
  have hne : NumBlocks t.headerPage ≠ 0 := by omega
  have hhome := Nat.mod_lt (hash_fn_ key) hpos
  by_cases hyp : ∃ y, y + 1 < NumBlocks t.headerPage ∧
      isKeyValueExist B (ringPage t (hash_fn_ key % NumBlocks t.headerPage + y)) key value =
        true
  · right
    obtain ⟨y, hy, hex⟩ := hyp
    have hbefore := hW key value y (by omega) hex
    have hlater : ∀ x, y < x → 1 + x < NumBlocks t.headerPage →
        isKeyValueExist B (ringPage t (hash_fn_ key % NumBlocks t.headerPage + x)) key value =
          false := by
      intro x hyx hx
      by_contra hc
      rw [Bool.not_eq_false] at hc
      have := (hW key value x (by omega) hc y hyx).2
      rw [hex] at this
      exact Bool.noConfusion this
    simp only [ringPage, FetchPage] at hex hbefore hlater
    obtain ⟨i, hi, h1, h2, h3, h4⟩ := Remove_whileBlocks_hit B key value t.headerPage hnd
      t.buffer_pool_manager_ y (NumBlocks t.headerPage) 1
      (hash_fn_ key % NumBlocks t.headerPage) false (by omega) hhome (by omega) hbefore hex
      hlater
    refine ⟨_, i, getBlockPageId_mem t.headerPage _ (Nat.mod_lt
      (hash_fn_ key % NumBlocks t.headerPage + y) hpos), hi, h1,
      (comparator_eq_zero _ _).mpr h2, h3, ?_⟩
    unfold Remove
    simp only [hne, if_false, h4, FetchPage]
  · left
    have hno : ∀ x, 1 + x < NumBlocks t.headerPage →
        isKeyValueExist B (t.buffer_pool_manager_.pages (GetBlockPageId t.headerPage
          ((hash_fn_ key % NumBlocks t.headerPage + x) % NumBlocks t.headerPage)))
          key value = false := by
      intro x hx
      by_contra hc
      rw [Bool.not_eq_false] at hc
      exact hyp ⟨x, by omega, hc⟩
    unfold Remove
    simp only [hne, if_false]
    rw [Remove_whileBlocks_window_noop B key value t.headerPage t.buffer_pool_manager_ _ 1 _
      false false hhome hno]

theorem Remove_clears_one_valid_bit_witness :
    succeeded (runOps hashZero 4 1 duplicateOps (construct 4 emptyPool 8)) = true ∧
    returned (Remove hashZero 4 0 10
      (tableAfter (runOps hashZero 4 1 duplicateOps (construct 4 emptyPool 8))
        (construct 4 emptyPool 8))) = .ok true ∧
    (Remove hashZero 4 0 10
        (tableAfter (runOps hashZero 4 1 duplicateOps (construct 4 emptyPool 8))
          (construct 4 emptyPool 8)) =
      .ok (false, tableAfter (runOps hashZero 4 1 duplicateOps (construct 4 emptyPool 8))
        (construct 4 emptyPool 8)) ∨
      ∃ page_id i,
        page_id ∈ (tableAfter (runOps hashZero 4 1 duplicateOps (construct 4 emptyPool 8))
          (construct 4 emptyPool 8)).headerPage.block_page_ids ∧ i < 4 ∧
        IsValid (FetchPage (tableAfter (runOps hashZero 4 1 duplicateOps
          (construct 4 emptyPool 8)) (construct 4 emptyPool 8)).buffer_pool_manager_
            page_id) i = true ∧
        comparator_ (KeyAt (FetchPage (tableAfter (runOps hashZero 4 1 duplicateOps
          (construct 4 emptyPool 8)) (construct 4 emptyPool 8)).buffer_pool_manager_
            page_id) i) 0 = 0 ∧
        ValueAt (FetchPage (tableAfter (runOps hashZero 4 1 duplicateOps
          (construct 4 emptyPool 8)) (construct 4 emptyPool 8)).buffer_pool_manager_
            page_id) i = 10 ∧
        Remove hashZero 4 0 10
            (tableAfter (runOps hashZero 4 1 duplicateOps (construct 4 emptyPool 8))
              (construct 4 emptyPool 8)) =
          .ok (true, ⟨(tableAfter (runOps hashZero 4 1 duplicateOps
              (construct 4 emptyPool 8)) (construct 4 emptyPool 8)).headerPage,
            writePage (tableAfter (runOps hashZero 4 1 duplicateOps
                (construct 4 emptyPool 8)) (construct 4 emptyPool 8)).buffer_pool_manager_
              page_id
              (BlockRemove (FetchPage (tableAfter (runOps hashZero 4 1 duplicateOps
                (construct 4 emptyPool 8)) (construct 4 emptyPool 8)).buffer_pool_manager_
                  page_id) i)⟩)) :=
  ⟨by decide!, by decide!,
    (Remove_clears_one_valid_bit hashZero 4 (by decide) emptyPool 8 (by decide) 1 duplicateOps
      _ (ok_tableAfter _ _ (by decide!)) 0 10).2⟩

/-! ## Latches: who waits for whom -/

theorem WLock_none (table_latch_ : ReaderWriterLatch)
    (h : table_latch_.writer = true ∨ 0 < table_latch_.readers) :
    WLock table_latch_ = none := by
  unfold WLock
  rcases h with h | h
  · simp [h]
  · simp [h]

theorem WLock_free (readers : Nat) (writer : Bool) (table_latch_ : ReaderWriterLatch)
    (h : WLock ⟨readers, writer⟩ = some table_latch_) :
    readers = 0 ∧ writer = false ∧ table_latch_ = ⟨0, true⟩ := by
  unfold WLock at h
  split_ifs at h with hc
  simp only [Bool.or_eq_true, decide_eq_true_eq, not_or, Bool.not_eq_true, not_lt,
    Nat.le_zero] at hc
  simp only [Option.some.injEq] at h
  subst h
  exact ⟨hc.2, hc.1, by rw [hc.2]⟩

theorem RLock_none (table_latch_ : ReaderWriterLatch) (h : table_latch_.writer = true) :
    RLock table_latch_ = none := by
  simp [RLock, h]

theorem RLock_some (table_latch_ : ReaderWriterLatch) (h : table_latch_.writer = false) :
    RLock table_latch_ = some ⟨table_latch_.readers + 1, false⟩ := by
  simp [RLock, h]

theorem RLock_eq_some (table_latch_ table_latch1 : ReaderWriterLatch)
    (h : RLock table_latch_ = some table_latch1) :
    table_latch_.writer = false ∧ table_latch1 = ⟨table_latch_.readers + 1, false⟩ := by
  cases hw : table_latch_.writer with
  | true => rw [RLock_none _ hw] at h; simp at h
  | false =>
    rw [RLock_some _ hw] at h
    simp only [Option.some.injEq] at h
    exact ⟨rfl, h.symm⟩

theorem WUnLatch_WLatch (latched latched1 : List Nat) (page_id : Nat)
    (h : WLatch latched page_id = some latched1) :
    page_id ∉ latched ∧ WUnLatch latched1 page_id = latched := by
  unfold WLatch at h
  split_ifs at h with hm
  simp only [Option.some.injEq] at h
  subst h
  exact ⟨hm, by simp [WUnLatch]⟩

theorem WLatch_some (latched : List Nat) (page_id : Nat) (h : page_id ∉ latched) :
    WLatch latched page_id = some (page_id :: latched) := by
  simp [WLatch, h]

theorem WLatch_none (latched : List Nat) (page_id : Nat) (h : page_id ∈ latched) :
    WLatch latched page_id = none := by
  simp [WLatch, h]

/-- `Resize` waits at line 210 as long as the table latch is held, in read or
in write mode. -/
theorem ResizeLatchedWith_blocked (B : Nat)
    (insert : Int → Int → LinearProbeHashTable → Latches →
      Except Stop (Bool × LinearProbeHashTable × Latches))
    (initial_size : Nat) (t : LinearProbeHashTable) (l : Latches)
    (h : l.table_latch_.writer = true ∨ 0 < l.table_latch_.readers) :
    ResizeLatchedWith B insert initial_size t l = .error .blocked := by
  unfold ResizeLatchedWith
  rw [WLock_none _ h]

/-- `Insert` waits at line 104 as long as the table latch is held in write
mode. -/
theorem InsertLatched_blocked_of_writer (hash_fn_ : Int → Nat) (B fuel : Nat)
    (key value : Int) (t : LinearProbeHashTable) (l : Latches)
    (h : l.table_latch_.writer = true) :
    InsertLatched hash_fn_ B (fuel + 1) key value t l = .error .blocked := by
  unfold InsertLatched
  simp only
  rw [RLock_none _ h]

/-- An `Insert` that returns has held no write lock, has not gone through
`Resize`, and did what the data path does with the recursion bound 1; it
leaves one more hold in read mode on the table latch and the page latches as
they were. -/
theorem InsertLatched_ok (hash_fn_ : Int → Nat) (B fuel : Nat) (key value : Int)
    (t : LinearProbeHashTable) (l : Latches) (r : Bool × LinearProbeHashTable × Latches)
    (h : InsertLatched hash_fn_ B fuel key value t l = .ok r) :
    l.table_latch_.writer = false ∧
      Insert hash_fn_ B 1 key value t = .ok (r.1, r.2.1) ∧
      r.2.2 = ⟨⟨l.table_latch_.readers + 1, false⟩, l.latched⟩ := by
  cases fuel with
  | zero => simp [InsertLatched] at h
  | succ n =>
    unfold InsertLatched at h
    simp only at h
    cases hR : RLock l.table_latch_ with
    | none => rw [hR] at h; simp at h
    | some table_latch1 =>
      obtain ⟨hw, h1⟩ := RLock_eq_some _ _ hR
      subst h1
      rw [hR] at h
      simp only at h
      unfold Insert
      simp only
      split_ifs at h ⊢ with hn hresize hfound
      · rw [ResizeLatchedWith_blocked _ _ _ _ _ (Or.inr (Nat.succ_pos _))] at h
        simp at h
      · cases hL : WLatch l.latched
            (GetBlockPageId t.headerPage
              (Insert.whileBlocks B key value t.headerPage t.buffer_pool_manager_
                (NumBlocks t.headerPage + 1) 1 (hash_fn_ key % NumBlocks t.headerPage)).2.2) with
        | none => rw [hL] at h; simp at h
        | some latched1 =>
          rw [hL] at h
          simp only [Except.ok.injEq] at h
          subst h
          exact ⟨hw, rfl, by rw [(WUnLatch_WLatch _ _ _ hL).2]⟩
      · simp only [Except.ok.injEq] at h
        subst h
        exact ⟨hw, rfl, rfl⟩

/-- On a ring that is exhausted `Insert` does not return: with the hold in read
mode of line 104 in place it calls `Resize` (line 135), which waits for the
table latch at line 210. -/
theorem InsertLatched_exhausted (hash_fn_ : Int → Nat) (B fuel : Nat) (key value : Int)
    (t : LinearProbeHashTable) (l : Latches) (hpos : 0 < NumBlocks t.headerPage)
    (hex : RingExhausted B key value t) :
    InsertLatched hash_fn_ B (fuel + 1) key value t l = .error .blocked := by
  have hn : NumBlocks t.headerPage ≠ 0 := by omega
  have hw := Insert_whileBlocks_wrap B key value t.headerPage t.buffer_pool_manager_ hex
    (NumBlocks t.headerPage) (NumBlocks t.headerPage + 1) 1
    (hash_fn_ key % NumBlocks t.headerPage) (by omega) (Nat.mod_lt _ hpos) (by omega)
  unfold InsertLatched
  simp only
  cases hR : RLock l.table_latch_ with
  | none => rfl
  | some table_latch1 =>
    obtain ⟨_, h1⟩ := RLock_eq_some _ _ hR
    subst h1
    simp only [hn, if_false, hw, Bool.not_false, Bool.true_and, gt_iff_lt, Nat.lt_succ_self,
      decide_True, if_true]
    rw [ResizeLatchedWith_blocked _ _ _ _ _ (Or.inr (Nat.succ_pos _))]

theorem Remove_forSlotsLatched_ok (key value : Int) (page_id : Nat) (slots : List Nat)
    (blockPage : HashTableBlockPage) (res foundEmptySlot : Bool) (latched : List Nat)
    (r : HashTableBlockPage × Bool × Bool × List Nat)
    (h : Remove.forSlotsLatched key value page_id slots blockPage res foundEmptySlot latched =
      .ok r) :
    Remove.forSlots key value slots blockPage res foundEmptySlot = (r.1, r.2.1, r.2.2.1) := by
  induction slots generalizing foundEmptySlot latched with
  | nil =>
    simp only [Remove.forSlotsLatched, Except.ok.injEq] at h
    subst h
    rfl
  | cons i rest ih =>
    unfold Remove.forSlotsLatched at h
    unfold Remove.forSlots
    cases hL : WLatch latched page_id with
    | none => rw [hL] at h; simp at h
    | some latched1 =>
      rw [hL] at h
      simp only at h
      split_ifs at h ⊢ with hm he
      · simp only [Except.ok.injEq] at h
        subst h
        rfl
      · exact ih _ _ h
      · exact ih _ _ h

theorem Remove_whileBlocksLatched_ok (B : Nat) (key value : Int)
    (headerPage : HashTableHeaderPage) (steps visitedBlocks targetBlockIndex : Nat)
    (foundEmptySlot res : Bool) (bpm : BufferPoolManager) (latched : List Nat)
    (r : Bool × BufferPoolManager × List Nat)
    (h : Remove.whileBlocksLatched B key value headerPage steps visitedBlocks targetBlockIndex
      foundEmptySlot res bpm latched = .ok r) :
    Remove.whileBlocks B key value headerPage steps visitedBlocks targetBlockIndex
      foundEmptySlot res bpm = (r.1, r.2.1) := by
  induction steps generalizing visitedBlocks targetBlockIndex foundEmptySlot res bpm latched with
  | zero =>
    simp only [Remove.whileBlocksLatched, Except.ok.injEq] at h
    subst h
    rfl
  | succ n ih =>
    unfold Remove.whileBlocksLatched at h
    unfold Remove.whileBlocks
    split_ifs at h ⊢ with hc
    · simp only at h ⊢
      split at h
      · simp at h
      · next r1 hr1 =>
        have hs := Remove_forSlotsLatched_ok _ _ _ _ _ _ _ _ _ hr1
        rw [hs]
        exact ih _ _ _ _ _ _ h
    · simp only [Except.ok.injEq] at h
      subst h
      rfl

/-- A `Remove` that returns has held no write lock and did what the data path
does; it leaves one more hold in read mode on the table latch. -/
theorem RemoveLatched_ok (hash_fn_ : Int → Nat) (B : Nat) (key value : Int)
    (t : LinearProbeHashTable) (l : Latches) (r : Bool × LinearProbeHashTable × Latches)
    (h : RemoveLatched hash_fn_ B key value t l = .ok r) :
    l.table_latch_.writer = false ∧
      Remove hash_fn_ B key value t = .ok (r.1, r.2.1) ∧
      r.2.2.table_latch_ = ⟨l.table_latch_.readers + 1, false⟩ := by
  unfold RemoveLatched at h
  cases hR : RLock l.table_latch_ with
  | none => rw [hR] at h; simp at h
  | some table_latch1 =>
    obtain ⟨hw, h1⟩ := RLock_eq_some _ _ hR
    subst h1
    rw [hR] at h
    simp only at h
    unfold Remove
    split_ifs at h ⊢ with hn
    split at h
    · simp at h
    · next r1 hr1 =>
      simp only [Except.ok.injEq] at h
      subst h
      have hs := Remove_whileBlocksLatched_ok _ _ _ _ _ _ _ _ _ _ _ _ hr1
      simp only
      rw [hs]
      exact ⟨hw, rfl, trivial⟩

/-- A run of `Insert` and `Remove` calls that comes to its end is a run of the
data path in which no `Insert` goes through `Resize`, and it leaves the table
latch without a holder in write mode. -/
theorem runOpsLatched_ok (hash_fn_ : Int → Nat) (B fuel : Nat) (ops : List Op)
    (t : LinearProbeHashTable) (l : Latches) (s : LinearProbeHashTable × Latches)
    (hl : l.table_latch_.writer = false)
    (h : runOpsLatched hash_fn_ B fuel ops t l = .ok s) :
    runOps hash_fn_ B 1 ops t = .ok s.1 ∧ s.2.table_latch_.writer = false := by
  induction ops generalizing t l with
  | nil =>
    simp only [runOpsLatched, Except.ok.injEq] at h
    subst h
    exact ⟨rfl, hl⟩
  | cons op rest ih =>
    cases op with
    | insert key value =>
      simp only [runOpsLatched] at h
      split at h
      · simp at h
      · next r hr =>
        obtain ⟨_, hI, hL⟩ := InsertLatched_ok _ _ _ _ _ _ _ _ hr
        simp only [runOps, hI]
        exact ih _ _ (by rw [hL]) h
    | remove key value =>
      simp only [runOpsLatched] at h
      split at h
      · simp at h
      · next r hr =>
        obtain ⟨_, hI, hL⟩ := RemoveLatched_ok _ _ _ _ _ _ _ hr
        simp only [runOps, hI]
        exact ih _ _ (by rw [hL]) h

/-- With no holder in write mode `GetValue` returns what the data path
computes. -/
theorem GetValueLatched_of (hash_fn_ : Int → Nat) (B : Nat) (key : Int) (result : List Int)
    (t : LinearProbeHashTable) (l : Latches) (x : Bool × List Int)
    (hl : l.table_latch_.writer = false)
    (h : GetValue hash_fn_ B key result t = .ok x) :
    GetValueLatched hash_fn_ B key result t l =
      .ok (x.1, x.2, ⟨⟨l.table_latch_.readers + 1, false⟩, l.latched⟩) := by
  unfold GetValue at h
  unfold GetValueLatched
  rw [RLock_some _ hl]
  simp only
  split_ifs at h ⊢ with hn
  simp only [Except.ok.injEq] at h
  subst h
  rfl

/-! ## The recursion bound and the hash function in the latched functions -/

/-- The recursion bound plays no part in `Insert` with its latch calls: the
call of `Resize` at line 135 waits whatever `Insert` it would call. -/
theorem InsertLatched_fuel (hash_fn_ : Int → Nat) (B fuel : Nat) (key value : Int)
    (t : LinearProbeHashTable) (l : Latches) :
    InsertLatched hash_fn_ B (fuel + 1) key value t l =
      InsertLatched hash_fn_ B 1 key value t l := by
  unfold InsertLatched
  simp only
  cases hR : RLock l.table_latch_ with
  | none => rfl
  | some table_latch1 =>
    obtain ⟨_, h1⟩ := RLock_eq_some _ _ hR
    subst h1
    simp only
    split_ifs with hn hresize hfound
    · rfl
    · rw [ResizeLatchedWith_blocked _ _ _ _ _ (Or.inr (Nat.succ_pos _)),
        ResizeLatchedWith_blocked _ _ _ _ _ (Or.inr (Nat.succ_pos _))]
    · rfl
    · rfl

/-- On a table with one block the hash function plays no part in `Insert`. -/
theorem InsertLatched_one_block (hash_fn_ : Int → Nat) (B fuel : Nat) (key value : Int)
    (t : LinearProbeHashTable) (l : Latches) (hone : NumBlocks t.headerPage = 1) :
    InsertLatched hash_fn_ B (fuel + 1) key value t l =
      InsertLatched hashZero B 1 key value t l := by
  rw [InsertLatched_fuel]
  simp only [InsertLatched, hone, Nat.mod_one]

/-- On a table with one block the hash function plays no part in `Remove`. -/
theorem RemoveLatched_one_block (hash_fn_ : Int → Nat) (B : Nat) (key value : Int)
    (t : LinearProbeHashTable) (l : Latches) (hone : NumBlocks t.headerPage = 1) :
    RemoveLatched hash_fn_ B key value t l = RemoveLatched hashZero B key value t l := by
  unfold RemoveLatched
  simp only [hone, Nat.mod_one]

theorem InsertLatched_header (hash_fn_ : Int → Nat) (B fuel : Nat) (key value : Int)
    (t : LinearProbeHashTable) (l : Latches) (r : Bool × LinearProbeHashTable × Latches)
    (h : InsertLatched hash_fn_ B fuel key value t l = .ok r) :
    r.2.1.headerPage = t.headerPage :=
  (Insert_one_does_not_resize hash_fn_ B key value t (r.1, r.2.1)
    (InsertLatched_ok hash_fn_ B fuel key value t l r h).2.1).1

theorem RemoveLatched_header (hash_fn_ : Int → Nat) (B : Nat) (key value : Int)
    (t : LinearProbeHashTable) (l : Latches) (r : Bool × LinearProbeHashTable × Latches)
    (h : RemoveLatched hash_fn_ B key value t l = .ok r) :
    r.2.1.headerPage = t.headerPage :=
  Remove_header hash_fn_ B key value t (r.1, r.2.1)
    (RemoveLatched_ok hash_fn_ B key value t l r h).2.1

/-- On a table with one block the outcomes of a run do not depend on the hash
function nor on the recursion bound. -/
theorem traceOps_one_block (hash_fn_ : Int → Nat) (B fuel : Nat) (ops : List Op)
    (t : LinearProbeHashTable) (l : Latches) (hone : NumBlocks t.headerPage = 1) :
    traceOps hash_fn_ B (fuel + 1) ops t l = traceOps hashZero B 1 ops t l := by
  induction ops generalizing t l with
  | nil => rfl
  | cons op rest ih =>
    cases op with
    | insert key value =>
      simp only [traceOps]
      rw [InsertLatched_one_block hash_fn_ B fuel key value t l hone]
      cases hr : InsertLatched hashZero B 1 key value t l with
      | error e => rfl
      | ok r =>
        simp only
        rw [ih r.2.1 r.2.2 (by rw [InsertLatched_header _ _ _ _ _ _ _ _ hr]; exact hone)]
    | remove key value =>
      simp only [traceOps]
      rw [RemoveLatched_one_block hash_fn_ B key value t l hone]
      cases hr : RemoveLatched hashZero B key value t l with
      | error e => rfl
      | ok r =>
        simp only
        rw [ih r.2.1 r.2.2 (by rw [RemoveLatched_header _ _ _ _ _ _ _ hr]; exact hone)]

/-- The outcomes of a run do not depend on the recursion bound. -/
theorem traceOps_fuel (hash_fn_ : Int → Nat) (B fuel : Nat) (ops : List Op)
    (t : LinearProbeHashTable) (l : Latches) :
    traceOps hash_fn_ B (fuel + 1) ops t l = traceOps hash_fn_ B 1 ops t l := by
  induction ops generalizing t l with
  | nil => rfl
  | cons op rest ih =>
    cases op with
    | insert key value =>
      simp only [traceOps]
      rw [InsertLatched_fuel hash_fn_ B fuel key value t l]
      cases hr : InsertLatched hash_fn_ B 1 key value t l with
      | error e => rfl
      | ok r =>
        simp only
        rw [ih r.2.1 r.2.2]
    | remove key value =>
      simp only [traceOps]
      cases hr : RemoveLatched hash_fn_ B key value t l with
      | error e => rfl
      | ok r =>
        simp only
        rw [ih r.2.1 r.2.2]

theorem exists_of_completed {α : Type} (r : Except Stop α) (h : completed r = true) :
    ∃ x, r = .ok x := by
  cases r with
  | error e => simp [completed] at h
  | ok x => exact ⟨x, rfl⟩

theorem ok_stateAfter (r : Except Stop (LinearProbeHashTable × Latches))
    (t : LinearProbeHashTable) (l : Latches) (h : completed r = true) :
    r = .ok (stateAfter r t l) := by
  cases r with
  | error e => simp [completed] at h
  | ok x => rfl

/-! ## Claims on calls that wait for a latch -/

/-- C5: with block capacity 4, two blocks and every key hashed to block 0,
`Insert(0, 10)` and `Remove(0, 10)` return true, and the `Remove(7, 70)` that
follows, of a pair that was never inserted, does not return: it waits at line
177 for the latch of the page of block 0 (page id 1), which `Remove(0, 10)`
left held when it left its slot loop at line 183 without reaching line 188. -/
theorem Remove_never_inserted_waits_for_page_latch (fuel : Nat) :
    traceOps hashZero 4 (fuel + 1) [Op.insert 0 10, Op.remove 0 10, Op.remove 7 70]
        (construct 4 emptyPool 8) noLatches = [.ok true, .ok true, .error .blocked] ∧
    ((runOpsLatched hashZero 4 1 [Op.insert 0 10, Op.remove 0 10]
        (construct 4 emptyPool 8) noLatches).bind fun s =>
      .ok (s.1.headerPage.block_page_ids, s.2.latched)) = .ok ([1, 2], [1]) := by
  rw [traceOps_fuel]
  exact ⟨by decide!, by decide!⟩

/-- C7: with block capacity 4 and a table constructed with capacity 4 (one
block), whatever the hash function, the Inserts of (1, 100), (2, 200), (3, 300)
and (4, 400) return true and the Insert of (5, 500) does not return: holding
the table latch in read mode since line 104, it calls `Resize` at line 135,
which waits for the same latch at line 210. -/
theorem Insert_overflowing_one_block_never_returns (hash_fn_ : Int → Nat) (fuel : Nat) :
    traceOps hash_fn_ 4 (fuel + 1)
        [Op.insert 1 100, Op.insert 2 200, Op.insert 3 300, Op.insert 4 400, Op.insert 5 500]
        (construct 4 emptyPool 4) noLatches =
      [.ok true, .ok true, .ok true, .ok true, .error .blocked] := by
  rw [traceOps_one_block _ _ _ _ _ _ (by rw [construct_numBlocks])]
  decide!

/-- C9: whatever the latches, a `Resize` that has to grow a table with at least
one block does not return: either it waits for the table latch at line 210, or
it takes it in write mode and its first rehash call of `Insert` (line 241)
waits for the same latch at line 104. -/
theorem Resize_that_grows_never_returns (hash_fn_ : Int → Nat) (B : Nat) (hB : 0 < B)
    (fuel initial_size : Nat) (t : LinearProbeHashTable) (l : Latches)
    (hpos : 0 < NumBlocks t.headerPage)
    (hgrow : t.headerPage.size < initial_size * 2 % 2 ^ 64) :
    ResizeLatched hash_fn_ B (fuel + 1) initial_size t l = .error .blocked := by
  unfold ResizeLatched ResizeLatchedWith
  cases hW : WLock l.table_latch_ with
  | none => rfl
  | some table_latch1 =>
    obtain ⟨_, _, h1⟩ := WLock_free l.table_latch_.readers l.table_latch_.writer _ hW
    subst h1
    simp only [ge_iff_le, Nat.not_le.mpr hgrow, if_false]
    obtain ⟨b, rfl⟩ : ∃ b, B = b + 1 := ⟨B - 1, by omega⟩
    cases hids : t.headerPage.block_page_ids with
    | nil => simp [NumBlocks, hids] at hpos
    | cons page_id rest =>
      simp only [List.map_cons, List.zip_cons_cons, Resize.forBlocksLatched,
        List.range_succ_eq_map, Resize.forPairsLatched]
      rw [InsertLatched_blocked_of_writer _ _ _ _ _ _ _ rfl]

theorem Resize_that_grows_never_returns_witness :
    0 < 4 ∧ 0 < NumBlocks (construct 4 emptyPool 8).headerPage ∧
    (construct 4 emptyPool 8).headerPage.size < 8 * 2 % 2 ^ 64 ∧
    ResizeLatched hashZero 4 1 8 (construct 4 emptyPool 8) noLatches = .error .blocked :=
  ⟨by decide, by decide!, by decide!,
    Resize_that_grows_never_returns hashZero 4 (by decide) 0 8 (construct 4 emptyPool 8)
      noLatches (by decide!) (by decide!)⟩

/-- C10: whatever the latches, on a table with at least one block in which
every block is full and none holds the valid pair `(key, value)`,
`Insert(key, value)` does not return: it calls `Resize` (line 135) while it
holds the table latch in read mode (line 104), or it waits at line 104
itself. -/
theorem Insert_on_exhausted_ring_never_returns (hash_fn_ : Int → Nat) (B fuel : Nat)
    (key value : Int) (t : LinearProbeHashTable) (l : Latches)
    (hpos : 0 < NumBlocks t.headerPage) (hex : RingExhausted B key value t) :
    InsertLatched hash_fn_ B (fuel + 1) key value t l = .error .blocked :=
  InsertLatched_exhausted hash_fn_ B fuel key value t l hpos hex

theorem Insert_on_exhausted_ring_never_returns_witness :
    completed (runOpsLatched hashId 4 1 fourInserts (construct 4 emptyPool 4) noLatches) =
      true ∧
    0 < NumBlocks fullBlock.1.headerPage ∧ RingExhausted 4 5 15 fullBlock.1 ∧
    InsertLatched hashId 4 1 5 15 fullBlock.1 fullBlock.2 = .error .blocked := by
  have hpos : 0 < NumBlocks fullBlock.1.headerPage := by decide!
  have hring : RingExhausted 4 5 15 fullBlock.1 := by
    intro page_id hmem
    have hids : fullBlock.1.headerPage.block_page_ids = [1] := by decide!
    rw [hids, List.mem_singleton] at hmem
    subst hmem
    decide!
  exact ⟨by decide!, hpos, hring,
    Insert_on_exhausted_ring_never_returns hashId 4 0 5 15 fullBlock.1 fullBlock.2 hpos hring⟩

/-- C14: with block capacity 4, two blocks and every key hashed to block 0,
`Insert(0, 10)` and `Remove(0, 10)` return true and leave both blocks not
full, block 0 with a tombstone in slot 0 and slot 1 unoccupied. The
`Insert(1, 11)` that follows does not return and writes nothing: it waits at
line 138 for the latch of the page of block 0 (page id 1), which
`Remove(0, 10)` left held when it left its slot loop at line 183. -/
theorem Insert_into_free_slot_waits_for_page_latch (fuel : Nat) :
    traceOps hashZero 4 (fuel + 1) [Op.insert 0 10, Op.remove 0 10, Op.insert 1 11]
        (construct 4 emptyPool 8) noLatches = [.ok true, .ok true, .error .blocked] ∧
    ((runOpsLatched hashZero 4 1 [Op.insert 0 10, Op.remove 0 10]
        (construct 4 emptyPool 8) noLatches).bind fun s =>
      .ok (fullFlags 4 s.1, ringPage s.1 (hashZero 1) 0, ringPage s.1 (hashZero 1) 1,
        s.2.latched)) =
      .ok ([false, false], ⟨0, 10, true, false⟩, ⟨0, 0, false, false⟩, [1]) := by
  rw [traceOps_fuel]
  exact ⟨by decide!, by decide!⟩

/-- C15: an `Insert` that returns leaves the header, and so the capacity, as it
was, and it was called on a ring that is not exhausted; on an exhausted ring
`Insert` does not return. With block capacity 2, two blocks and the identity
hash, four Inserts fill both blocks and return true; the Insert of (4, 14)
meets an exhausted ring and does not return, and the capacity is still the 4
of the constructor. -/
theorem Insert_never_changes_capacity :
    (∀ (hash_fn_ : Int → Nat) (B fuel : Nat) (key value : Int) (t : LinearProbeHashTable)
        (l : Latches) (r : Bool × LinearProbeHashTable × Latches),
      InsertLatched hash_fn_ B fuel key value t l = .ok r →
        r.2.1.headerPage = t.headerPage ∧ GetSize r.2.1 = GetSize t ∧
        ¬ RingExhausted B key value t) ∧
    (∀ fuel, traceOps hashId 2 (fuel + 1)
        [Op.insert 0 10, Op.insert 1 11, Op.insert 2 12, Op.insert 3 13, Op.insert 4 14]
        (construct 2 emptyPool 4) noLatches =
      [.ok true, .ok true, .ok true, .ok true, .error .blocked]) ∧
    ((runOpsLatched hashId 2 1
        [Op.insert 0 10, Op.insert 1 11, Op.insert 2 12, Op.insert 3 13]
        (construct 2 emptyPool 4) noLatches).bind fun s =>
      .ok (fullFlags 2 s.1, GetSize s.1, NumBlocks s.1.headerPage)) =
      .ok ([true, true], 4, 2) := by
  refine ⟨?_, ?_, by decide!⟩
  · intro hash_fn_ B fuel key value t l r h
    have hI := (InsertLatched_ok hash_fn_ B fuel key value t l r h).2.1
    have hH := InsertLatched_header hash_fn_ B fuel key value t l r h
    refine ⟨hH, by unfold GetSize; rw [hH], ?_⟩
    intro hex
    have hpos : 0 < NumBlocks t.headerPage := by
      by_contra h0
      have h00 : NumBlocks t.headerPage = 0 := by omega
      simp [Insert, h00] at hI
    cases fuel with
    | zero => simp [InsertLatched] at h
    | succ n =>
      rw [InsertLatched_exhausted hash_fn_ B n key value t l hpos hex] at h
      simp at h
  · intro fuel
    rw [traceOps_fuel]
    decide!

theorem Insert_never_changes_capacity_witness :
    ∃ r, InsertLatched hashId 4 1 1 11 (construct 4 emptyPool 4) noLatches = .ok r ∧
      r.2.1.headerPage = (construct 4 emptyPool 4).headerPage ∧
      GetSize r.2.1 = GetSize (construct 4 emptyPool 4) ∧
      ¬ RingExhausted 4 1 11 (construct 4 emptyPool 4) := by
  obtain ⟨r, hr⟩ := exists_of_completed
    (InsertLatched hashId 4 1 1 11 (construct 4 emptyPool 4) noLatches) (by decide!)
  exact ⟨r, hr, Insert_never_changes_capacity.1 hashId 4 1 1 11 _ noLatches r hr⟩

/-- C16: `Insert` and `Resize` wait for each other. `Resize` does not return
when the table latch is held in read mode, as it is at line 135, where `Insert`
calls it after taking the latch at line 104; `Insert` does not return when the
latch is held in write mode, as it is at line 241, where `Resize` calls it
after taking the latch at line 210. So an `Insert` that calls `Resize` does not
terminate: with block capacity 2 and a table of one block, whatever the hash
function, two Inserts return true and the third does not return. -/
theorem Insert_and_Resize_wait_for_each_other :
    (∀ (hash_fn_ : Int → Nat) (B fuel initial_size : Nat) (t : LinearProbeHashTable)
        (l : Latches), 0 < l.table_latch_.readers →
      ResizeLatched hash_fn_ B fuel initial_size t l = .error .blocked) ∧
    (∀ (hash_fn_ : Int → Nat) (B fuel : Nat) (key value : Int) (t : LinearProbeHashTable)
        (l : Latches), l.table_latch_.writer = true →
      InsertLatched hash_fn_ B (fuel + 1) key value t l = .error .blocked) ∧
    (∀ (hash_fn_ : Int → Nat) (fuel : Nat), traceOps hash_fn_ 2 (fuel + 1)
        [Op.insert 1 11, Op.insert 2 12, Op.insert 3 13] (construct 2 emptyPool 2) noLatches =
      [.ok true, .ok true, .error .blocked]) := by
  refine ⟨?_, ?_, ?_⟩
  · intro hash_fn_ B fuel initial_size t l h
    exact ResizeLatchedWith_blocked B _ initial_size t l (Or.inr h)
  · intro hash_fn_ B fuel key value t l h
    exact InsertLatched_blocked_of_writer hash_fn_ B fuel key value t l h
  · intro hash_fn_ fuel
    rw [traceOps_one_block _ _ _ _ _ _ (by rw [construct_numBlocks])]
    decide!

theorem Insert_and_Resize_wait_for_each_other_witness :
    (0 < (⟨⟨1, false⟩, []⟩ : Latches).table_latch_.readers ∧
      ResizeLatched hashId 4 1 4 (construct 4 emptyPool 4) ⟨⟨1, false⟩, []⟩ =
        .error .blocked) ∧
    ((⟨⟨0, true⟩, []⟩ : Latches).table_latch_.writer = true ∧
      InsertLatched hashId 4 1 0 0 (construct 4 emptyPool 8) ⟨⟨0, true⟩, []⟩ =
        .error .blocked) :=
  ⟨⟨by decide, Insert_and_Resize_wait_for_each_other.1 hashId 4 1 4 _ _ (by decide)⟩,
    ⟨rfl, Insert_and_Resize_wait_for_each_other.2.1 hashId 4 0 0 0 _ _ rfl⟩⟩

/-! ## Claims on runs that come to their end -/

/-- C6, as stated, fails: with block capacity 4 a table constructed with
`num_buckets = 3` lists no block, and `GetValue(6)` on the new table takes the
remainder of the hash by zero at line 67. -/
theorem GetValue_on_table_without_block_faults :
    GetValueLatched hashId 4 6 [] (construct 4 emptyPool 3) noLatches =
      .error (.fault .modByZero) := by
  decide!

/-- C6, amended: on a table constructed with at least one block, after any
sequence of Insert and Remove calls that all returned and in which no key
comparing equal to `key` was inserted, `GetValue(key)` returns false and leaves
`result` as it was. -/
theorem GetValue_never_inserted_is_empty_after_calls (hash_fn_ : Int → Nat) (B : Nat)
    (hB : 0 < B) (bpm : BufferPoolManager) (num_buckets : Nat) (hn : B ≤ num_buckets)
    (fuel : Nat) (ops : List Op) (s : LinearProbeHashTable × Latches) (key : Int)
    (result : List Int)
    (hrun : runOpsLatched hash_fn_ B fuel ops (construct B bpm num_buckets) noLatches = .ok s)
    (hnever : ∀ k v, Op.insert k v ∈ ops → comparator_ k key ≠ 0) :
    ∃ l, GetValueLatched hash_fn_ B key result s.1 s.2 = .ok (false, result, l) := by
  obtain ⟨hdata, hw⟩ := runOpsLatched_ok hash_fn_ B fuel ops _ noLatches s rfl hrun
  have hinv := runOps_inv (fun k v => Op.insert k v ∈ ops) hash_fn_ B hB 1 ops
    (fun _ _ hm => hm) _ s.1 (construct_inv _ B hB bpm num_buckets hn) hdata
  have hget : GetValue hash_fn_ B key result s.1 = .ok (false, result) := by
    apply GetValue_nomatch hash_fn_ B key result s.1 hinv.2.2
    rintro page_id hmem i hi ⟨hvalid, hkey⟩
    have := hinv.1 page_id hmem i hi (Or.inr hvalid)
    simp only [FetchPage] at this
    exact hnever _ _ this ((comparator_eq_zero _ _).mpr hkey)
  exact ⟨_, GetValueLatched_of hash_fn_ B key result s.1 s.2 (false, result) hw hget⟩

theorem GetValue_never_inserted_is_empty_after_calls_witness :
    0 < 4 ∧ 4 ≤ 8 ∧
    completed (runOpsLatched hashId 4 1 returningOps (construct 4 emptyPool 8) noLatches) =
      true ∧
    (∀ k v, Op.insert k v ∈ returningOps → comparator_ k 6 ≠ 0) ∧
    ∃ l, GetValueLatched hashId 4 6 [] afterReturningOps.1 afterReturningOps.2 =
      .ok (false, [], l) := by
  have hok : completed (runOpsLatched hashId 4 1 returningOps (construct 4 emptyPool 8)
      noLatches) = true := by decide!
  have hnever : ∀ k v, Op.insert k v ∈ returningOps → comparator_ k 6 ≠ 0 := by
    intro k v h
    simp [returningOps] at h
    rcases h with ⟨rfl, _⟩ | ⟨rfl, _⟩ | ⟨rfl, _⟩ <;> decide
  exact ⟨by decide, by decide, hok, hnever,
    GetValue_never_inserted_is_empty_after_calls hashId 4 (by decide) emptyPool 8 (by decide)
      1 returningOps afterReturningOps 6 []
      (ok_stateAfter _ (construct 4 emptyPool 8) noLatches hok) hnever⟩

theorem Resize_forPairsLatched_header
    (insert : Int → Int → LinearProbeHashTable → Latches →
      Except Stop (Bool × LinearProbeHashTable × Latches))
    (hins : ∀ key value t l r, insert key value t l = .ok r → r.2.1.headerPage = t.headerPage)
    (block : HashTableBlockPage) (slots : List Nat) (t : LinearProbeHashTable) (l : Latches)
    (s : LinearProbeHashTable × Latches)
    (h : Resize.forPairsLatched insert block slots t l = .ok s) :
    s.1.headerPage = t.headerPage := by
  induction slots generalizing t l with
  | nil =>
    simp only [Resize.forPairsLatched, Except.ok.injEq] at h
    subst h
    rfl
  | cons i rest ih =>
    simp only [Resize.forPairsLatched] at h
    split at h
    · simp at h
    · next r hr =>
      rw [ih _ _ h, hins _ _ _ _ _ hr]

theorem Resize_forBlocksLatched_header (B : Nat)
    (insert : Int → Int → LinearProbeHashTable → Latches →
      Except Stop (Bool × LinearProbeHashTable × Latches))
    (hins : ∀ key value t l r, insert key value t l = .ok r → r.2.1.headerPage = t.headerPage)
    (blocks : List (HashTableBlockPage × Nat)) (t : LinearProbeHashTable) (l : Latches)
    (s : LinearProbeHashTable × Latches)
    (h : Resize.forBlocksLatched B insert blocks t l = .ok s) :
    s.1.headerPage = t.headerPage := by
  induction blocks generalizing t l with
  | nil =>
    simp only [Resize.forBlocksLatched, Except.ok.injEq] at h
    subst h
    rfl
  | cons b rest ih =>
    obtain ⟨block, oldPageId⟩ := b
    simp only [Resize.forBlocksLatched] at h
    split at h
    · simp at h
    · next r hr =>
      rw [ih _ _ h]
      exact Resize_forPairsLatched_header insert hins block _ t l r hr

/-- A `Resize` that returns leaves the header as it was, or with the capacity
`initial_size * 2` modulo 2^64 and the blocks allocated for it. -/
theorem ResizeLatchedWith_header (B : Nat)
    (insert : Int → Int → LinearProbeHashTable → Latches →
      Except Stop (Bool × LinearProbeHashTable × Latches))
    (hins : ∀ key value t l r, insert key value t l = .ok r → r.2.1.headerPage = t.headerPage)
    (initial_size : Nat) (t : LinearProbeHashTable) (l : Latches)
    (s : LinearProbeHashTable × Latches)
    (h : ResizeLatchedWith B insert initial_size t l = .ok s) :
    s.1.headerPage = t.headerPage ∨
      s.1.headerPage = (allocBlocks (initial_size * 2 % 2 ^ 64 / B)
        (ResetNextIndex (SetSize t.headerPage (initial_size * 2 % 2 ^ 64)))
        t.buffer_pool_manager_).1 := by
  unfold ResizeLatchedWith at h
  cases hW : WLock l.table_latch_ with
  | none => rw [hW] at h; simp at h
  | some table_latch1 =>
    rw [hW] at h
    simp only at h
    split_ifs at h with hsz
    · simp only [Except.ok.injEq] at h
      subst h
      exact Or.inl rfl
    · split at h
      · simp at h
      · next r1 hr1 =>
        simp only [Except.ok.injEq] at h
        subst h
        exact Or.inr (Resize_forBlocksLatched_header B insert hins _ _ _ _ hr1)

theorem runCallsLatched_header (hash_fn_ : Int → Nat) (B : Nat) (Q : HashTableHeaderPage → Prop)
    (fuel : Nat) (calls : List Call)
    (hcall : ∀ initial_size, Call.resize initial_size ∈ calls → ∀ headerPage bpm,
      Q headerPage → Q (allocBlocks (initial_size * 2 % 2 ^ 64 / B)
        (ResetNextIndex (SetSize headerPage (initial_size * 2 % 2 ^ 64))) bpm).1)
    (t : LinearProbeHashTable) (l : Latches) (s : LinearProbeHashTable × Latches)
    (hQ : Q t.headerPage)
    (h : runCallsLatched hash_fn_ B fuel calls t l = .ok s) : Q s.1.headerPage := by
  induction calls generalizing t l with
  | nil =>
    simp only [runCallsLatched, Except.ok.injEq] at h
    subst h
    exact hQ
  | cons call rest ih =>
    have hrest : ∀ initial_size, Call.resize initial_size ∈ rest → ∀ headerPage bpm,
        Q headerPage → Q (allocBlocks (initial_size * 2 % 2 ^ 64 / B)
          (ResetNextIndex (SetSize headerPage (initial_size * 2 % 2 ^ 64))) bpm).1 :=
      fun n hn => hcall n (List.mem_cons_of_mem _ hn)
    cases call with
    | insert key value =>
      simp only [runCallsLatched] at h
      split at h
      · simp at h
      · next r hr =>
        exact ih hrest _ _ (by rw [InsertLatched_header _ _ _ _ _ _ _ _ hr]; exact hQ) h
    | remove key value =>
      simp only [runCallsLatched] at h
      split at h
      · simp at h
      · next r hr =>
        exact ih hrest _ _ (by rw [RemoveLatched_header _ _ _ _ _ _ _ hr]; exact hQ) h
    | resize initial_size =>
      simp only [runCallsLatched] at h
      split at h
      · simp at h
      · next r hr =>
        refine ih hrest _ _ ?_ h
        rcases ResizeLatchedWith_header B _
          (fun key value t0 l0 r0 h0 => InsertLatched_header hash_fn_ B fuel key value t0 l0 r0 h0)
          initial_size t l r hr with h1 | h1
        · rw [h1]; exact hQ
        · rw [h1]; exact hcall initial_size (List.mem_cons_self _ _) _ _ hQ

/-- C11, amended: after the constructor and any sequence of Insert, Remove and
Resize calls that all returned, the number of block page ids in the header is
the header's capacity divided by `BLOCK_ARRAY_SIZE`, rounded down; the capacity
is that number times `BLOCK_ARRAY_SIZE` when `num_buckets` is a multiple of
`BLOCK_ARRAY_SIZE` and so is, for every direct call `Resize(n)`, the `size_t`
product `n * 2`, which is taken modulo 2^64 (line 212); `GetSize` reports the
header's capacity when it is below 2^31. -/
theorem header_lists_floor_of_capacity (hash_fn_ : Int → Nat) (B : Nat)
    (bpm : BufferPoolManager) (num_buckets fuel : Nat) (calls : List Call)
    (s : LinearProbeHashTable × Latches)
    (hrun : runCallsLatched hash_fn_ B fuel calls (construct B bpm num_buckets) noLatches =
      .ok s) :
    NumBlocks s.1.headerPage = s.1.headerPage.size / B ∧
      (B ∣ num_buckets → (∀ n, Call.resize n ∈ calls → B ∣ n * 2 % 2 ^ 64) →
        s.1.headerPage.size = NumBlocks s.1.headerPage * B) ∧
      (s.1.headerPage.size < 2 ^ 31 → GetSize s.1 = s.1.headerPage.size) := by
  have h1 : NumBlocks s.1.headerPage = s.1.headerPage.size / B := by
    refine runCallsLatched_header hash_fn_ B (fun hdr => NumBlocks hdr = hdr.size / B) fuel
      calls ?_ _ _ s ?_ hrun
    · intro n _ hdr bpm1 _
      simp [allocBlocks_header, NumBlocks, ResetNextIndex, SetSize]
    · simp only [construct_numBlocks, construct_size]
  refine ⟨h1, ?_, GetSize_eq s.1⟩
  intro hdvd hcalls
  have h2 : B ∣ s.1.headerPage.size := by
    refine runCallsLatched_header hash_fn_ B (fun hdr => B ∣ hdr.size) fuel calls ?_ _ _ s ?_
      hrun
    · intro n hn hdr bpm1 _
      simp only [allocBlocks_header, ResetNextIndex, SetSize]
      exact hcalls n hn
    · simp only [construct_size]
      exact hdvd
  rw [h1]
  exact (Nat.div_mul_cancel h2).symm

theorem header_lists_floor_of_capacity_witness :
    completed (runCallsLatched hashId 4 1 growCalls (construct 4 emptyPool 0) noLatches) =
      true ∧
    4 ∣ 0 ∧ (∀ n, Call.resize n ∈ growCalls → 4 ∣ n * 2 % 2 ^ 64) ∧
    grownTable.1.headerPage.size < 2 ^ 31 ∧
    NumBlocks grownTable.1.headerPage = grownTable.1.headerPage.size / 4 ∧
    grownTable.1.headerPage.size = NumBlocks grownTable.1.headerPage * 4 ∧
    GetSize grownTable.1 = grownTable.1.headerPage.size ∧
    grownTable.1.headerPage.size = 8 := by
  have hok : completed (runCallsLatched hashId 4 1 growCalls (construct 4 emptyPool 0)
      noLatches) = true := by decide!
  have hcalls : ∀ n, Call.resize n ∈ growCalls → 4 ∣ n * 2 % 2 ^ 64 := by
    intro n h
    simp [growCalls] at h
    subst h
    decide
  have hsize : grownTable.1.headerPage.size = 8 := by decide!
  have hlt : grownTable.1.headerPage.size < 2 ^ 31 := by rw [hsize]; norm_num
  obtain ⟨h1, h2, h3⟩ := header_lists_floor_of_capacity hashId 4 emptyPool 0 1 growCalls
    grownTable (ok_stateAfter _ (construct 4 emptyPool 0) noLatches hok)
  exact ⟨hok, by decide, hcalls, hlt, h1, h2 (by decide) hcalls, h3 hlt, hsize⟩

end bustub
